import Mathlib

set_option linter.unusedVariables false
set_option linter.unnecessarySimpa false
set_option maxHeartbeats 1000000

namespace Diflib

/-!  # Shallow embedding of `src/diflib.c`

Byte strings are `List Nat` (one `Nat` per byte; the C code only ever compares
bytes for equality, so no modular arithmetic is involved).  A caller-owned
output buffer of capacity `cap` is modelled by the list of bytes written so
far: both `AddEditScript` and `ApplyEditScript` write their buffers strictly
sequentially, at an index equal to the number of bytes already written, and
they check `Index < Length` (resp. the `NewIndex + Count >= Capacity` bound)
before writing, so `buf.length` plays the role of the write index and
`buf.length ≤ cap` the role of staying inside the buffer.

An `EDIT_SCRIPT_ENTRY` byte packs the bitfields `Count:6` (low six bits,
value `Count - 1`) and `Opcode:2` (high two bits); it is modelled as the
number `Opcode * 64 + (Count - 1)`, decoded by `b / 64` and `b % 64 + 1`.

The C `while`/`for` loops are modelled by structurally recursive functions
with an explicit fuel argument, so that they evaluate by kernel reduction.
In each case the loop condition is tested before fuel is consumed and the
fuel passed by the wrapper is an upper bound on the number of iterations the
C loop can perform (each iteration strictly consumes some of it), so the
out-of-fuel branch is unreachable; where a theorem needs this, it is proved.

`malloc` for the trace arena is assumed to succeed (the `-2` return of
`ComputeEditScript` is out of scope of every claim), and reading memory that
the C program never wrote (or out of bounds) yields the default value `0`.
-/

def NoopOpcode : Nat := 0
def InsertOpcode : Nat := 1
def DeleteOpcode : Nat := 2
def KeepOpcode : Nat := 3

/-- `readBytes l i c` models a `memcpy` of `c` bytes starting at `&l[i]`;
bytes outside `l` read as `0`. -/
def readBytes (l : List Nat) (i c : Nat) : List Nat :=
  (List.range c).map (fun j => l.getD (i + j) 0)

/-- The opcode loop of `ApplyEditScript` (src/diflib.c:566-585), with fuel.
`none` models the `return -1` overflow exits; otherwise the final
`OldStringIndex` and the bytes written so far are returned. `NewStringIndex`
always equals the number of bytes written, i.e. `out.length`.  Note that the
C dispatch is `if Delete … else if Keep … else <insert>`, so every tag other
than `Delete` and `Keep` (including `Noop`) takes the `Insert` branch.  Every
iteration advances `ScriptIndex` by at least one, so `script.length` fuel is
enough. -/
def applyLoopF (old script : List Nat) (cap : Nat) :
    Nat → Nat → Nat → List Nat → Option (Nat × List Nat)
  | 0, scriptIdx, oldIdx, out =>
    if scriptIdx < script.length then none else some (oldIdx, out)
  | fuel + 1, scriptIdx, oldIdx, out =>
    if scriptIdx < script.length then
      if script.getD scriptIdx 0 / 64 = DeleteOpcode then
        applyLoopF old script cap fuel (scriptIdx + 1)
          (oldIdx + (script.getD scriptIdx 0 % 64 + 1)) out
      else if script.getD scriptIdx 0 / 64 = KeepOpcode then
        if cap ≤ out.length + (script.getD scriptIdx 0 % 64 + 1) then none
        else applyLoopF old script cap fuel (scriptIdx + 1)
          (oldIdx + (script.getD scriptIdx 0 % 64 + 1))
          (out ++ readBytes old oldIdx (script.getD scriptIdx 0 % 64 + 1))
      else
        if cap ≤ out.length + (script.getD scriptIdx 0 % 64 + 1) then none
        else applyLoopF old script cap fuel
          (scriptIdx + (script.getD scriptIdx 0 % 64 + 1) + 1) oldIdx
          (out ++ readBytes script (scriptIdx + 1) (script.getD scriptIdx 0 % 64 + 1))
    else some (oldIdx, out)

/-- The opcode loop of `ApplyEditScript`, started as the C function starts it. -/
def applyLoop (old script : List Nat) (cap : Nat) : Option (Nat × List Nat) :=
  applyLoopF old script cap script.length 0 0 []

/-- `ApplyEditScript` (src/diflib.c:522-593).  Returns the C return value
(`-1`, or the number of bytes written) together with the bytes written into
`NewString` (on an error return the C caller discards the partial buffer, so
we return `[]` there). -/
def ApplyEditScript (old script : List Nat) (cap : Nat) : Int × List Nat :=
  match applyLoop old script cap with
  | none => (-1, [])
  | some (oldIdx, out) =>
    if oldIdx < old.length then
      if cap ≤ out.length + (old.length - oldIdx) then (-1, [])
      else (((out.length + (old.length - oldIdx) : Nat) : Int),
            out ++ readBytes old oldIdx (old.length - oldIdx))
    else ((out.length : Int), out)

/-- Decode a script into its opcode stream (with fuel, one unit per opcode
byte): one `(opcode, count, payload)` triple per opcode byte.  The payload is
the run of bytes the `Insert` branch of `ApplyEditScript` would copy
(zero-padded past the end of the script, as `readBytes` reads).  Tags other
than `Delete` and `Keep` take the `Insert` branch in the C code, so they
consume a payload here as well. -/
def decodeOpsF : Nat → List Nat → List (Nat × Nat × List Nat)
  | _, [] => []
  | 0, _ :: _ => []
  | fuel + 1, b :: rest =>
    if b / 64 = DeleteOpcode ∨ b / 64 = KeepOpcode then
      (b / 64, b % 64 + 1, []) :: decodeOpsF fuel rest
    else
      (b / 64, b % 64 + 1, readBytes rest 0 (b % 64 + 1)) ::
        decodeOpsF fuel (rest.drop (b % 64 + 1))

/-- The opcode stream of a script; each opcode byte consumes at least one
byte of the script, so `script.length` fuel is enough. -/
def decodeOps (script : List Nat) : List (Nat × Nat × List Nat) :=
  decodeOpsF script.length script

/-- Capacity-free replay of the opcode loop over a decoded stream: collects,
in order, every bounds check `NewStringIndex + Count` that the loop performs,
and also returns the final `OldStringIndex` and the final output bytes. -/
def loopSim (old : List Nat) : List (Nat × Nat × List Nat) → Nat → List Nat →
    (List Nat × Nat × List Nat)
  | [], oldIdx, out => ([], oldIdx, out)
  | (op, c, pay) :: rest, oldIdx, out =>
    if op = DeleteOpcode then loopSim old rest (oldIdx + c) out
    else if op = KeepOpcode then
      ((out.length + c) :: (loopSim old rest (oldIdx + c) (out ++ readBytes old oldIdx c)).1,
       (loopSim old rest (oldIdx + c) (out ++ readBytes old oldIdx c)).2)
    else
      ((out.length + c) :: (loopSim old rest oldIdx (out ++ pay)).1,
       (loopSim old rest oldIdx (out ++ pay)).2)

/-- All output-buffer bounds checks performed by `ApplyEditScript old script`,
including the implicit tail copy's check, in execution order. -/
def applyChecks (old script : List Nat) : List Nat :=
  (loopSim old (decodeOps script) 0 []).1 ++
    (if (loopSim old (decodeOps script) 0 []).2.1 < old.length then
      [(loopSim old (decodeOps script) 0 []).2.2.length +
        (old.length - (loopSim old (decodeOps script) 0 []).2.1)]
    else [])

/-- The bytes `ApplyEditScript old script` writes when no bounds check trips
(the reconstructed `NewString`). -/
def applyOut (old script : List Nat) : List Nat :=
  (loopSim old (decodeOps script) 0 []).2.2 ++
    (if (loopSim old (decodeOps script) 0 []).2.1 < old.length then
      readBytes old (loopSim old (decodeOps script) 0 []).2.1
        (old.length - (loopSim old (decodeOps script) 0 []).2.1)
    else [])

/-! ## Basic facts about `readBytes`, `decodeOps` and the apply loop -/

theorem readBytes_length (l : List Nat) (i c : Nat) : (readBytes l i c).length = c := by
  simp [readBytes]

theorem getD_drop (l : List Nat) (n j : Nat) : (l.drop n).getD j 0 = l.getD (n + j) 0 := by
  simp [List.getD_eq_getElem?_getD, List.getElem?_drop]

theorem readBytes_drop (l : List Nat) (n c : Nat) : readBytes (l.drop n) 0 c = readBytes l n c := by
  simp only [readBytes]
  refine List.map_congr_left ?_
  intro j hj
  simpa using getD_drop l n j

theorem readBytes_suffix (l : List Nat) (i : Nat) (h : i ≤ l.length) :
    readBytes l i (l.length - i) = l.drop i := by
  apply List.ext_getElem
  · simp [readBytes_length]
  · intro j h1 h2
    have hj : i + j < l.length := by
      simp [readBytes_length] at h1
      omega
    simp [readBytes, List.getD_eq_getElem?_getD, List.getElem?_eq_getElem hj]

theorem decodeOpsF_nil (f : Nat) : decodeOpsF f [] = [] := by cases f <;> rfl

theorem decodeOpsF_congr : ∀ (f1 : Nat) (l : List Nat) (f2 : Nat), l.length ≤ f1 →
    l.length ≤ f2 → decodeOpsF f1 l = decodeOpsF f2 l := by
  intro f1
  induction f1 with
  | zero =>
    intro l f2 h1 h2
    have : l = [] := List.eq_nil_of_length_eq_zero (by omega)
    subst this
    rw [decodeOpsF_nil, decodeOpsF_nil]
  | succ f1 ih =>
    intro l f2 h1 h2
    cases l with
    | nil => rw [decodeOpsF_nil, decodeOpsF_nil]
    | cons b rest =>
      cases f2 with
      | zero => simp at h2
      | succ f2 =>
        simp only [List.length_cons] at h1 h2
        simp only [decodeOpsF]
        split
        · rw [ih rest f2 (by omega) (by omega)]
        · rw [ih (rest.drop (b % 64 + 1)) f2 (by simp; omega) (by simp; omega)]

theorem decodeOps_nil : decodeOps [] = [] := rfl

theorem decodeOps_cons (b : Nat) (rest : List Nat) :
    decodeOps (b :: rest) =
      (if b / 64 = DeleteOpcode ∨ b / 64 = KeepOpcode then
        (b / 64, b % 64 + 1, []) :: decodeOps rest
      else
        (b / 64, b % 64 + 1, readBytes rest 0 (b % 64 + 1)) ::
          decodeOps (rest.drop (b % 64 + 1))) := by
  show decodeOpsF (rest.length + 1) (b :: rest) = _
  simp only [decodeOpsF]
  split
  · rfl
  · rw [decodeOpsF_congr rest.length (rest.drop (b % 64 + 1)) (rest.drop (b % 64 + 1)).length
      (by simp) (le_refl _)]
    rfl

/-- The opcode loop is exactly the capacity-free replay `loopSim` over the
decoded opcode stream, stopped with `-1` as soon as some bounds check reaches
the capacity. -/
theorem applyLoopF_spec (old script : List Nat) (cap : Nat) :
    ∀ (fuel scriptIdx oldIdx : Nat) (out : List Nat), script.length - scriptIdx ≤ fuel →
      applyLoopF old script cap fuel scriptIdx oldIdx out =
        (if ((loopSim old (decodeOps (script.drop scriptIdx)) oldIdx out).1).any
              (fun v => cap ≤ v) then none
         else some (loopSim old (decodeOps (script.drop scriptIdx)) oldIdx out).2) := by
  intro fuel
  induction fuel with
  | zero =>
    intro scriptIdx oldIdx out h
    have hge : script.length ≤ scriptIdx := by omega
    have hdrop : script.drop scriptIdx = [] := List.drop_eq_nil_of_le hge
    rw [applyLoopF, if_neg (by omega), hdrop, decodeOps_nil]
    simp [loopSim]
  | succ fuel ih =>
    intro scriptIdx oldIdx out h
    by_cases hlt : scriptIdx < script.length
    · have hdrop : script.drop scriptIdx = script.getD scriptIdx 0 :: script.drop (scriptIdx + 1) := by
        rw [List.drop_eq_getElem_cons hlt, List.getD_eq_getElem]
      rw [applyLoopF, if_pos hlt]
      rw [hdrop, decodeOps_cons]
      set b := script.getD scriptIdx 0 with hb
      by_cases hdel : b / 64 = DeleteOpcode
      · rw [if_pos (Or.inl hdel), if_pos hdel]
        simp only [loopSim, if_pos hdel]
        exact ih (scriptIdx + 1) (oldIdx + (b % 64 + 1)) out (by omega)
      · by_cases hkeep : b / 64 = KeepOpcode
        · rw [if_pos (Or.inr hkeep), if_neg hdel, if_pos hkeep]
          simp only [loopSim, if_neg hdel, if_pos hkeep]
          by_cases hcap : cap ≤ out.length + (b % 64 + 1)
          · rw [if_pos hcap]
            simp [List.any_cons, hcap]
          · rw [if_neg hcap]
            rw [ih (scriptIdx + 1) (oldIdx + (b % 64 + 1))
              (out ++ readBytes old oldIdx (b % 64 + 1)) (by omega)]
            simp [List.any_cons, hcap]
        · have hdk : ¬(b / 64 = DeleteOpcode ∨ b / 64 = KeepOpcode) := by tauto
          rw [if_neg hdel, if_neg hkeep, if_neg hdk]
          simp only [loopSim, if_neg hdel, if_neg hkeep]
          by_cases hcap : cap ≤ out.length + (b % 64 + 1)
          · rw [if_pos hcap]
            simp [List.any_cons, hcap]
          · rw [if_neg hcap]
            have hpay : readBytes (script.drop (scriptIdx + 1)) 0 (b % 64 + 1) =
                readBytes script (scriptIdx + 1) (b % 64 + 1) := readBytes_drop _ _ _
            have hdd : (script.drop (scriptIdx + 1)).drop (b % 64 + 1) =
                script.drop (scriptIdx + (b % 64 + 1) + 1) := by
              rw [List.drop_drop]
              congr 1
              omega
            rw [hpay, hdd]
            rw [ih (scriptIdx + (b % 64 + 1) + 1) oldIdx
              (out ++ readBytes script (scriptIdx + 1) (b % 64 + 1)) (by omega)]
            simp [List.any_cons, hcap]
    · have hdrop : script.drop scriptIdx = [] := List.drop_eq_nil_of_le (by omega)
      rw [applyLoopF, if_neg hlt, hdrop, decodeOps_nil]
      simp [loopSim]

/-- `ApplyEditScript` in terms of its bounds checks and its capacity-free
output: it returns `-1` exactly when some check reaches the capacity, and the
reconstructed string with its length otherwise. -/
theorem ApplyEditScript_eq (old script : List Nat) (cap : Nat) :
    ApplyEditScript old script cap =
      (if (applyChecks old script).any (fun v => cap ≤ v) then (-1, [])
       else (((applyOut old script).length : Int), applyOut old script)) := by
  have hloop := applyLoopF_spec old script cap script.length 0 0 [] (by omega)
  rw [ApplyEditScript, applyLoop, hloop]
  simp only [List.drop_zero]
  by_cases h1 : ((loopSim old (decodeOps script) 0 []).1).any (fun v => cap ≤ v)
  · rw [if_pos h1]
    rw [if_pos (by simp [applyChecks, List.any_append, h1])]
  · rw [if_neg h1]
    by_cases h2 : (loopSim old (decodeOps script) 0 []).2.1 < old.length
    · by_cases h3 : cap ≤ (loopSim old (decodeOps script) 0 []).2.2.length +
          (old.length - (loopSim old (decodeOps script) 0 []).2.1)
      · simp only [if_pos h2, if_pos h3]
        rw [if_pos]
        simp only [applyChecks, List.any_append, if_pos h2]
        simp [h3]
      · simp only [if_pos h2, if_neg h3]
        rw [if_neg]
        · simp [applyOut, if_pos h2, readBytes_length]
        · simp only [applyChecks, List.any_append, if_pos h2]
          simp at h1 ⊢
          constructor
          · exact h1
          · omega
    · simp only [if_neg h2]
      rw [if_neg]
      · simp [applyOut, if_neg h2]
      · simp only [applyChecks, List.any_append, if_neg h2]
        simp at h1 ⊢
        exact h1

/-- The final output of the capacity-free replay either has the length of the
initial output (nothing was written) or its length is one of the collected
bounds checks (namely the last one issued by a writing opcode). -/
theorem loopSim_out_mem (old : List Nat) : ∀ (ops : List (Nat × Nat × List Nat))
    (oldIdx : Nat) (out : List Nat),
    (∀ x ∈ ops, x.1 ≠ DeleteOpcode → x.1 ≠ KeepOpcode → x.2.2.length = x.2.1) →
    (loopSim old ops oldIdx out).2.2.length = out.length ∨
      (loopSim old ops oldIdx out).2.2.length ∈ (loopSim old ops oldIdx out).1 := by
  intro ops
  induction ops with
  | nil => intro oldIdx out hp; left; rfl
  | cons hd tl ih =>
    intro oldIdx out hp
    obtain ⟨op, c, pay⟩ := hd
    by_cases hdel : op = DeleteOpcode
    · simpa [loopSim, hdel] using ih (oldIdx + c) out (fun x hx => hp x (by simp [hx]))
    · by_cases hkeep : op = KeepOpcode
      · simp only [loopSim, if_neg hdel, if_pos hkeep]
        rcases ih (oldIdx + c) (out ++ readBytes old oldIdx c)
            (fun x hx => hp x (by simp [hx])) with h | h
        · right
          rw [h]
          simp [readBytes_length]
        · right
          simp [h]
      · simp only [loopSim, if_neg hdel, if_neg hkeep]
        have hc : pay.length = c := hp (op, c, pay) (by simp) hdel hkeep
        rcases ih oldIdx (out ++ pay) (fun x hx => hp x (by simp [hx])) with h | h
        · right
          rw [h]
          simp [hc]
        · right
          simp [h]

/-- Every opcode that takes the `Insert` branch in a decoded stream carries a
payload of exactly its count. -/
theorem decodeOps_payload_length (script : List Nat) :
    ∀ x ∈ decodeOps script, x.1 ≠ DeleteOpcode → x.1 ≠ KeepOpcode →
      x.2.2.length = x.2.1 := by
  rw [decodeOps]
  generalize script.length = fuel
  induction fuel generalizing script with
  | zero =>
    cases script with
    | nil => simp [decodeOpsF]
    | cons b rest => simp [decodeOpsF]
  | succ fuel ih =>
    cases script with
    | nil => simp [decodeOpsF]
    | cons b rest =>
      simp only [decodeOpsF]
      split
      · intro x hx h1 h2
        rcases List.mem_cons.mp hx with h | h
        · subst h
          simp at h1 h2 ⊢
          rename_i hor
          tauto
        · exact ih rest x h h1 h2
      · intro x hx h1 h2
        rcases List.mem_cons.mp hx with h | h
        · subst h
          simp [readBytes_length]
        · exact ih (rest.drop (b % 64 + 1)) x h h1 h2

/-- The length of `applyOut` is positive only if it occurs among the bounds
checks of the run (it is the value of the last check issued by a writer). -/
theorem applyOut_len_mem (old script : List Nat) :
    (applyOut old script).length = 0 ∨
      (applyOut old script).length ∈ applyChecks old script := by
  by_cases h2 : (loopSim old (decodeOps script) 0 []).2.1 < old.length
  · right
    simp only [applyOut, applyChecks, if_pos h2]
    simp [readBytes_length]
  · rcases loopSim_out_mem old (decodeOps script) 0 []
        (decodeOps_payload_length script) with h | h
    · left
      simp only [applyOut, if_neg h2]
      simpa using h
    · right
      simp only [applyOut, applyChecks, if_neg h2]
      simpa using h

/-- C3, amended.  For every `Old`, script and output capacity:
`ApplyEditScript` returns `-1` exactly when some copy (a `Keep`, a byte-copy
taken through the `Insert` branch, or the implicit tail copy) would write at
or past the output capacity, the check being `NewIndex + Count ≥ Capacity`;
otherwise it returns the non-negative number of bytes written, and `-1` is
the only negative value it ever returns.  A destination sized exactly at the
produced length fails whenever that length is positive (an empty output
succeeds even with capacity `0`), so callers need at least one byte of
headroom. -/
theorem C3_apply_error_contract (old script : List Nat) (cap : Nat) :
    ((ApplyEditScript old script cap).1 = -1 ↔ ∃ v ∈ applyChecks old script, cap ≤ v)
    ∧ (∀ n : Nat, (ApplyEditScript old script cap).1 = (n : Int) →
        ApplyEditScript old script cap = ((n : Int), applyOut old script)
        ∧ n = (applyOut old script).length)
    ∧ ((ApplyEditScript old script cap).1 = -1 ∨ 0 ≤ (ApplyEditScript old script cap).1)
    ∧ (∀ n : Nat, (ApplyEditScript old script cap).1 = (n : Int) → 0 < n →
        (ApplyEditScript old script n).1 = -1) := by
  rw [ApplyEditScript_eq]
  by_cases h : (applyChecks old script).any (fun v => cap ≤ v)
  · rw [if_pos h]
    refine ⟨?_, ?_, ?_, ?_⟩
    · simp only [true_iff]
      simpa using h
    · intro n hn
      simp at hn
    · left; rfl
    · intro n hn
      simp at hn
  · rw [if_neg h]
    refine ⟨?_, ?_, ?_, ?_⟩
    · constructor
      · intro hx
        simp at hx
      · intro hx
        exfalso
        apply h
        simpa using hx
    · intro n hn
      simp at hn
      simp [hn]
    · right
      simp
    · intro n hn hpos
      simp at hn
      rw [ApplyEditScript_eq]
      rw [if_pos]
      rcases applyOut_len_mem old script with h0 | hmem
      · omega
      · simp only [List.any_eq_true]
        exact ⟨(applyOut old script).length, hmem, by simp [hn]⟩

/-- C3 witness: at `Old = [7]`, empty script, capacity `3` the contract gives
the successful result `1`, and re-running with capacity exactly `1` fails. -/
theorem C3_apply_error_contract_witness :
    ((ApplyEditScript [7] [] 3).1 = -1 ↔ ∃ v ∈ applyChecks [7] [], 3 ≤ v)
    ∧ (ApplyEditScript [7] [] 1).1 = -1 :=
  ⟨(C3_apply_error_contract [7] [] 3).1,
   (C3_apply_error_contract [7] [] 3).2.2.2 1 (by decide) (by decide)⟩

/-- C3 counterexample to the claim as stated: with `Old = []`, empty script
and capacity `0`, the produced length is `0` and a destination sized exactly
at the produced length does NOT fail: the call returns `0`, not `-1`. -/
theorem C3_counterexample :
    (applyOut [] []).length = 0 ∧ ApplyEditScript [] [] 0 = (0, [])
    ∧ (ApplyEditScript [] [] 0).1 ≠ -1 := by decide

/-- C4: `ApplyEditScript` does NOT reject a `Noop` opcode byte.  The byte
`0x00` (tag `Noop`, count `1`) falls into the final `else` branch of the C
dispatch and is interpreted as an `Insert` of one byte: on `Old = []` with
capacity `2` the call returns `1` and writes the (out-of-script, zero-read)
payload byte, rather than returning a negative error. -/
theorem C4_noop_taken_as_insert :
    ApplyEditScript [] [0] 2 = (1, [0])
    ∧ (ApplyEditScript [] [0] 2).1 ≠ -1
    ∧ (ApplyEditScript [] [0] 2).1 ≠ -3 := by decide

/-- C6: the tail rule.  If the opcode loop of `ApplyEditScript` finishes with
`OldIndex < |Old|` and the output capacity admits the copy, the remaining
bytes `Old[OldIndex..]` are appended verbatim to the output and included in
the returned length (there is no implicit drop of the suffix). -/
theorem C6_tail_rule (old script : List Nat) (cap oldIdx : Nat) (out : List Nat)
    (hloop : applyLoop old script cap = some (oldIdx, out))
    (hlt : oldIdx < old.length)
    (hcap : out.length + (old.length - oldIdx) < cap) :
    ApplyEditScript old script cap =
      (((out.length + (old.length - oldIdx) : Nat) : Int), out ++ old.drop oldIdx) := by
  rw [ApplyEditScript, hloop]
  simp only [if_pos hlt, if_neg (by omega : ¬ cap ≤ out.length + (old.length - oldIdx))]
  rw [readBytes_suffix old oldIdx (by omega)]

/-- C6 witness: `Old = [5]`, empty script, capacity `2`: the loop ends with
`OldIndex = 0 < 1` and the tail `[5]` is appended, returning length `1`. -/
theorem C6_tail_rule_witness : ApplyEditScript [5] [] 2 = (1, [5]) := by
  have h := C6_tail_rule [5] [] 2 0 [] (by decide) (by decide) (by decide)
  simpa using h

/-! ## The opcode encoder `AddEditScript` (src/diflib.c:110-198)

The script buffer is again modelled by the bytes written so far (`buf`), its
length being the C `Index`, together with the total capacity `Length = cap`.
`Count` is a C `int`, but every caller passes a positive run length, so it is
modelled as `Nat`. -/

/-- The `while ((Index < Length) && (Count > 64))` loop of the Keep/Delete arm
(src/diflib.c:133-138), with fuel (one unit per emitted chunk of 64, so
`count` fuel is plenty).  Returns the remaining count and the buffer. -/
def chunkKDF (cap opcode : Nat) : Nat → Nat → List Nat → Nat × List Nat
  | 0, count, buf => (count, buf)
  | fuel + 1, count, buf =>
    if buf.length < cap ∧ 64 < count then
      chunkKDF cap opcode fuel (count - 64) (buf ++ [opcode * 64 + 63])
    else (count, buf)

/-- The payload-copy loop `for (i=0; (i<n) && (Index < Length); i++, Index++,
Count--)` (src/diflib.c:172-174 and 181-183): copies up to `n` bytes of `src`
starting at offset `base` while the buffer has room; returns the number of
bytes copied (the amount `Count` is decremented by) and the buffer. -/
def copyPay (cap : Nat) (src : List Nat) : Nat → Nat → List Nat → Nat × List Nat
  | _, 0, buf => (0, buf)
  | base, n + 1, buf =>
    if buf.length < cap then
      ((copyPay cap src (base + 1) n (buf ++ [src.getD base 0])).1 + 1,
       (copyPay cap src (base + 1) n (buf ++ [src.getD base 0])).2)
    else (0, buf)

/-- The `while ((Index < Length) && (Count > 64))` loop of the Insert arm
(src/diflib.c:167-176), with fuel: emits an opcode byte then up to 64 payload
bytes from `src` at offset `k*64` per iteration.  Returns `(k, count, buf)`. -/
def chunkInsF (cap : Nat) (src : List Nat) : Nat → Nat → Nat → List Nat → Nat × Nat × List Nat
  | 0, k, count, buf => (k, count, buf)
  | fuel + 1, k, count, buf =>
    if buf.length < cap ∧ 64 < count then
      chunkInsF cap src fuel (k + 1)
        (count - (copyPay cap src (k * 64) 64 (buf ++ [InsertOpcode * 64 + 63])).1)
        (copyPay cap src (k * 64) 64 (buf ++ [InsertOpcode * 64 + 63])).2
    else (k, count, buf)

/-- The remainder chunk of the Keep/Delete arm (src/diflib.c:144-149) applied
to the loop result `(count, buf)`. -/
def addKDRem (cap opcode : Nat) (r : Nat × List Nat) : Nat × List Nat :=
  if r.2.length < cap ∧ r.1 ≠ 0 then (0, r.2 ++ [opcode * 64 + (r.1 - 1)]) else r

/-- The remainder chunk of the Insert arm (src/diflib.c:177-184) applied to
the loop result `(k, count, buf)`: one opcode byte, then up to `count` payload
bytes from `src` at offset `k*64`. -/
def addInsRem (cap : Nat) (src : List Nat) (r : Nat × Nat × List Nat) : Nat × List Nat :=
  if r.2.2.length < cap ∧ r.2.1 ≠ 0 then
    (r.2.1 - (copyPay cap src (r.1 * 64) r.2.1 (r.2.2 ++ [InsertOpcode * 64 + (r.2.1 - 1)])).1,
     (copyPay cap src (r.1 * 64) r.2.1 (r.2.2 ++ [InsertOpcode * 64 + (r.2.1 - 1)])).2)
  else (r.2.1, r.2.2)

/-- The final `if (Count == 0) return Index; return -1;` of both arms
(src/diflib.c:155-158 and 185-188), `Index` being the buffer length. -/
def addFin (r : Nat × List Nat) : Int × List Nat :=
  if r.1 = 0 then ((r.2.length : Int), r.2) else (-1, r.2)

/-- `AddEditScript` (src/diflib.c:110-198): appends a run of `count` bytes of
kind `opcode` (with payload from `src` for `Insert`) to the script buffer,
chunked into opcodes of at most 64; returns the new write index, `-1` on
buffer overflow, or `-3` for an invalid opcode. -/
def AddEditScript (cap : Nat) (buf : List Nat) (opcode count : Nat) (src : List Nat) :
    Int × List Nat :=
  if opcode = KeepOpcode ∨ opcode = DeleteOpcode then
    addFin (addKDRem cap opcode (chunkKDF cap opcode count count buf))
  else if opcode = InsertOpcode then
    addFin (addInsRem cap src (chunkInsF cap src count 0 count buf))
  else (-3, buf)

/-- The number of script bytes a run of `count` bytes of kind `opcode`
occupies: `⌈count/64⌉` opcode bytes, plus the payload for `Insert`. -/
def opSpace (opcode count : Nat) : Nat :=
  if opcode = InsertOpcode then count + (count + 63) / 64 else (count + 63) / 64

/-- The bytes `AddEditScript` appends for a run (fueled like the loops): the
chunk opcode bytes, each followed by its payload for `Insert`. -/
def encRunF (opcode : Nat) (src : List Nat) : Nat → Nat → Nat → List Nat
  | 0, off, n =>
    if n = 0 then []
    else (opcode * 64 + (n - 1)) :: (if opcode = InsertOpcode then readBytes src off n else [])
  | fuel + 1, off, n =>
    if 64 < n then
      ((opcode * 64 + 63) :: (if opcode = InsertOpcode then readBytes src off 64 else []))
        ++ encRunF opcode src fuel (off + 64) (n - 64)
    else if n = 0 then []
    else (opcode * 64 + (n - 1)) :: (if opcode = InsertOpcode then readBytes src off n else [])

def encRun (opcode : Nat) (src : List Nat) (off n : Nat) : List Nat :=
  encRunF opcode src n off n

/-- The decoded opcode stream of an encoded run. -/
def runOpsF (opcode : Nat) (src : List Nat) : Nat → Nat → Nat → List (Nat × Nat × List Nat)
  | 0, off, n =>
    if n = 0 then []
    else [(opcode, n, if opcode = InsertOpcode then readBytes src off n else [])]
  | fuel + 1, off, n =>
    if 64 < n then
      (opcode, 64, if opcode = InsertOpcode then readBytes src off 64 else [])
        :: runOpsF opcode src fuel (off + 64) (n - 64)
    else if n = 0 then []
    else [(opcode, n, if opcode = InsertOpcode then readBytes src off n else [])]

def runOps (opcode : Nat) (src : List Nat) (off n : Nat) : List (Nat × Nat × List Nat) :=
  runOpsF opcode src n off n

example : AddEditScript 5 [] KeepOpcode 3 [] = (1, [3 * 64 + 2]) := by decide
example : AddEditScript 5 [9] DeleteOpcode 66 [] = (3, [9, 2 * 64 + 63, 2 * 64 + 1]) := by decide
example : AddEditScript 5 [] InsertOpcode 2 [7, 8] = (3, [1 * 64 + 1, 7, 8]) := by decide
example : AddEditScript 2 [] InsertOpcode 2 [7, 8] = (-1, [1 * 64 + 1, 7]) := by decide
example : AddEditScript 5 [] NoopOpcode 2 [] = (-3, []) := by decide
example : encRun InsertOpcode [7, 8] 0 2 = [1 * 64 + 1, 7, 8] := by decide

/-! ## Correctness of the encoder -/

theorem readBytes_zero (src : List Nat) (base : Nat) : readBytes src base 0 = [] := rfl

theorem readBytes_succ (src : List Nat) (base c : Nat) :
    readBytes src base (c + 1) = src.getD base 0 :: readBytes src (base + 1) c := by
  apply List.ext_getElem
  · simp [readBytes_length]
  · intro j h1 h2
    cases j with
    | zero => simp [readBytes]
    | succ j =>
      simp only [List.getElem_cons_succ, readBytes, List.getElem_map, List.getElem_range]
      congr 1
      omega

/-- Exact behaviour of the payload-copy loop: it copies
`min n (cap - buf.length)` bytes of `src` starting at `base`. -/
theorem copyPay_eq (cap : Nat) (src : List Nat) : ∀ (n base : Nat) (buf : List Nat),
    copyPay cap src base n buf =
      (min n (cap - buf.length), buf ++ readBytes src base (min n (cap - buf.length))) := by
  intro n
  induction n with
  | zero => intro base buf; simp [copyPay, readBytes]
  | succ n ih =>
    intro base buf
    by_cases h : buf.length < cap
    · simp only [copyPay, if_pos h, ih (base + 1)]
      have hlen : (buf ++ [src.getD base 0]).length = buf.length + 1 := by simp
      rw [hlen]
      have hmin : min (n + 1) (cap - buf.length) = min n (cap - (buf.length + 1)) + 1 := by
        omega
      rw [hmin, readBytes_succ]
      simp
    · simp only [copyPay, if_neg h]
      have h0 : cap - buf.length = 0 := by omega
      simp [h0, readBytes]

/-! Small-step facts about the encoder loops. -/

theorem chunkKDF_stop (cap op fuel count : Nat) (buf : List Nat)
    (h : ¬(buf.length < cap ∧ 64 < count)) :
    chunkKDF cap op fuel count buf = (count, buf) := by
  cases fuel with
  | zero => rfl
  | succ fuel => simp only [chunkKDF, if_neg h]

theorem chunkKDF_step (cap op fuel count : Nat) (buf : List Nat)
    (h1 : buf.length < cap) (h2 : 64 < count) :
    chunkKDF cap op (fuel + 1) count buf =
      chunkKDF cap op fuel (count - 64) (buf ++ [op * 64 + 63]) := by
  simp only [chunkKDF]
  rw [if_pos ?_]
  exact ⟨h1, h2⟩

theorem chunkInsF_stop (cap : Nat) (src : List Nat) (fuel k count : Nat) (buf : List Nat)
    (h : ¬(buf.length < cap ∧ 64 < count)) :
    chunkInsF cap src fuel k count buf = (k, count, buf) := by
  cases fuel with
  | zero => rfl
  | succ fuel => simp only [chunkInsF, if_neg h]

theorem chunkInsF_step (cap : Nat) (src : List Nat) (fuel k count : Nat) (buf : List Nat)
    (h1 : buf.length < cap) (h2 : 64 < count) :
    chunkInsF cap src (fuel + 1) k count buf =
      chunkInsF cap src fuel (k + 1)
        (count - (copyPay cap src (k * 64) 64 (buf ++ [InsertOpcode * 64 + 63])).1)
        (copyPay cap src (k * 64) 64 (buf ++ [InsertOpcode * 64 + 63])).2 := by
  simp only [chunkInsF]
  rw [if_pos ?_]
  exact ⟨h1, h2⟩

theorem addKDRem_fire (cap op c : Nat) (buf : List Nat) (h1 : buf.length < cap) (h2 : c ≠ 0) :
    addKDRem cap op (c, buf) = (0, buf ++ [op * 64 + (c - 1)]) := by
  simp only [addKDRem]
  rw [if_pos ?_]
  exact ⟨h1, h2⟩

theorem addKDRem_zero (cap op : Nat) (buf : List Nat) : addKDRem cap op (0, buf) = (0, buf) := by
  simp [addKDRem]

theorem addKDRem_stop (cap op c : Nat) (buf : List Nat) (h : ¬(buf.length < cap ∧ c ≠ 0)) :
    addKDRem cap op (c, buf) = (c, buf) := by
  simp only [addKDRem]
  rw [if_neg h]

theorem addInsRem_fire (cap : Nat) (src : List Nat) (k c : Nat) (buf : List Nat)
    (h1 : buf.length < cap) (h2 : c ≠ 0) :
    addInsRem cap src (k, c, buf) =
      (c - (copyPay cap src (k * 64) c (buf ++ [InsertOpcode * 64 + (c - 1)])).1,
       (copyPay cap src (k * 64) c (buf ++ [InsertOpcode * 64 + (c - 1)])).2) := by
  simp only [addInsRem]
  rw [if_pos ?_]
  exact ⟨h1, h2⟩

theorem addInsRem_stop (cap : Nat) (src : List Nat) (k c : Nat) (buf : List Nat)
    (h : ¬(buf.length < cap ∧ c ≠ 0)) :
    addInsRem cap src (k, c, buf) = (c, buf) := by
  simp only [addInsRem]
  rw [if_neg h]

theorem addFin_zero (buf : List Nat) : addFin (0, buf) = ((buf.length : Int), buf) := by
  simp [addFin]

theorem addFin_err (c : Nat) (buf : List Nat) (h : c ≠ 0) : addFin (c, buf) = (-1, buf) := by
  simp [addFin, h]

theorem addFin_fst_err (r : Nat × List Nat) (h : r.1 ≠ 0) : (addFin r).1 = -1 := by
  unfold addFin
  rw [if_neg h]

theorem encRunF_zero_n (op : Nat) (src : List Nat) (fuel off : Nat) :
    encRunF op src fuel off 0 = [] := by
  cases fuel with
  | zero => simp [encRunF]
  | succ fuel => simp [encRunF]

theorem encRunF_small (op : Nat) (src : List Nat) (fuel off n : Nat) (hn : n ≠ 0)
    (hb : ¬64 < n) :
    encRunF op src fuel off n =
      (op * 64 + (n - 1)) :: (if op = InsertOpcode then readBytes src off n else []) := by
  cases fuel with
  | zero => simp only [encRunF, if_neg hn]
  | succ fuel => simp only [encRunF, if_neg hb, if_neg hn]

theorem encRunF_big (op : Nat) (src : List Nat) (fuel off n : Nat) (hb : 64 < n) :
    encRunF op src (fuel + 1) off n =
      ((op * 64 + 63) :: (if op = InsertOpcode then readBytes src off 64 else []))
        ++ encRunF op src fuel (off + 64) (n - 64) := by
  simp only [encRunF, if_pos hb]

/-- Success case of the Keep/Delete arm: with room for `⌈count/64⌉` opcode
bytes, the run is appended in chunks and the new write index returned.  The
`off`/`src` arguments of `encRunF` are irrelevant for non-`Insert` opcodes. -/
theorem addKD_ok (cap op : Nat) (src : List Nat) (hop : op ≠ InsertOpcode) :
    ∀ (fuel count : Nat) (buf : List Nat) (off : Nat), count ≤ 64 * fuel + 64 →
      buf.length + (count + 63) / 64 ≤ cap →
      addFin (addKDRem cap op (chunkKDF cap op fuel count buf)) =
        (((buf.length + (count + 63) / 64 : Nat) : Int),
         buf ++ encRunF op src fuel off count) := by
  intro fuel
  induction fuel with
  | zero =>
    intro count buf off hfuel hcap
    by_cases h0 : count = 0
    · subst h0
      rw [chunkKDF_stop cap op 0 0 buf (by omega), addKDRem_zero, addFin_zero, encRunF_zero_n]
      simp
    · rw [chunkKDF_stop cap op 0 count buf (by omega),
        addKDRem_fire cap op count buf (by omega) h0, addFin_zero,
        encRunF_small op src 0 off count h0 (by omega), if_neg hop]
      rw [Prod.mk.injEq]
      refine ⟨by simp; omega, by simp⟩
  | succ fuel ih =>
    intro count buf off hfuel hcap
    by_cases hbig : 64 < count
    · rw [chunkKDF_step cap op fuel count buf (by omega) hbig]
      rw [ih (count - 64) (buf ++ [op * 64 + 63]) (off + 64) (by omega) (by simp; omega)]
      rw [encRunF_big op src fuel off count hbig, if_neg hop]
      rw [Prod.mk.injEq]
      refine ⟨by simp; omega, by simp [List.append_assoc]⟩
    · by_cases h0 : count = 0
      · subst h0
        rw [chunkKDF_stop cap op (fuel + 1) 0 buf (by omega), addKDRem_zero, addFin_zero,
          encRunF_zero_n]
        simp
      · rw [chunkKDF_stop cap op (fuel + 1) count buf (by omega),
          addKDRem_fire cap op count buf (by omega) h0, addFin_zero,
          encRunF_small op src (fuel + 1) off count h0 hbig, if_neg hop]
        rw [Prod.mk.injEq]
        refine ⟨by simp; omega, by simp⟩

/-- Success case of the Insert arm: with room for the payload plus
`⌈count/64⌉` opcode bytes, the run is appended (payload interleaved after
each opcode byte, read from `src` at offsets `k*64`, `k*64+64`, …). -/
theorem addIns_ok (cap : Nat) (src : List Nat) :
    ∀ (fuel count k : Nat) (buf : List Nat), count ≤ 64 * fuel + 64 →
      buf.length + count + (count + 63) / 64 ≤ cap →
      addFin (addInsRem cap src (chunkInsF cap src fuel k count buf)) =
        (((buf.length + count + (count + 63) / 64 : Nat) : Int),
         buf ++ encRunF InsertOpcode src fuel (k * 64) count) := by
  intro fuel
  induction fuel with
  | zero =>
    intro count k buf hfuel hcap
    by_cases h0 : count = 0
    · subst h0
      rw [chunkInsF_stop cap src 0 k 0 buf (by omega),
        addInsRem_stop cap src k 0 buf (by simp), addFin_zero, encRunF_zero_n]
      simp
    · rw [chunkInsF_stop cap src 0 k count buf (by omega),
        addInsRem_fire cap src k count buf (by omega) h0, copyPay_eq]
      simp only [List.length_append, List.length_cons, List.length_nil]
      have hmin : min count (cap - (buf.length + (0 + 1))) = count := by omega
      rw [hmin, Nat.sub_self, addFin_zero,
        encRunF_small InsertOpcode src 0 (k * 64) count h0 (by omega), if_pos rfl]
      rw [Prod.mk.injEq]
      refine ⟨by simp [readBytes_length]; omega, by simp [List.append_assoc]⟩
  | succ fuel ih =>
    intro count k buf hfuel hcap
    by_cases hbig : 64 < count
    · rw [chunkInsF_step cap src fuel k count buf (by omega) hbig, copyPay_eq]
      simp only [List.length_append, List.length_cons, List.length_nil]
      have hmin : min 64 (cap - (buf.length + (0 + 1))) = 64 := by omega
      rw [hmin]
      rw [ih (count - 64) (k + 1)
        (buf ++ [InsertOpcode * 64 + 63] ++ readBytes src (k * 64) 64)
        (by omega) (by simp [readBytes_length]; omega)]
      rw [encRunF_big InsertOpcode src fuel (k * 64) count hbig, if_pos rfl]
      rw [show (k + 1) * 64 = k * 64 + 64 by ring]
      rw [Prod.mk.injEq]
      refine ⟨by simp [readBytes_length]; omega, by simp [List.append_assoc]⟩
    · by_cases h0 : count = 0
      · subst h0
        rw [chunkInsF_stop cap src (fuel + 1) k 0 buf (by omega),
          addInsRem_stop cap src k 0 buf (by simp), addFin_zero, encRunF_zero_n]
        simp
      · rw [chunkInsF_stop cap src (fuel + 1) k count buf (by omega),
          addInsRem_fire cap src k count buf (by omega) h0, copyPay_eq]
        simp only [List.length_append, List.length_cons, List.length_nil]
        have hmin : min count (cap - (buf.length + (0 + 1))) = count := by omega
        rw [hmin, Nat.sub_self, addFin_zero,
          encRunF_small InsertOpcode src (fuel + 1) (k * 64) count h0 hbig, if_pos rfl]
        rw [Prod.mk.injEq]
        refine ⟨by simp [readBytes_length]; omega, by simp [List.append_assoc]⟩

/-- Failure case of the Keep/Delete arm: without room for all the opcode
bytes the arm returns `-1`. -/
theorem addKD_err (cap op : Nat) :
    ∀ (fuel count : Nat) (buf : List Nat), count ≤ 64 * fuel + 64 →
      buf.length ≤ cap → cap < buf.length + (count + 63) / 64 →
      (addFin (addKDRem cap op (chunkKDF cap op fuel count buf))).1 = -1 := by
  intro fuel
  induction fuel with
  | zero =>
    intro count buf hfuel hbuf hcap
    have h0 : count ≠ 0 := by omega
    have hlc : ¬buf.length < cap := by omega
    rw [chunkKDF_stop cap op 0 count buf (by tauto),
      addKDRem_stop cap op count buf (by tauto)]
    exact addFin_fst_err _ h0
  | succ fuel ih =>
    intro count buf hfuel hbuf hcap
    by_cases hbig : 64 < count
    · by_cases hroom : buf.length < cap
      · rw [chunkKDF_step cap op fuel count buf hroom hbig]
        exact ih (count - 64) (buf ++ [op * 64 + 63]) (by omega) (by simp; omega)
          (by simp; omega)
      · rw [chunkKDF_stop cap op (fuel + 1) count buf (by tauto),
          addKDRem_stop cap op count buf (by tauto)]
        exact addFin_fst_err _ (by omega)
    · have h0 : count ≠ 0 := by omega
      have hlc : ¬buf.length < cap := by omega
      rw [chunkKDF_stop cap op (fuel + 1) count buf (by tauto),
        addKDRem_stop cap op count buf (by tauto)]
      exact addFin_fst_err _ h0

/-- Failure case of the Insert arm: without room for payload plus opcode
bytes the arm returns `-1`. -/
theorem addIns_err (cap : Nat) (src : List Nat) :
    ∀ (fuel count k : Nat) (buf : List Nat), count ≤ 64 * fuel + 64 →
      buf.length ≤ cap → cap < buf.length + count + (count + 63) / 64 →
      (addFin (addInsRem cap src (chunkInsF cap src fuel k count buf))).1 = -1 := by
  intro fuel
  induction fuel with
  | zero =>
    intro count k buf hfuel hbuf hcap
    have h0 : count ≠ 0 := by omega
    rw [chunkInsF_stop cap src 0 k count buf (by omega)]
    by_cases hroom : buf.length < cap
    · rw [addInsRem_fire cap src k count buf hroom h0, copyPay_eq]
      simp only [List.length_append, List.length_cons, List.length_nil]
      exact addFin_fst_err _ (by omega)
    · rw [addInsRem_stop cap src k count buf (by tauto)]
      exact addFin_fst_err _ h0
  | succ fuel ih =>
    intro count k buf hfuel hbuf hcap
    by_cases hbig : 64 < count
    · by_cases hroom : buf.length < cap
      · rw [chunkInsF_step cap src fuel k count buf hroom hbig, copyPay_eq]
        simp only [List.length_append, List.length_cons, List.length_nil]
        by_cases hfull : 64 ≤ cap - (buf.length + (0 + 1))
        · have hmin : min 64 (cap - (buf.length + (0 + 1))) = 64 := by omega
          rw [hmin]
          exact ih (count - 64) (k + 1) _ (by omega) (by simp [readBytes_length]; omega)
            (by simp [readBytes_length]; omega)
        · have hmin : min 64 (cap - (buf.length + (0 + 1))) = cap - (buf.length + 1) := by
            omega
          rw [hmin]
          rw [chunkInsF_stop cap src fuel (k + 1) _ _ (by simp [readBytes_length]; omega)]
          rw [addInsRem_stop cap src (k + 1) _ _ (by simp [readBytes_length]; omega)]
          exact addFin_fst_err _ (by omega)
      · rw [chunkInsF_stop cap src (fuel + 1) k count buf (by tauto),
          addInsRem_stop cap src k count buf (by tauto)]
        exact addFin_fst_err _ (by omega)
    · have h0 : count ≠ 0 := by omega
      rw [chunkInsF_stop cap src (fuel + 1) k count buf (by omega)]
      by_cases hroom : buf.length < cap
      · rw [addInsRem_fire cap src k count buf hroom h0, copyPay_eq]
        simp only [List.length_append, List.length_cons, List.length_nil]
        exact addFin_fst_err _ (by omega)
      · rw [addInsRem_stop cap src k count buf (by tauto)]
        exact addFin_fst_err _ h0

theorem addFin_snd (r : Nat × List Nat) : (addFin r).2 = r.2 := by
  unfold addFin
  split <;> rfl

theorem chunkKDF_len (cap op : Nat) : ∀ (fuel count : Nat) (buf : List Nat),
    buf.length ≤ cap → (chunkKDF cap op fuel count buf).2.length ≤ cap := by
  intro fuel
  induction fuel with
  | zero => intro count buf h; exact h
  | succ fuel ih =>
    intro count buf h
    by_cases hg : buf.length < cap ∧ 64 < count
    · rw [chunkKDF_step cap op fuel count buf hg.1 hg.2]
      exact ih (count - 64) (buf ++ [op * 64 + 63]) (by simp; omega)
    · rw [chunkKDF_stop cap op (fuel + 1) count buf hg]
      exact h

theorem chunkInsF_len (cap : Nat) (src : List Nat) : ∀ (fuel count k : Nat) (buf : List Nat),
    buf.length ≤ cap → (chunkInsF cap src fuel k count buf).2.2.length ≤ cap := by
  intro fuel
  induction fuel with
  | zero => intro count k buf h; exact h
  | succ fuel ih =>
    intro count k buf h
    by_cases hg : buf.length < cap ∧ 64 < count
    · rw [chunkInsF_step cap src fuel k count buf hg.1 hg.2, copyPay_eq]
      simp only [List.length_append, List.length_cons, List.length_nil]
      apply ih
      simp [readBytes_length]
      omega
    · rw [chunkInsF_stop cap src (fuel + 1) k count buf hg]
      exact h

theorem addKDRem_len (cap op : Nat) (r : Nat × List Nat) (h : r.2.length ≤ cap) :
    (addKDRem cap op r).2.length ≤ cap := by
  unfold addKDRem
  split
  · simp
    omega
  · exact h

theorem addInsRem_len (cap : Nat) (src : List Nat) (r : Nat × Nat × List Nat)
    (h : r.2.2.length ≤ cap) : (addInsRem cap src r).2.length ≤ cap := by
  unfold addInsRem
  split
  · rw [copyPay_eq]
    simp only [List.length_append, List.length_cons, List.length_nil]
    simp [readBytes_length]
    omega
  · exact h

theorem opSpace_ins (count : Nat) :
    opSpace InsertOpcode count = count + (count + 63) / 64 := by
  unfold opSpace
  rw [if_pos rfl]

theorem opSpace_kd (op count : Nat) (h : op ≠ InsertOpcode) :
    opSpace op count = (count + 63) / 64 := by
  unfold opSpace
  rw [if_neg h]

/-- `AddEditScript` never writes past the capacity: if the write index is
within the buffer, so is every byte it appends (the shallow form of the
out-of-bounds-write safety of the encoder). -/
theorem AddEditScript_len (cap : Nat) (buf : List Nat) (opcode count : Nat) (src : List Nat)
    (h : buf.length ≤ cap) : (AddEditScript cap buf opcode count src).2.length ≤ cap := by
  unfold AddEditScript
  split
  · rw [addFin_snd]
    exact addKDRem_len cap opcode _ (chunkKDF_len cap opcode count count buf h)
  · split
    · rw [addFin_snd]
      exact addInsRem_len cap src _ (chunkInsF_len cap src count count 0 buf h)
    · exact h

/-- Success of `AddEditScript` for a real opcode with sufficient room: the
new write index is returned and exactly the encoded run is appended. -/
theorem AddEditScript_ok (cap : Nat) (buf : List Nat) (op count : Nat) (src : List Nat)
    (hop : op = InsertOpcode ∨ op = DeleteOpcode ∨ op = KeepOpcode)
    (hcap : buf.length + opSpace op count ≤ cap) :
    AddEditScript cap buf op count src =
      (((buf.length + opSpace op count : Nat) : Int), buf ++ encRun op src 0 count) := by
  rcases hop with hop | hop | hop <;> subst hop
  · rw [show AddEditScript cap buf InsertOpcode count src =
        addFin (addInsRem cap src (chunkInsF cap src count 0 count buf)) by
      unfold AddEditScript; rfl]
    rw [addIns_ok cap src count count 0 buf (by omega)
      (by rw [opSpace_ins] at hcap; omega)]
    rw [opSpace_ins]
    simp only [encRun, Nat.zero_mul]
    rw [Prod.mk.injEq]
    refine ⟨by omega, rfl⟩
  · rw [show AddEditScript cap buf DeleteOpcode count src =
        addFin (addKDRem cap DeleteOpcode (chunkKDF cap DeleteOpcode count count buf)) by
      unfold AddEditScript; rfl]
    rw [addKD_ok cap DeleteOpcode src (by decide) count count buf 0 (by omega)
      (by rw [opSpace_kd _ _ (by decide)] at hcap; omega)]
    rw [opSpace_kd _ _ (by decide)]
    rfl
  · rw [show AddEditScript cap buf KeepOpcode count src =
        addFin (addKDRem cap KeepOpcode (chunkKDF cap KeepOpcode count count buf)) by
      unfold AddEditScript; rfl]
    rw [addKD_ok cap KeepOpcode src (by decide) count count buf 0 (by omega)
      (by rw [opSpace_kd _ _ (by decide)] at hcap; omega)]
    rw [opSpace_kd _ _ (by decide)]
    rfl

/-- Failure of `AddEditScript` for a real opcode without room: `-1`. -/
theorem AddEditScript_overflow (cap : Nat) (buf : List Nat) (op count : Nat) (src : List Nat)
    (hop : op = InsertOpcode ∨ op = DeleteOpcode ∨ op = KeepOpcode)
    (hbuf : buf.length ≤ cap) (hcap : cap < buf.length + opSpace op count) :
    (AddEditScript cap buf op count src).1 = -1 := by
  rcases hop with hop | hop | hop <;> subst hop
  · rw [show AddEditScript cap buf InsertOpcode count src =
        addFin (addInsRem cap src (chunkInsF cap src count 0 count buf)) by
      unfold AddEditScript; rfl]
    exact addIns_err cap src count count 0 buf (by omega) hbuf
      (by rw [opSpace_ins] at hcap; omega)
  · rw [show AddEditScript cap buf DeleteOpcode count src =
        addFin (addKDRem cap DeleteOpcode (chunkKDF cap DeleteOpcode count count buf)) by
      unfold AddEditScript; rfl]
    exact addKD_err cap DeleteOpcode count count buf (by omega) hbuf
      (by rw [opSpace_kd _ _ (by decide)] at hcap; omega)
  · rw [show AddEditScript cap buf KeepOpcode count src =
        addFin (addKDRem cap KeepOpcode (chunkKDF cap KeepOpcode count count buf)) by
      unfold AddEditScript; rfl]
    exact addKD_err cap KeepOpcode count count buf (by omega) hbuf
      (by rw [opSpace_kd _ _ (by decide)] at hcap; omega)

/-- An invalid opcode kind makes `AddEditScript` return `-3` untouched. -/
theorem AddEditScript_bad (cap : Nat) (buf : List Nat) (op count : Nat) (src : List Nat)
    (hop : op ≠ InsertOpcode ∧ op ≠ DeleteOpcode ∧ op ≠ KeepOpcode) :
    AddEditScript cap buf op count src = (-3, buf) := by
  unfold AddEditScript
  rw [if_neg (by tauto), if_neg hop.1]

/-! ## Structure of encoded runs and their decoding -/

theorem ite_ins_ins {α : Sort _} (a b : α) :
    (if InsertOpcode = InsertOpcode then a else b) = a := if_pos rfl

theorem ite_del_ins {α : Sort _} (a b : α) :
    (if DeleteOpcode = InsertOpcode then a else b) = b := if_neg (by decide)

theorem ite_keep_ins {α : Sort _} (a b : α) :
    (if KeepOpcode = InsertOpcode then a else b) = b := if_neg (by decide)

theorem runOpsF_zero_n (op : Nat) (src : List Nat) (fuel off : Nat) :
    runOpsF op src fuel off 0 = [] := by
  cases fuel with
  | zero => simp [runOpsF]
  | succ fuel => simp [runOpsF]

theorem runOpsF_small (op : Nat) (src : List Nat) (fuel off n : Nat) (hn : n ≠ 0)
    (hb : ¬64 < n) :
    runOpsF op src fuel off n =
      [(op, n, if op = InsertOpcode then readBytes src off n else [])] := by
  cases fuel with
  | zero => simp only [runOpsF, if_neg hn]
  | succ fuel => simp only [runOpsF, if_neg hb, if_neg hn]

theorem runOpsF_big (op : Nat) (src : List Nat) (fuel off n : Nat) (hb : 64 < n) :
    runOpsF op src (fuel + 1) off n =
      (op, 64, if op = InsertOpcode then readBytes src off 64 else [])
        :: runOpsF op src fuel (off + 64) (n - 64) := by
  simp only [runOpsF, if_pos hb]

theorem readBytes_split (src : List Nat) : ∀ (a off b : Nat),
    readBytes src off (a + b) = readBytes src off a ++ readBytes src (off + a) b := by
  intro a
  induction a with
  | zero => intro off b; simp [readBytes_zero]
  | succ a ih =>
    intro off b
    have h1 : a + 1 + b = (a + b) + 1 := by omega
    rw [h1, readBytes_succ, readBytes_succ, ih (off + 1) b]
    simp only [List.cons_append]
    have h2 : off + 1 + a = off + (a + 1) := by omega
    rw [h2]

theorem readBytes_append_left (l rest : List Nat) :
    readBytes (l ++ rest) 0 l.length = l := by
  apply List.ext_getElem
  · simp [readBytes_length]
  · intro j h1 h2
    simp only [readBytes, List.getElem_map, List.getElem_range, Nat.zero_add]
    rw [List.getD_eq_getElem (l ++ rest) 0 (by simp; omega)]
    rw [List.getElem_append_left h2]

/-- Structural facts about an encoded run's opcode stream: `⌈n/64⌉` opcodes,
all of the run's kind, counts in `1..=64` summing to `n`. -/
theorem runOpsF_facts (op : Nat) (src : List Nat) :
    ∀ (fuel off n : Nat), n ≤ 64 * fuel + 64 →
      (runOpsF op src fuel off n).length = (n + 63) / 64
      ∧ ((runOpsF op src fuel off n).map (fun x => x.2.1)).sum = n
      ∧ (∀ x ∈ runOpsF op src fuel off n, x.1 = op ∧ 1 ≤ x.2.1 ∧ x.2.1 ≤ 64) := by
  intro fuel
  induction fuel with
  | zero =>
    intro off n hfuel
    by_cases h0 : n = 0
    · subst h0
      simp [runOpsF_zero_n]
    · rw [runOpsF_small op src 0 off n h0 (by omega)]
      simp
      omega
  | succ fuel ih =>
    intro off n hfuel
    by_cases hbig : 64 < n
    · rw [runOpsF_big op src fuel off n hbig]
      obtain ⟨ih1, ih2, ih3⟩ := ih (off + 64) (n - 64) (by omega)
      refine ⟨?_, ?_, ?_⟩
      · simp [ih1]
        omega
      · simp [ih2]
        omega
      · intro x hx
        rcases List.mem_cons.mp hx with h | h
        · subst h
          simp
        · exact ih3 x h
    · by_cases h0 : n = 0
      · subst h0
        simp [runOpsF_zero_n]
      · rw [runOpsF_small op src (fuel + 1) off n h0 hbig]
        simp
        omega

/-- The payloads of an encoded `Insert` run, concatenated, are exactly the
`n` source bytes starting at `off`. -/
theorem runOpsF_join (src : List Nat) :
    ∀ (fuel off n : Nat), n ≤ 64 * fuel + 64 →
      ((runOpsF InsertOpcode src fuel off n).map (fun x => x.2.2)).flatten =
        readBytes src off n := by
  intro fuel
  induction fuel with
  | zero =>
    intro off n hfuel
    by_cases h0 : n = 0
    · subst h0
      simp [runOpsF_zero_n, readBytes_zero]
    · rw [runOpsF_small InsertOpcode src 0 off n h0 (by omega), ite_ins_ins]
      simp
  | succ fuel ih =>
    intro off n hfuel
    by_cases hbig : 64 < n
    · rw [runOpsF_big InsertOpcode src fuel off n hbig, ite_ins_ins]
      simp only [List.map_cons, List.flatten_cons]
      rw [ih (off + 64) (n - 64) (by omega)]
      rw [show n = 64 + (n - 64) by omega, readBytes_split src 64 off (n - 64)]
      rw [show 64 + (n - 64) - 64 = n - 64 by omega]
    · by_cases h0 : n = 0
      · subst h0
        simp [runOpsF_zero_n, readBytes_zero]
      · rw [runOpsF_small InsertOpcode src (fuel + 1) off n h0 hbig, ite_ins_ins]
        simp

theorem encRunF_length (op : Nat) (src : List Nat) :
    ∀ (fuel off n : Nat), n ≤ 64 * fuel + 64 →
      (encRunF op src fuel off n).length = opSpace op n := by
  have hzero : ∀ fuel off : Nat, (encRunF op src fuel off 0).length = opSpace op 0 := by
    intro fuel off
    rw [encRunF_zero_n]
    by_cases hins : op = InsertOpcode
    · rw [hins, opSpace_ins]
      decide
    · rw [opSpace_kd op 0 hins]
      decide
  have hsmall : ∀ fuel off n : Nat, n ≠ 0 → ¬64 < n →
      (encRunF op src fuel off n).length = opSpace op n := by
    intro fuel off n h0 hb
    rw [encRunF_small op src fuel off n h0 hb]
    by_cases hins : op = InsertOpcode
    · rw [hins, opSpace_ins, ite_ins_ins]
      simp [readBytes_length]
      omega
    · rw [opSpace_kd op n hins, if_neg hins]
      simp
      omega
  intro fuel
  induction fuel with
  | zero =>
    intro off n hfuel
    by_cases h0 : n = 0
    · subst h0
      exact hzero 0 off
    · exact hsmall 0 off n h0 (by omega)
  | succ fuel ih =>
    intro off n hfuel
    by_cases hbig : 64 < n
    · rw [encRunF_big op src fuel off n hbig]
      rw [List.length_append, ih (off + 64) (n - 64) (by omega)]
      by_cases hins : op = InsertOpcode
      · rw [hins, opSpace_ins, opSpace_ins, ite_ins_ins]
        simp [readBytes_length]
        omega
      · rw [opSpace_kd op n hins, opSpace_kd op (n - 64) hins, if_neg hins]
        simp
        omega
    · by_cases h0 : n = 0
      · subst h0
        exact hzero (fuel + 1) off
      · exact hsmall (fuel + 1) off n h0 hbig

theorem encRun_length (op : Nat) (src : List Nat) (off n : Nat) :
    (encRun op src off n).length = opSpace op n :=
  encRunF_length op src n off n (by omega)

/-- Behaviour of `decodeOps` on one encoded chunk followed by anything. -/
theorem decodeOps_chunk (op c : Nat) (src : List Nat) (off : Nat) (rest : List Nat)
    (hop : op = InsertOpcode ∨ op = DeleteOpcode ∨ op = KeepOpcode)
    (h1 : c ≠ 0) (h64 : c ≤ 64) :
    decodeOps (((op * 64 + (c - 1)) ::
        (if op = InsertOpcode then readBytes src off c else [])) ++ rest) =
      (op, c, if op = InsertOpcode then readBytes src off c else []) :: decodeOps rest := by
  have hd : (op * 64 + (c - 1)) / 64 = op := by omega
  have hm : (op * 64 + (c - 1)) % 64 = c - 1 := by omega
  rcases hop with hins | hkd | hkd
  · subst hins
    rw [if_pos (rfl : InsertOpcode = InsertOpcode)]
    rw [List.cons_append, decodeOps_cons]
    rw [if_neg (by rw [hd]; decide)]
    rw [hd, hm, show c - 1 + 1 = c by omega]
    rw [show readBytes ((readBytes src off c) ++ rest) 0 c =
        readBytes ((readBytes src off c) ++ rest) 0 (readBytes src off c).length by
      rw [readBytes_length]]
    rw [readBytes_append_left]
    rw [show ((readBytes src off c) ++ rest).drop c =
        ((readBytes src off c) ++ rest).drop (readBytes src off c).length by
      rw [readBytes_length]]
    rw [List.drop_left]
  · subst hkd
    rw [if_neg (show ¬DeleteOpcode = InsertOpcode by decide)]
    rw [List.cons_append, List.nil_append, decodeOps_cons]
    rw [if_pos (by rw [hd]; left; rfl)]
    rw [hd, hm, show c - 1 + 1 = c by omega]
  · subst hkd
    rw [if_neg (show ¬KeepOpcode = InsertOpcode by decide)]
    rw [List.cons_append, List.nil_append, decodeOps_cons]
    rw [if_pos (by rw [hd]; right; rfl)]
    rw [hd, hm, show c - 1 + 1 = c by omega]

/-- Decoding an encoded run (followed by anything) yields its opcode stream
followed by the decoding of the remainder: encoded runs are self-delimiting. -/
theorem decodeOps_encRunF (op : Nat) (src : List Nat)
    (hop : op = InsertOpcode ∨ op = DeleteOpcode ∨ op = KeepOpcode) :
    ∀ (fuel off n : Nat) (rest : List Nat), n ≤ 64 * fuel + 64 →
      decodeOps (encRunF op src fuel off n ++ rest) =
        runOpsF op src fuel off n ++ decodeOps rest := by
  intro fuel
  induction fuel with
  | zero =>
    intro off n rest hfuel
    by_cases h0 : n = 0
    · subst h0
      rw [encRunF_zero_n, runOpsF_zero_n]
      simp
    · rw [encRunF_small op src 0 off n h0 (by omega),
        runOpsF_small op src 0 off n h0 (by omega),
        decodeOps_chunk op n src off rest hop h0 (by omega)]
      simp
  | succ fuel ih =>
    intro off n rest hfuel
    by_cases hbig : 64 < n
    · rw [encRunF_big op src fuel off n hbig, runOpsF_big op src fuel off n hbig,
        List.append_assoc]
      have hch := decodeOps_chunk op 64 src off
        (encRunF op src fuel (off + 64) (n - 64) ++ rest) hop (by omega) (by omega)
      simp only [show (64 : Nat) - 1 = 63 from rfl] at hch
      rw [hch, ih (off + 64) (n - 64) rest (by omega)]
      simp
    · by_cases h0 : n = 0
      · subst h0
        rw [encRunF_zero_n, runOpsF_zero_n]
        simp
      · rw [encRunF_small op src (fuel + 1) off n h0 hbig,
          runOpsF_small op src (fuel + 1) off n h0 hbig,
          decodeOps_chunk op n src off rest hop h0 (by omega)]
        simp

theorem decodeOps_encRun (op : Nat) (src : List Nat)
    (hop : op = InsertOpcode ∨ op = DeleteOpcode ∨ op = KeepOpcode)
    (off n : Nat) (rest : List Nat) :
    decodeOps (encRun op src off n ++ rest) = runOps op src off n ++ decodeOps rest :=
  decodeOps_encRunF op src hop n off n rest (by omega)

/-- C5: encoder chunking.  For every opcode kind in `{Insert, Delete, Keep}`
and total count `N ≥ 1`, with sufficient remaining capacity, `AddEditScript`
appends exactly the encoded run (each `Insert` opcode byte immediately
followed by its chunk's payload copied in order from the source) and returns
the new write offset; the run decodes to `⌈N/64⌉` opcodes of that kind whose
count fields lie in `1..=64` and sum to `N`, and the `Insert` payloads
concatenate to the first `N` source bytes. -/
theorem C5_encoder_chunking (op N : Nat) (src buf : List Nat) (cap : Nat)
    (hop : op = InsertOpcode ∨ op = DeleteOpcode ∨ op = KeepOpcode)
    (hN : 1 ≤ N) (hcap : buf.length + opSpace op N ≤ cap) :
    AddEditScript cap buf op N src
      = (((buf.length + opSpace op N : Nat) : Int), buf ++ encRun op src 0 N)
    ∧ decodeOps (encRun op src 0 N) = runOps op src 0 N
    ∧ (runOps op src 0 N).length = (N + 63) / 64
    ∧ ((runOps op src 0 N).map (fun x => x.2.1)).sum = N
    ∧ (∀ x ∈ runOps op src 0 N, x.1 = op ∧ 1 ≤ x.2.1 ∧ x.2.1 ≤ 64)
    ∧ (op = InsertOpcode →
        ((runOps op src 0 N).map (fun x => x.2.2)).flatten = readBytes src 0 N) := by
  obtain ⟨hlen, hsum, hmem⟩ := runOpsF_facts op src N 0 N (by omega)
  refine ⟨AddEditScript_ok cap buf op N src hop hcap, ?_, hlen, hsum, hmem, ?_⟩
  · have h := decodeOps_encRun op src hop 0 N []
    simpa [decodeOps_nil] using h
  · intro hins
    subst hins
    exact runOpsF_join src N 0 N (by omega)

/-- C5 witness: an `Insert` run of 65 bytes into an empty buffer of capacity
67 is split into a chunk of 64 and a chunk of 1 (two opcode bytes). -/
theorem C5_encoder_chunking_witness :
    AddEditScript 67 [] InsertOpcode 65 (List.range 65)
      = ((67 : Int), encRun InsertOpcode (List.range 65) 0 65)
    ∧ (runOps InsertOpcode (List.range 65) 0 65).length = 2 :=
  ⟨(C5_encoder_chunking InsertOpcode 65 (List.range 65) [] 67 (Or.inl rfl)
      (by decide) (by decide)).1,
   (C5_encoder_chunking InsertOpcode 65 (List.range 65) [] 67 (Or.inl rfl)
      (by decide) (by decide)).2.2.1⟩

/-! ## The search engine and script builder of `ComputeEditScript`
(src/diflib.c:222-520)

The trace arena `V` is modelled as a function `Int → WSEntry` with pointwise
functional update; the C indexes it by `int`s computed by `DkIndex`. -/

/-- One trace-arena entry (`WORK_SPACE_ENTRY`, src/diflib.c:41-47).  The `D`
and `k` fields of the C struct are written only by the pre-loading loop
(src/diflib.c:410-416) and read only by debug printing, so they are omitted.
`Token` is the pointer `&NewString[TokenPos]`, modelled by its offset
`TokenPos` (it is `-1` exactly on the slots whose token the program never
dereferences).  Fields the C leaves uninitialized read as the defaults. -/
structure WSEntry where
  SavedX : Int := 0
  SavedY : Int := 0
  IsDelete : Bool := false
  Index : Int := 0
  Back : Int := 0
  TokenPos : Int := 0
deriving Repr, DecidableEq

/-- `DkIndex` (src/diflib.c:53).  At every call the program makes the
numerator is even (`k ≡ D (mod 2)`), so the C truncating `/` agrees with any
integer division. -/
def DkIndex (D k : Int) : Int := (D * D + 2 * D + k) / 2

/-- Functional update of the arena: `V[i] = e`. -/
def vset (V : Int → WSEntry) (i : Int) (e : WSEntry) : Int → WSEntry :=
  fun j => if j = i then e else V j

/-- The common-token skip (the snake, src/diflib.c:490-494), with fuel.  On
every state the program reaches, `0 ≤ Y`, so the loop runs at most
`new.length - Y ≤ new.length` iterations and `new.length` fuel is enough. -/
def snakeF (old new : List Nat) : Nat → Int → Int → Int × Int
  | fuel, X, Y =>
    if X < (old.length : Int) ∧ Y < (new.length : Int) ∧
        old.getD X.toNat 0 = new.getD Y.toNat 0 then
      match fuel with
      | 0 => (X, Y)
      | fuel + 1 => snakeF old new fuel (X + 1) (Y + 1)
    else (X, Y)

/-- The insert arm of the `(D,k)` body (src/diflib.c:436-462): `X`, `Y` come
from the `k+1` predecessor, `Token = &New[Y-1]`, then the snake determines
`SavedX`/`SavedY`. -/
def searchStepIns (old new : List Nat) (V : Int → WSEntry) (D k : Int) : Int → WSEntry :=
  vset V (DkIndex D k)
    { IsDelete := false
      Index := (V (DkIndex (D - 1) (k + 1))).SavedX
      TokenPos := ((V (DkIndex (D - 1) (k + 1))).SavedY + 1) - 1
      Back := DkIndex (D - 1) (k + 1)
      SavedX := (snakeF old new new.length ((V (DkIndex (D - 1) (k + 1))).SavedX)
        ((V (DkIndex (D - 1) (k + 1))).SavedY + 1)).1
      SavedY := (snakeF old new new.length ((V (DkIndex (D - 1) (k + 1))).SavedX)
        ((V (DkIndex (D - 1) (k + 1))).SavedY + 1)).2 }

/-- The delete arm (src/diflib.c:464-482): `X` is bumped past the deleted
token; the C does not write `Token` here, so the slot keeps its old value. -/
def searchStepDel (old new : List Nat) (V : Int → WSEntry) (D k : Int) : Int → WSEntry :=
  vset V (DkIndex D k)
    { IsDelete := true
      Index := (V (DkIndex (D - 1) (k - 1))).SavedX + 1
      TokenPos := (V (DkIndex D k)).TokenPos
      Back := DkIndex (D - 1) (k - 1)
      SavedX := (snakeF old new new.length ((V (DkIndex (D - 1) (k - 1))).SavedX + 1)
        ((V (DkIndex (D - 1) (k - 1))).SavedY)).1
      SavedY := (snakeF old new new.length ((V (DkIndex (D - 1) (k - 1))).SavedX + 1)
        ((V (DkIndex (D - 1) (k - 1))).SavedY)).2 }

/-- The `(D,k)` body (src/diflib.c:431-502): the guard
`(k == -D) || ((k != D) && V[Bot].SavedX < V[Top].SavedX)` picks insert or
delete. -/
def searchStep (old new : List Nat) (V : Int → WSEntry) (D k : Int) : Int → WSEntry :=
  if k = -D ∨ (k ≠ D ∧
      (V (DkIndex (D - 1) (k - 1))).SavedX < (V (DkIndex (D - 1) (k + 1))).SavedX) then
    searchStepIns old new V D k
  else
    searchStepDel old new V D k

/-- The `k` values of wave `D`: `-D, -D+2, …, D` (src/diflib.c:425). -/
def kList (D : Nat) : List Int := (List.range (D + 1)).map (fun (j : Nat) => -(D : Int) + 2 * (j : Int))

/-- The inner `k`-loop of one wave (src/diflib.c:425-515): process each `k`,
returning early with the terminal index when `X ≥ |Old| ∧ Y ≥ |New|`
(src/diflib.c:508). -/
def searchRow (old new : List Nat) (D : Int) : List Int → (Int → WSEntry) →
    ((Int → WSEntry) × Option Int)
  | [], V => (V, none)
  | k :: ks, V =>
    if ((searchStep old new V D k) (DkIndex D k)).SavedX ≥ (old.length : Int) ∧
        ((searchStep old new V D k) (DkIndex D k)).SavedY ≥ (new.length : Int) then
      (searchStep old new V D k, some (DkIndex D k))
    else searchRow old new D ks (searchStep old new V D k)

/-- The outer `D`-loop (src/diflib.c:424): waves `D = 0, 1, …`; the fuel is
the C loop bound `MaxVSize`, and falling out of the loop is the `-3` path. -/
def searchLoop (old new : List Nat) : Nat → Nat → (Int → WSEntry) →
    ((Int → WSEntry) × Option Int)
  | 0, _, V => (V, none)
  | fuel + 1, D, V =>
    match searchRow old new (D : Int) (kList D) V with
    | (V', some idx) => (V', some idx)
    | (V', none) => searchLoop old new fuel (D + 1) V'

/-- The arena as initialized (src/diflib.c:417): slot `0` is preset to
`SavedX = 0, SavedY = -1`; everything else is uninitialized (defaults). -/
def V0 : Int → WSEntry := fun i => if i = 0 then { SavedX := 0, SavedY := -1 } else {}

/-- The back-pointer reversal loop of `ConstructEditScript`
(src/diflib.c:249-255), with fuel.  The chain of `Back` indices strictly
decreases to `0`, so `endIdx + 1` fuel is enough; `false` flags exhaustion
(unreachable, see `ComputeEditScript_ne_internal_error`). -/
def reverseBackF : Nat → (Int → WSEntry) → Int → Int → ((Int → WSEntry) × Bool)
  | fuel, V, i, k =>
    if i = 0 then (vset V 0 { V 0 with Back := k }, true)
    else
      match fuel with
      | 0 => (V, false)
      | fuel + 1 => reverseBackF fuel (vset V i { V i with Back := k }) ((V i).Back) i

/-- The byte source a `Token` pointer denotes: `&new[p]`, i.e. the bytes of
`new` from offset `p` on.  The program dereferences tokens only at
nonnegative offsets. -/
def tokenSrc (new : List Nat) (p : Int) : List Nat := new.drop p.toNat

/-- One deferred-run flush (the `if (OpcodeCount > 0) { AddEditScript … }`
blocks of src/diflib.c:285-288, 301-304, 321-324, 337-340, 353-356): `inl`
is the C early `return j` with the partial buffer, `inr` the new buffer. -/
def flushStep (cap : Nat) (new : List Nat) (lastOp opCount : Nat) (tokPos : Int)
    (buf : List Nat) : (Int × List Nat) ⊕ List Nat :=
  if 0 < opCount then
    if (AddEditScript cap buf lastOp opCount (tokenSrc new tokPos)).1 < 0 then
      Sum.inl (AddEditScript cap buf lastOp opCount (tokenSrc new tokPos))
    else Sum.inr (AddEditScript cap buf lastOp opCount (tokenSrc new tokPos)).2
  else Sum.inr buf

/-- The emission walk of `ConstructEditScript` (src/diflib.c:277-351), with
fuel.  State: `i` (the catch-up cursor), `cv` (`CurrentVIndex`), the pending
run `(lastOp, opCount, tokPos)` and the script buffer.  `inl` is an early
error return, `inr` the state at normal loop exit (`cv = -1`), before the
final flush. -/
def constructLoopF (cap : Nat) (V : Int → WSEntry) (new : List Nat) :
    Nat → Int → Int → Nat → Nat → Int → List Nat →
    ((Int × List Nat) ⊕ (Nat × Nat × Int × List Nat))
  | fuel, i, cv, lastOp, opCount, tokPos, buf =>
    if cv = -1 then Sum.inr (lastOp, opCount, tokPos, buf)
    else
      match fuel with
      | 0 => Sum.inl (-3, buf)
      | fuel + 1 =>
        if (V cv).IsDelete then
          if i < (V cv).Index then
            if i ≠ 0 then
              if lastOp = KeepOpcode then
                constructLoopF cap V new fuel (i + 1) cv KeepOpcode (opCount + 1) tokPos buf
              else
                match flushStep cap new lastOp opCount tokPos buf with
                | Sum.inl e => Sum.inl e
                | Sum.inr buf2 =>
                  constructLoopF cap V new fuel (i + 1) cv KeepOpcode 1 tokPos buf2
            else constructLoopF cap V new fuel (i + 1) cv lastOp opCount tokPos buf
          else
            if lastOp = DeleteOpcode then
              constructLoopF cap V new fuel (i + 1) ((V cv).Back) DeleteOpcode
                (opCount + 1) tokPos buf
            else
              match flushStep cap new lastOp opCount tokPos buf with
              | Sum.inl e => Sum.inl e
              | Sum.inr buf2 =>
                constructLoopF cap V new fuel (i + 1) ((V cv).Back) DeleteOpcode 1 tokPos buf2
        else
          if i ≤ (V cv).Index then
            if i ≠ 0 then
              if lastOp = KeepOpcode then
                constructLoopF cap V new fuel (i + 1) cv KeepOpcode (opCount + 1) tokPos buf
              else
                match flushStep cap new lastOp opCount tokPos buf with
                | Sum.inl e => Sum.inl e
                | Sum.inr buf2 =>
                  constructLoopF cap V new fuel (i + 1) cv KeepOpcode 1 tokPos buf2
            else constructLoopF cap V new fuel (i + 1) cv lastOp opCount tokPos buf
          else
            if lastOp = InsertOpcode then
              constructLoopF cap V new fuel i ((V cv).Back) InsertOpcode
                (opCount + 1) tokPos buf
            else
              match flushStep cap new lastOp opCount tokPos buf with
              | Sum.inl e => Sum.inl e
              | Sum.inr buf2 =>
                constructLoopF cap V new fuel i ((V cv).Back) InsertOpcode 1
                  ((V cv).TokenPos) buf2

/-- Fuel for the emission walk.  Each iteration increments `i` (bounded by
the largest `Index` on the chain plus one) or advances `cv` along the chain
(bounded by its length), so this bound suffices on every chain the search
produces; proved where needed. -/
def constructFuel (old new : List Nat) : Nat := 3 * (old.length + new.length) + 8

/-- `ConstructEditScript` (src/diflib.c:222-359): reverse the back pointers,
walk the chain emitting runs, flush the residual run, return the script
length. -/
def ConstructEditScript (cap : Nat) (V : Int → WSEntry) (endIdx : Int)
    (old new : List Nat) : Int × List Nat :=
  match reverseBackF (endIdx.toNat + 1) V endIdx (-1) with
  | (_, false) => (-3, [])
  | (V2, true) =>
    match constructLoopF cap V2 new (constructFuel old new) 0 ((V2 0).Back)
        NoopOpcode 0 0 [] with
    | Sum.inl e => e
    | Sum.inr (lastOp, opCount, tokPos, buf) =>
      match flushStep cap new lastOp opCount tokPos buf with
      | Sum.inl e => e
      | Sum.inr buf2 => ((buf2.length : Int), buf2)

/-- `ComputeEditScript` (src/diflib.c:361-520): run the search over waves
`D = 0 … MaxVSize-1` (`MaxVSize = (|Old|+1)·(|New|+1)`), then build the
script from the terminal entry; falling out of the wave loop is `-3`.  The
arena `malloc` is assumed to succeed (`-2` is out of scope). -/
def ComputeEditScript (old new : List Nat) (cap : Nat) : Int × List Nat :=
  match searchLoop old new ((old.length + 1) * (new.length + 1)) 0 V0 with
  | (_, none) => (-3, [])
  | (V, some endIdx) => ConstructEditScript cap V endIdx old new

example : ComputeEditScript [] [] 2 = (0, []) := by decide
example : ComputeEditScript [97, 99] [97, 98, 99] 7 =
    (3, [3 * 64 + 0, 1 * 64 + 0, 98]) := by decide
example : ComputeEditScript [97, 98, 99] [] 5 = (1, [2 * 64 + 2]) := by decide
example : ComputeEditScript [] [97, 98, 99] 5 = (4, [1 * 64 + 2, 97, 98, 99]) := by decide
example : ComputeEditScript [97, 98] [120, 121, 122] 7 =
    (5, [2 * 64 + 1, 1 * 64 + 2, 120, 121, 122]) := by decide
example : ComputeEditScript [97, 98, 99] [97, 98, 99] 8 = (0, []) := by decide
example : ApplyEditScript [97, 99] [3 * 64 + 0, 1 * 64 + 0, 98] 4 =
    (3, [97, 98, 99]) := by decide

/-! ## The pure table recurrence behind the search

`mEntry old new d k` is the value the wave loop stores at arena slot
`DkIndex d k` (for `k ≡ d (mod 2)`, `|k| ≤ d`), described as a recurrence on
`d` alone; the refinement theorems below connect it to `searchLoop`. -/

def mEntry (old new : List Nat) : Nat → Int → WSEntry
  | 0, _ =>
    { SavedX := (snakeF old new new.length 0 0).1
      SavedY := (snakeF old new new.length 0 0).2
      IsDelete := false
      Index := 0
      Back := 0
      TokenPos := -1 }
  | d + 1, k =>
    if k = -(d + 1 : Int) ∨ (k ≠ (d + 1 : Int) ∧
        (mEntry old new d (k - 1)).SavedX < (mEntry old new d (k + 1)).SavedX) then
      { SavedX := (snakeF old new new.length ((mEntry old new d (k + 1)).SavedX)
          ((mEntry old new d (k + 1)).SavedY + 1)).1
        SavedY := (snakeF old new new.length ((mEntry old new d (k + 1)).SavedX)
          ((mEntry old new d (k + 1)).SavedY + 1)).2
        IsDelete := false
        Index := (mEntry old new d (k + 1)).SavedX
        Back := DkIndex d (k + 1)
        TokenPos := (mEntry old new d (k + 1)).SavedY }
    else
      { SavedX := (snakeF old new new.length ((mEntry old new d (k - 1)).SavedX + 1)
          ((mEntry old new d (k - 1)).SavedY)).1
        SavedY := (snakeF old new new.length ((mEntry old new d (k - 1)).SavedX + 1)
          ((mEntry old new d (k - 1)).SavedY)).2
        IsDelete := true
        Index := (mEntry old new d (k - 1)).SavedX + 1
        Back := DkIndex d (k - 1)
        TokenPos := 0 }

/-- Valid `(d, k)` cells of the table: `|k| ≤ d` and `k ≡ d (mod 2)`. -/
def validDK (d : Nat) (k : Int) : Prop :=
  -(d : Int) ≤ k ∧ k ≤ (d : Int) ∧ (k + d) % 2 = 0

instance (d : Nat) (k : Int) : Decidable (validDK d k) := by
  unfold validDK
  infer_instance

/-- The termination test of the wave loop at a cell, in terms of the pure
recurrence. -/
def goalDK (old new : List Nat) (d : Nat) (k : Int) : Prop :=
  (old.length : Int) ≤ (mEntry old new d k).SavedX ∧
    (new.length : Int) ≤ (mEntry old new d k).SavedY

instance (old new : List Nat) (d : Nat) (k : Int) : Decidable (goalDK old new d k) := by
  unfold goalDK
  infer_instance

/-! ### The snake -/

/-- Full specification of the snake: starting from nonnegative `X`, `Y` it
advances both cursors over `s` equal bytes, and, given `new.length - Y` fuel
(always available from the wrapper), `s` is maximal. -/
theorem snakeF_spec (old new : List Nat) : ∀ (fuel : Nat) (X Y : Int), 0 ≤ X → 0 ≤ Y →
    ∃ s : Nat, snakeF old new fuel X Y = (X + s, Y + s)
      ∧ (∀ t : Nat, t < s → X + t < (old.length : Int) ∧ Y + t < (new.length : Int) ∧
          old.getD (X + t).toNat 0 = new.getD (Y + t).toNat 0)
      ∧ ((new.length : Int) - Y ≤ fuel →
          ¬(X + s < (old.length : Int) ∧ Y + s < (new.length : Int) ∧
            old.getD (X + s).toNat 0 = new.getD (Y + s).toNat 0)) := by
  intro fuel
  induction fuel with
  | zero =>
    intro X Y hX hY
    refine ⟨0, ?_, ?_, ?_⟩
    · rw [snakeF]
      split <;> simp
    · intro t ht
      omega
    · intro hf hcond
      have h := hcond.2.1
      omega
  | succ fuel ih =>
    intro X Y hX hY
    by_cases hc : X < (old.length : Int) ∧ Y < (new.length : Int) ∧
        old.getD X.toNat 0 = new.getD Y.toNat 0
    · obtain ⟨s, hs1, hs2, hs3⟩ := ih (X + 1) (Y + 1) (by omega) (by omega)
      refine ⟨s + 1, ?_, ?_, ?_⟩
      · rw [snakeF, if_pos hc, hs1]
        rw [Prod.mk.injEq]
        constructor <;> push_cast <;> ring
      · intro t ht
        cases t with
        | zero => simpa using hc
        | succ t =>
          have := hs2 t (by omega)
          refine ⟨by push_cast at this ⊢; omega, by push_cast at this ⊢; omega, ?_⟩
          have h3 := this.2.2
          have e1 : X + 1 + (t : Int) = X + ((t : Nat) + 1 : Nat) := by push_cast; ring
          have e2 : Y + 1 + (t : Int) = Y + ((t : Nat) + 1 : Nat) := by push_cast; ring
          rw [e1, e2] at h3
          exact h3
      · intro hf
        have := hs3 (by omega)
        have e1 : X + 1 + (s : Int) = X + ((s : Nat) + 1 : Nat) := by push_cast; ring
        have e2 : Y + 1 + (s : Int) = Y + ((s : Nat) + 1 : Nat) := by push_cast; ring
        rw [e1, e2] at this
        exact this
    · refine ⟨0, ?_, ?_, ?_⟩
      · rw [snakeF, if_neg hc]
        simp
      · intro t ht
        omega
      · intro hf
        simpa using hc

example : ApplyEditScript [10, 20] [] 5 = (2, [10, 20]) := by decide




theorem validDK_zero (k : Int) (h : validDK 0 k) : k = 0 := by
  obtain ⟨h1, h2, h3⟩ := h
  simp at h1 h2
  omega

theorem validDK_succ_ins (d : Nat) (k : Int) (h : validDK (d + 1) k)
    (hne : k ≠ ((d : Int) + 1)) : validDK d (k + 1) := by
  obtain ⟨h1, h2, h3⟩ := h
  refine ⟨?_, ?_, ?_⟩ <;> push_cast at * <;> omega

theorem validDK_succ_del (d : Nat) (k : Int) (h : validDK (d + 1) k)
    (hne : k ≠ -((d : Int) + 1)) : validDK d (k - 1) := by
  obtain ⟨h1, h2, h3⟩ := h
  refine ⟨?_, ?_, ?_⟩ <;> push_cast at * <;> omega

/-- Basic invariants of the table: coordinates are nonnegative, lie on the
diagonal `X - Y = k`, and reach at least `(d+k)/2`, `(d-k)/2`. -/
theorem mEntry_basic (old new : List Nat) : ∀ (d : Nat) (k : Int), validDK d k →
    0 ≤ (mEntry old new d k).SavedX ∧ 0 ≤ (mEntry old new d k).SavedY
    ∧ (mEntry old new d k).SavedX - (mEntry old new d k).SavedY = k
    ∧ (d : Int) + k ≤ 2 * (mEntry old new d k).SavedX
    ∧ (d : Int) - k ≤ 2 * (mEntry old new d k).SavedY := by
  intro d
  induction d with
  | zero =>
    intro k hk
    have hk0 := validDK_zero k hk
    subst hk0
    obtain ⟨s, hs1, hs2, hs3⟩ := snakeF_spec old new new.length 0 0 (by omega) (by omega)
    rw [mEntry]
    dsimp only
    simp only [hs1]
    push_cast
    refine ⟨by omega, by omega, by omega, by omega, by omega⟩
  | succ d ih =>
    intro k hk
    have hk' : -((d : Int) + 1) ≤ k ∧ k ≤ ((d : Int) + 1) ∧ (k + ((d : Int) + 1)) % 2 = 0 := by
      obtain ⟨a, b, c⟩ := hk
      push_cast at a b c
      exact ⟨a, b, c⟩
    obtain ⟨hk1, hk2, hk3⟩ := hk'
    rw [mEntry]
    split
    · rename_i hguard
      have hne : k ≠ ((d : Int) + 1) := by
        rcases hguard with h | h
        · omega
        · exact h.1
      have htopv := validDK_succ_ins d k hk (by exact_mod_cast hne)
      obtain ⟨t1, t2, t3, t4, t5⟩ := ih (k + 1) htopv
      obtain ⟨s, hs1, hs2, hs3⟩ := snakeF_spec old new new.length
        ((mEntry old new d (k + 1)).SavedX) ((mEntry old new d (k + 1)).SavedY + 1)
        (by omega) (by omega)
      dsimp only
      simp only [hs1]
      push_cast
      refine ⟨by omega, by omega, by omega, by omega, by omega⟩
    · rename_i hguard
      have hne : k ≠ -((d : Int) + 1) := by
        intro hcon
        exact hguard (Or.inl hcon)
      have hbotv := validDK_succ_del d k hk (by exact_mod_cast hne)
      obtain ⟨t1, t2, t3, t4, t5⟩ := ih (k - 1) hbotv
      obtain ⟨s, hs1, hs2, hs3⟩ := snakeF_spec old new new.length
        ((mEntry old new d (k - 1)).SavedX + 1) ((mEntry old new d (k - 1)).SavedY)
        (by omega) (by omega)
      dsimp only
      simp only [hs1]
      push_cast
      refine ⟨by omega, by omega, by omega, by omega, by omega⟩

/-- The wave `|Old| + |New|` contains a terminating cell (on diagonal
`|Old| - |New|`): the search never falls out of the wave loop. -/
theorem goal_exists (old new : List Nat) :
    validDK (old.length + new.length) ((old.length : Int) - (new.length : Int))
    ∧ goalDK old new (old.length + new.length) ((old.length : Int) - (new.length : Int)) := by
  have hv : validDK (old.length + new.length) ((old.length : Int) - (new.length : Int)) := by
    refine ⟨?_, ?_, ?_⟩ <;> push_cast <;> omega
  obtain ⟨b1, b2, b3, b4, b5⟩ := mEntry_basic old new (old.length + new.length)
    ((old.length : Int) - (new.length : Int)) hv
  refine ⟨hv, ?_, ?_⟩ <;> push_cast at b4 b5 ⊢ <;> omega

example : ApplyEditScript [10, 20] [3 * 64 + 0, 1 * 64 + 0, 99] 5 = (3, [10, 99, 20]) := by decide
example : ApplyEditScript [10, 20] [3 * 64 + 0, 1 * 64 + 0, 99, 2 * 64 + 0] 5 = (2, [10, 99]) := by
  decide
example : ApplyEditScript [10, 20] [2 * 64 + 1] 5 = (0, []) := by decide
example : ApplyEditScript [] [0] 2 = (1, [0]) := by decide
example : ApplyEditScript [10] [] 1 = (-1, []) := by decide
example : applyChecks [10] [] = [1] := by decide
example : applyChecks [10, 20] [3 * 64 + 0, 1 * 64 + 0, 99] = [1, 2, 3] := by decide

/-! ### Arithmetic of `DkIndex` -/

theorem DkIndex_two_mul (d : Nat) (k : Int) (h : (k + d) % 2 = 0) :
    2 * DkIndex (d : Int) k = (d : Int) * d + 2 * d + k := by
  unfold DkIndex
  have hpar : ((d : Int) * d + 2 * (d : Int) + k) % 2 = 0 := by
    rcases Int.even_or_odd (d : Int) with ⟨m, hm⟩ | ⟨m, hm⟩
    · have h2 : (d : Int) * d + 2 * d + k = 4 * (m * m) + 4 * m + k := by rw [hm]; ring
      rw [h2]
      rw [hm] at h
      generalize m * m = q
      omega
    · have h2 : (d : Int) * d + 2 * d + k = 4 * (m * m) + 8 * m + 3 + k := by rw [hm]; ring
      rw [h2]
      rw [hm] at h
      generalize m * m = q
      omega
  omega

theorem DkIndex_inj (d d' : Nat) (k k' : Int) (h : validDK d k) (h' : validDK d' k')
    (he : DkIndex (d : Int) k = DkIndex (d' : Int) k') : d = d' ∧ k = k' := by
  obtain ⟨h1, h2, h3⟩ := h
  obtain ⟨h1', h2', h3'⟩ := h'
  have e1 := DkIndex_two_mul d k h3
  have e2 := DkIndex_two_mul d' k' h3'
  have he2 : (d : Int) * d + 2 * d + k = (d' : Int) * d' + 2 * d' + k' := by
    rw [← e1, ← e2, he]
  have hdd : d = d' := by
    by_contra hne
    rcases Nat.lt_or_ge d d' with hlt | hge
    · have hd1 : (d : Int) + 1 ≤ (d' : Int) := by exact_mod_cast hlt
      have hsq : ((d : Int) + 1) * ((d : Int) + 1) ≤ (d' : Int) * d' := by
        have hnn : (0 : Int) ≤ (d : Int) + 1 := by positivity
        exact mul_le_mul hd1 hd1 hnn (by positivity)
      nlinarith
    · have hne' : d' < d := by omega
      have hd1 : (d' : Int) + 1 ≤ (d : Int) := by exact_mod_cast hne'
      have hsq : ((d' : Int) + 1) * ((d' : Int) + 1) ≤ (d : Int) * d := by
        have hnn : (0 : Int) ≤ (d' : Int) + 1 := by positivity
        exact mul_le_mul hd1 hd1 hnn (by positivity)
      nlinarith
  subst hdd
  refine ⟨rfl, by nlinarith⟩

theorem DkIndex_back_lt (d : Nat) (k k' : Int) (h : validDK (d + 1) k) (h' : validDK d k') :
    0 ≤ DkIndex (d : Int) k' ∧ DkIndex (d : Int) k' < DkIndex ((d : Int) + 1) k := by
  obtain ⟨h1, h2, h3⟩ := h
  obtain ⟨h1', h2', h3'⟩ := h'
  have e2 := DkIndex_two_mul d k' h3'
  have e1 : 2 * DkIndex ((d : Int) + 1) k =
      ((d : Int) + 1) * ((d : Int) + 1) + 2 * ((d : Int) + 1) + k := by
    have := DkIndex_two_mul (d + 1) k (by push_cast at h3 ⊢; omega)
    push_cast at this ⊢
    convert this using 3 <;> push_cast <;> ring
  have hexp : ((d : Int) + 1) * ((d : Int) + 1) = (d : Int) * d + 2 * d + 1 := by ring
  rw [hexp] at e1
  push_cast at h1 h2 h1' h2'
  constructor
  · nlinarith [sq_nonneg ((d : Int))]
  · nlinarith

theorem DkIndex_zero_iff (d : Nat) (k : Int) (h : validDK d k) :
    DkIndex (d : Int) k = 0 ↔ d = 0 := by
  constructor
  · intro he
    have h0 : validDK 0 0 := by refine ⟨by omega, by omega, by omega⟩
    have := DkIndex_inj d 0 k 0 h h0 (by rw [he]; decide)
    exact this.1
  · intro hd
    subst hd
    have hk := validDK_zero k h
    subst hk
    decide

/-! ### Refinement: the imperative search agrees with the recurrence -/

/-- Agreement of an arena with the recurrence on the written cells `P`, and
with the initial arena elsewhere. -/
def InvV (old new : List Nat) (V : Int → WSEntry) (P : Nat → Int → Prop) : Prop :=
  (∀ d k, validDK d k → P d k → V (DkIndex (d : Int) k) = mEntry old new d k)
  ∧ (∀ i : Int, (∀ d k, validDK d k → P d k → i ≠ DkIndex (d : Int) k) → V i = V0 i)

/-- The cells written after the full rows `< D` plus the first `j` cells of
row `D`. -/
def rowPrefix (D j : Nat) (d : Nat) (k : Int) : Prop :=
  d < D ∨ (d = D ∧ k < -(D : Int) + 2 * j)

/-- The `(0,0)` body reads the preset slot through `TopIndex = 0` and stores
`mEntry old new 0 0` at slot `0`. -/
theorem searchStep_zero (old new : List Nat) (V : Int → WSEntry) (hV : V 0 = V0 0) :
    searchStep old new V 0 0 = vset V 0 (mEntry old new 0 0) := by
  unfold searchStep searchStepIns
  rw [if_pos (Or.inl (by decide : (0 : Int) = -0))]
  have h1 : DkIndex ((0 : Int) - 1) ((0 : Int) + 1) = 0 := by decide
  have h0 : DkIndex (0 : Int) (0 : Int) = 0 := by decide
  rw [h1, h0, hV, mEntry]
  have hV0 : V0 0 = { SavedX := 0, SavedY := -1 } := by simp [V0]
  rw [hV0]
  simp only [WSEntry.mk.injEq]
  norm_num

/-- The `(D,k)` body for `D = d+1`: given that the two predecessor slots it
can consult hold the recurrence values and its own slot is still pristine,
it stores `mEntry old new (d+1) k`. -/
theorem searchStep_succ (old new : List Nat) (V : Int → WSEntry) (d : Nat) (k : Int)
    (hk : validDK (d + 1) k)
    (htop : k ≠ (d : Int) + 1 → V (DkIndex (d : Int) (k + 1)) = mEntry old new d (k + 1))
    (hbot : k ≠ -((d : Int) + 1) → V (DkIndex (d : Int) (k - 1)) = mEntry old new d (k - 1))
    (htok : (V (DkIndex ((d : Int) + 1) k)).TokenPos = 0) :
    searchStep old new V ((d : Int) + 1) k =
      vset V (DkIndex ((d : Int) + 1) k) (mEntry old new (d + 1) k) := by
  unfold searchStep searchStepIns searchStepDel
  have hml : ((d : Int) + 1) - 1 = (d : Int) := by ring
  rw [hml]
  have hGiff : (k = -((d : Int) + 1) ∨ (k ≠ (d : Int) + 1 ∧
        (V (DkIndex (d : Int) (k - 1))).SavedX < (V (DkIndex (d : Int) (k + 1))).SavedX))
      ↔ (k = -((d : Int) + 1) ∨ (k ≠ (d : Int) + 1 ∧
        (mEntry old new d (k - 1)).SavedX < (mEntry old new d (k + 1)).SavedX)) := by
    by_cases hL : k = -((d : Int) + 1)
    · simp [hL]
    · by_cases hR : k = (d : Int) + 1
      · simp [hL, hR]
      · rw [htop hR, hbot hL]
  by_cases hGm : (k = -((d : Int) + 1) ∨ (k ≠ (d : Int) + 1 ∧
      (mEntry old new d (k - 1)).SavedX < (mEntry old new d (k + 1)).SavedX))
  · rw [if_pos (hGiff.mpr hGm), mEntry, if_pos hGm]
    have hne : k ≠ (d : Int) + 1 := by
      rcases hGm with h | h
      · omega
      · exact h.1
    rw [htop hne]
    have hTP : (mEntry old new d (k + 1)).SavedY + 1 - 1 = (mEntry old new d (k + 1)).SavedY := by
      ring
    rw [hTP]
  · rw [if_neg (fun h => hGm (hGiff.mp h)), mEntry, if_neg hGm]
    have hneL : k ≠ -((d : Int) + 1) := fun h => hGm (Or.inl h)
    rw [hbot hneL, htok]

theorem vset_self (V : Int → WSEntry) (i : Int) (e : WSEntry) : vset V i e i = e := by
  simp [vset]

theorem V0_TokenPos (i : Int) : (V0 i).TokenPos = 0 := by
  unfold V0
  split <;> rfl

/-- A slot of the not-yet-written part of the arena still holds its
initial value. -/
theorem InvV_fresh (old new : List Nat) (V : Int → WSEntry) (D j : Nat) (k : Int)
    (hInv : InvV old new V (rowPrefix D j)) (hk : validDK D k)
    (hkj : -(D : Int) + 2 * j ≤ k) :
    V (DkIndex (D : Int) k) = V0 (DkIndex (D : Int) k) := by
  refine hInv.2 _ (fun d' k' hv' hp' => ?_)
  intro he
  obtain ⟨hd, hkk⟩ := DkIndex_inj D d' k k' hk hv' he
  rcases hp' with h | ⟨h1, h2⟩
  · omega
  · omega

/-- Processing cell `(D, -D+2j)` with the first `j` cells of row `D` (and all
earlier rows) already written stores the recurrence value of the cell. -/
theorem searchStep_cell (old new : List Nat) (V : Int → WSEntry) (D j : Nat) (k : Int)
    (hInv : InvV old new V (rowPrefix D j)) (hk : validDK D k)
    (hkj : k = -(D : Int) + 2 * j) (hj : j ≤ D) :
    searchStep old new V (D : Int) k = vset V (DkIndex (D : Int) k) (mEntry old new D k) := by
  cases D with
  | zero =>
    have hk0 : k = 0 := by omega
    subst hk0
    have hfresh := InvV_fresh old new V 0 j 0 hInv hk (by omega)
    have hD : DkIndex ((0 : Nat) : Int) 0 = 0 := by norm_num [DkIndex]
    rw [hD] at hfresh
    show searchStep old new V ((0 : Nat) : Int) 0
      = vset V (DkIndex ((0 : Nat) : Int) 0) (mEntry old new 0 0)
    rw [hD]
    exact searchStep_zero old new V hfresh
  | succ d =>
    have hcast : ((d + 1 : Nat) : Int) = (d : Int) + 1 := by push_cast; ring
    rw [hcast]
    refine searchStep_succ old new V d k hk ?_ ?_ ?_
    · intro hne
      exact hInv.1 d (k + 1) (validDK_succ_ins d k hk hne) (Or.inl (by omega))
    · intro hne
      exact hInv.1 d (k - 1) (validDK_succ_del d k hk hne) (Or.inl (by omega))
    · have hfresh := InvV_fresh old new V (d + 1) j k hInv hk (by omega)
      rw [hcast] at hfresh
      rw [hfresh, V0_TokenPos]

/-- Writing cell `(D, -D+2j)` extends the arena invariant by one cell. -/
theorem InvV_step (old new : List Nat) (V : Int → WSEntry) (D j : Nat)
    (hInv : InvV old new V (rowPrefix D j)) (hk : validDK D (-(D : Int) + 2 * j)) :
    InvV old new (vset V (DkIndex (D : Int) (-(D : Int) + 2 * j))
        (mEntry old new D (-(D : Int) + 2 * j))) (rowPrefix D (j + 1)) := by
  constructor
  · intro d' k' hv' hp'
    by_cases he : DkIndex (d' : Int) k' = DkIndex (D : Int) (-(D : Int) + 2 * j)
    · obtain ⟨hd, hkk⟩ := DkIndex_inj d' D k' (-(D : Int) + 2 * j) hv' hk he
      simp only [vset]
      rw [if_pos he, hd, hkk]
    · have hv'' : -(d' : Int) ≤ k' ∧ k' ≤ (d' : Int) ∧ (k' + d') % 2 = 0 := hv'
      have hp0 : rowPrefix D j d' k' := by
        rcases hp' with h | ⟨h1, h2⟩
        · exact Or.inl h
        · right
          refine ⟨h1, ?_⟩
          have hne : k' ≠ -(D : Int) + 2 * j := by
            intro hcon
            exact he (by rw [h1, hcon])
          subst h1
          omega
      simp only [vset]
      rw [if_neg he]
      exact hInv.1 d' k' hv' hp0
  · intro i hi
    have hiK : i ≠ DkIndex (D : Int) (-(D : Int) + 2 * j) :=
      hi D (-(D : Int) + 2 * j) hk (Or.inr ⟨rfl, by omega⟩)
    simp only [vset]
    rw [if_neg hiK]
    refine hInv.2 i (fun d' k' hv' hp' => hi d' k' hv' ?_)
    rcases hp' with h | ⟨h1, h2⟩
    · exact Or.inl h
    · exact Or.inr ⟨h1, by omega⟩

theorem kList_length (D : Nat) : (kList D).length = D + 1 := by
  unfold kList
  rw [List.length_map, List.length_range]

theorem kList_drop (D j : Nat) (hj : j ≤ D) :
    (kList D).drop j = (-(D : Int) + 2 * j) :: (kList D).drop (j + 1) := by
  have hlen : j < (kList D).length := by rw [kList_length]; omega
  rw [List.drop_eq_getElem_cons hlen]
  congr 1
  simp only [kList, List.getElem_map, List.getElem_range]

theorem kList_drop_last (D : Nat) : (kList D).drop (D + 1) = [] := by
  have h := List.drop_length (kList D)
  rwa [kList_length] at h

/-- Every valid `k` of wave `d` is `-d + 2j` for some `j ≤ d`. -/
theorem validDK_form (d : Nat) (k : Int) (h : validDK d k) :
    ∃ j : Nat, j ≤ d ∧ k = -(d : Int) + 2 * j := by
  have h' : -(d : Int) ≤ k ∧ k ≤ (d : Int) ∧ (k + d) % 2 = 0 := h
  refine ⟨((k + d) / 2).toNat, ?_, ?_⟩ <;> omega

/-- The `k`-loop of wave `D`, started at its `j`-th cell: either it returns
early at the first goal cell from `j` on, or no cell from `j` on is a goal
cell and the whole row gets written. -/
theorem searchRow_go (old new : List Nat) (D : Nat) : ∀ (n : Nat), ∀ (j : Nat),
    j + n = D + 1 → ∀ V : Int → WSEntry, InvV old new V (rowPrefix D j) →
    (∃ jg, j ≤ jg ∧ jg ≤ D ∧ goalDK old new D (-(D : Int) + 2 * jg)
      ∧ (∀ i, j ≤ i → i < jg → ¬ goalDK old new D (-(D : Int) + 2 * i))
      ∧ ∃ V', searchRow old new (D : Int) ((kList D).drop j) V
            = (V', some (DkIndex (D : Int) (-(D : Int) + 2 * jg)))
        ∧ InvV old new V' (rowPrefix D (jg + 1)))
    ∨ ((∀ i, j ≤ i → i ≤ D → ¬ goalDK old new D (-(D : Int) + 2 * i))
      ∧ ∃ V', searchRow old new (D : Int) ((kList D).drop j) V = (V', none)
        ∧ InvV old new V' (rowPrefix D (D + 1))) := by
  intro n
  induction n with
  | zero =>
    intro j hj V hInv
    have hje : j = D + 1 := by omega
    subst hje
    rw [kList_drop_last]
    right
    refine ⟨fun i h1 h2 => absurd h1 (by omega), V, rfl, hInv⟩
  | succ n ih =>
    intro j hj V hInv
    have hjD : j ≤ D := by omega
    have hkval : validDK D (-(D : Int) + 2 * j) := ⟨by omega, by omega, by omega⟩
    have hcell := searchStep_cell old new V D j (-(D : Int) + 2 * j) hInv hkval rfl hjD
    rw [kList_drop D j hjD]
    simp only [searchRow]
    rw [hcell, vset_self]
    by_cases hgoal : goalDK old new D (-(D : Int) + 2 * j)
    · rw [if_pos ⟨hgoal.1, hgoal.2⟩]
      left
      exact ⟨j, le_refl j, hjD, hgoal, fun i h1 h2 => absurd h1 (by omega),
        vset V (DkIndex (D : Int) (-(D : Int) + 2 * j)) (mEntry old new D (-(D : Int) + 2 * j)),
        rfl, InvV_step old new V D j hInv hkval⟩
    · rw [if_neg (fun hc => hgoal ⟨hc.1, hc.2⟩)]
      rcases ih (j + 1) (by omega) _ (InvV_step old new V D j hInv hkval) with
        ⟨jg, hj1, hj2, hg, hfirst, V', heq, hinv'⟩ | ⟨hall, V', heq, hinv'⟩
      · left
        refine ⟨jg, by omega, hj2, hg, ?_, V', heq, hinv'⟩
        intro i h1 h2
        rcases Nat.eq_or_lt_of_le h1 with he | hlt
        · subst he
          exact hgoal
        · exact hfirst i (by omega) h2
      · right
        refine ⟨?_, V', heq, hinv'⟩
        intro i h1 h2
        rcases Nat.eq_or_lt_of_le h1 with he | hlt
        · subst he
          exact hgoal
        · exact hall i (by omega) h2

/-- The wave loop: started after all waves `< D` (none of which contains a
goal cell), it returns the first goal cell in diagonal-scan order, with the
arena holding the recurrence values of everything written. -/
theorem searchLoop_go (old new : List Nat) : ∀ (fuel : Nat), ∀ (D : Nat) (V : Int → WSEntry),
    InvV old new V (rowPrefix D 0) →
    (∀ d k, validDK d k → d < D → ¬ goalDK old new d k) →
    old.length + new.length + 1 ≤ D + fuel →
    ∃ (Ds js : Nat) (V' : Int → WSEntry),
      searchLoop old new fuel D V
        = (V', some (DkIndex (Ds : Int) (-(Ds : Int) + 2 * js)))
      ∧ js ≤ Ds ∧ goalDK old new Ds (-(Ds : Int) + 2 * js)
      ∧ (∀ d k, validDK d k → d < Ds → ¬ goalDK old new d k)
      ∧ (∀ i, i < js → ¬ goalDK old new Ds (-(Ds : Int) + 2 * i))
      ∧ InvV old new V' (rowPrefix Ds (js + 1)) := by
  intro fuel
  induction fuel with
  | zero =>
    intro D V hInv hno hfuel
    exfalso
    obtain ⟨hv, hg⟩ := goal_exists old new
    exact hno _ _ hv (by omega) hg
  | succ fuel ih =>
    intro D V hInv hno hfuel
    rcases searchRow_go old new D (D + 1) 0 (by omega) V hInv with
      ⟨jg, _, hj2, hg, hfirst, V', heq, hinv'⟩ | ⟨hall, V', heq, hinv'⟩
    · rw [List.drop_zero] at heq
      refine ⟨D, jg, V', ?_, hj2, hg, hno, fun i hi => hfirst i (by omega) hi, hinv'⟩
      simp only [searchLoop]
      rw [heq]
    · rw [List.drop_zero] at heq
      have hstep : searchLoop old new (fuel + 1) D V = searchLoop old new fuel (D + 1) V' := by
        simp only [searchLoop]
        rw [heq]
      rw [hstep]
      have hinvN : InvV old new V' (rowPrefix (D + 1) 0) := by
        constructor
        · intro d k hv hp
          have hv' : -(d : Int) ≤ k ∧ k ≤ (d : Int) ∧ (k + d) % 2 = 0 := hv
          refine hinv'.1 d k hv ?_
          rcases hp with h | ⟨h1, h2⟩
          · rcases Nat.lt_or_ge d D with h' | h'
            · exact Or.inl h'
            · exact Or.inr ⟨by omega, by omega⟩
          · exfalso
            omega
        · intro i hi
          refine hinv'.2 i (fun d k hv hp => hi d k hv ?_)
          rcases hp with h | ⟨h1, _⟩
          · exact Or.inl (by omega)
          · exact Or.inl (by omega)
      have hnoN : ∀ d k, validDK d k → d < D + 1 → ¬ goalDK old new d k := by
        intro d k hv hd hg
        rcases Nat.lt_or_ge d D with h | h
        · exact hno d k hv h hg
        · have hdD : d = D := by omega
          obtain ⟨jj, hjjle, hjke⟩ := validDK_form D k (hdD ▸ hv)
          have hgD : goalDK old new D k := hdD ▸ hg
          rw [hjke] at hgD
          exact hall jj (by omega) hjjle hgD
      exact ih (D + 1) V' hinvN hnoN (by omega)

/-- The arena starts out with only the preset slot, i.e. no cell written. -/
theorem InvV_V0 (old new : List Nat) : InvV old new V0 (rowPrefix 0 0) := by
  constructor
  · intro d k hv hp
    exfalso
    have hv' : -(d : Int) ≤ k ∧ k ≤ (d : Int) ∧ (k + d) % 2 = 0 := hv
    rcases hp with h | ⟨h1, h2⟩
    · omega
    · subst h1
      omega
  · intro i _
    rfl

/-- What the search phase of `ComputeEditScript` computes: the first goal
cell `(D*, k*)` in wave order (first `k` within the wave), with the arena
holding the recurrence values of all cells written up to it. -/
theorem searchLoop_spec (old new : List Nat) :
    ∃ (Ds js : Nat) (V' : Int → WSEntry),
      searchLoop old new ((old.length + 1) * (new.length + 1)) 0 V0
        = (V', some (DkIndex (Ds : Int) (-(Ds : Int) + 2 * js)))
      ∧ js ≤ Ds ∧ goalDK old new Ds (-(Ds : Int) + 2 * js)
      ∧ (∀ d k, validDK d k → d < Ds → ¬ goalDK old new d k)
      ∧ (∀ i, i < js → ¬ goalDK old new Ds (-(Ds : Int) + 2 * i))
      ∧ InvV old new V' (rowPrefix Ds (js + 1)) := by
  have hprod : (old.length + 1) * (new.length + 1)
      = old.length * new.length + old.length + new.length + 1 := by ring
  exact searchLoop_go old new ((old.length + 1) * (new.length + 1)) 0 V0 (InvV_V0 old new)
    (fun d k _ h => absurd h (by omega)) (by omega)

/-! ### Reachability and the furthest-reaching property of the table -/

theorem snakeF_ge (old new : List Nat) (fuel : Nat) (X Y : Int) (hX : 0 ≤ X) (hY : 0 ≤ Y) :
    X ≤ (snakeF old new fuel X Y).1 ∧ Y ≤ (snakeF old new fuel X Y).2 := by
  obtain ⟨s, hs1, _, _⟩ := snakeF_spec old new fuel X Y hX hY
  rw [hs1]
  constructor <;> simp <;> omega

theorem snakeF_inbounds (old new : List Nat) : ∀ (fuel : Nat) (X Y : Int),
    X ≤ (old.length : Int) → Y ≤ (new.length : Int) →
    (snakeF old new fuel X Y).1 ≤ (old.length : Int)
      ∧ (snakeF old new fuel X Y).2 ≤ (new.length : Int) := by
  intro fuel
  induction fuel with
  | zero =>
    intro X Y hX hY
    rw [snakeF]
    split
    · exact ⟨hX, hY⟩
    · exact ⟨hX, hY⟩
  | succ fuel ih =>
    intro X Y hX hY
    rw [snakeF]
    split
    · rename_i hc
      exact ih (X + 1) (Y + 1) (by omega) (by omega)
    · exact ⟨hX, hY⟩

theorem snakeF_stuck (old new : List Nat) (fuel : Nat) (X Y : Int)
    (h : ¬(X < (old.length : Int) ∧ Y < (new.length : Int) ∧
      old.getD X.toNat 0 = new.getD Y.toNat 0)) :
    snakeF old new fuel X Y = (X, Y) := by
  cases fuel with
  | zero => rw [snakeF, if_neg h]
  | succ fuel => rw [snakeF, if_neg h]

/-- The guard of the `(d+1, k)` cell of the recurrence (insert chosen). -/
def mIsIns (old new : List Nat) (d : Nat) (k : Int) : Prop :=
  k = -(d + 1 : Int) ∨ (k ≠ (d + 1 : Int) ∧
    (mEntry old new d (k - 1)).SavedX < (mEntry old new d (k + 1)).SavedX)

instance (old new : List Nat) (d : Nat) (k : Int) : Decidable (mIsIns old new d k) := by
  unfold mIsIns
  infer_instance

/-- The `k` of the predecessor cell the `(d+1, k)` cell extends. -/
def mParentK (old new : List Nat) (d : Nat) (k : Int) : Int :=
  if mIsIns old new d k then k + 1 else k - 1

theorem mEntry_ins_eq (old new : List Nat) (d : Nat) (k : Int) (hg : mIsIns old new d k) :
    mEntry old new (d + 1) k =
      { SavedX := (snakeF old new new.length ((mEntry old new d (k + 1)).SavedX)
          ((mEntry old new d (k + 1)).SavedY + 1)).1
        SavedY := (snakeF old new new.length ((mEntry old new d (k + 1)).SavedX)
          ((mEntry old new d (k + 1)).SavedY + 1)).2
        IsDelete := false
        Index := (mEntry old new d (k + 1)).SavedX
        Back := DkIndex d (k + 1)
        TokenPos := (mEntry old new d (k + 1)).SavedY } := by
  have hg' : k = -(d + 1 : Int) ∨ (k ≠ (d + 1 : Int) ∧
      (mEntry old new d (k - 1)).SavedX < (mEntry old new d (k + 1)).SavedX) := hg
  rw [mEntry, if_pos hg']

theorem mEntry_del_eq (old new : List Nat) (d : Nat) (k : Int) (hg : ¬ mIsIns old new d k) :
    mEntry old new (d + 1) k =
      { SavedX := (snakeF old new new.length ((mEntry old new d (k - 1)).SavedX + 1)
          ((mEntry old new d (k - 1)).SavedY)).1
        SavedY := (snakeF old new new.length ((mEntry old new d (k - 1)).SavedX + 1)
          ((mEntry old new d (k - 1)).SavedY)).2
        IsDelete := true
        Index := (mEntry old new d (k - 1)).SavedX + 1
        Back := DkIndex d (k - 1)
        TokenPos := 0 } := by
  have hg' : ¬(k = -(d + 1 : Int) ∨ (k ≠ (d + 1 : Int) ∧
      (mEntry old new d (k - 1)).SavedX < (mEntry old new d (k + 1)).SavedX)) := hg
  rw [mEntry, if_neg hg']

/-- Snake maximality at every table entry: the bytes following `(SavedX, SavedY)`
do not match (or one string is exhausted). -/
theorem mEntry_max (old new : List Nat) (d : Nat) (k : Int) (h : validDK d k) :
    ¬((mEntry old new d k).SavedX < (old.length : Int)
      ∧ (mEntry old new d k).SavedY < (new.length : Int)
      ∧ old.getD (mEntry old new d k).SavedX.toNat 0
          = new.getD (mEntry old new d k).SavedY.toNat 0) := by
  cases d with
  | zero =>
    obtain ⟨s, hs1, _, hs3⟩ := snakeF_spec old new new.length 0 0 (by omega) (by omega)
    rw [mEntry]
    dsimp only
    simp only [hs1]
    have := hs3 (by omega)
    simpa using this
  | succ d =>
    by_cases hg : mIsIns old new d k
    · have hne : k ≠ ((d : Int) + 1) := by
        rcases hg with h1 | h1
        · have hv : -((d : Int) + 1) ≤ k ∧ k ≤ ((d : Int) + 1) ∧ (k + (d + 1 : Nat)) % 2 = 0 := h
          omega
        · exact_mod_cast h1.1
      have htv := validDK_succ_ins d k h hne
      obtain ⟨t1, t2, _, _, _⟩ := mEntry_basic old new d (k + 1) htv
      obtain ⟨s, hs1, _, hs3⟩ := snakeF_spec old new new.length
        ((mEntry old new d (k + 1)).SavedX) ((mEntry old new d (k + 1)).SavedY + 1)
        (by omega) (by omega)
      rw [mEntry_ins_eq old new d k hg]
      dsimp only
      simp only [hs1]
      have := hs3 (by omega)
      simpa using this
    · have hne : k ≠ -((d : Int) + 1) := by
        intro hcon
        exact hg (Or.inl (by exact_mod_cast hcon))
      have hbv := validDK_succ_del d k h hne
      obtain ⟨t1, t2, _, _, _⟩ := mEntry_basic old new d (k - 1) hbv
      obtain ⟨s, hs1, _, hs3⟩ := snakeF_spec old new new.length
        ((mEntry old new d (k - 1)).SavedX + 1) ((mEntry old new d (k - 1)).SavedY)
        (by omega) (by omega)
      rw [mEntry_del_eq old new d k hg]
      dsimp only
      simp only [hs1]
      have := hs3 (by omega)
      simpa using this

/-- In-bound edit paths of the Myers grid: `ReachF d x y` holds when `(x, y)`
is reachable from `(0,0)` with `d` non-diagonal moves, all moves staying
inside the grid and diagonal moves only over matching bytes. -/
inductive ReachF (old new : List Nat) : Nat → Nat → Nat → Prop
  | init : ReachF old new 0 0 0
  | diag {d x y} : ReachF old new d x y → x < old.length → y < new.length →
      old.getD x 0 = new.getD y 0 → ReachF old new d (x + 1) (y + 1)
  | ins {d x y} : ReachF old new d x y → y < new.length → ReachF old new (d + 1) x (y + 1)
  | del {d x y} : ReachF old new d x y → x < old.length → ReachF old new (d + 1) (x + 1) y

/-- Furthest-reaching: the table entry of wave `d`, diagonal `k` dominates
every in-bound `d`-move path endpoint on that diagonal. -/
theorem ReachF_le_mEntry (old new : List Nat) (d : Nat) (x y : Nat)
    (h : ReachF old new d x y) :
    validDK d ((x : Int) - (y : Int))
      ∧ (x : Int) ≤ (mEntry old new d ((x : Int) - (y : Int))).SavedX := by
  induction h with
  | init =>
    have hv : validDK 0 (((0 : Nat) : Int) - ((0 : Nat) : Int)) := ⟨by omega, by omega, by omega⟩
    refine ⟨hv, ?_⟩
    have := (mEntry_basic old new 0 (((0 : Nat) : Int) - ((0 : Nat) : Int)) hv).1
    omega
  | diag hr hx hy hb ih =>
    rename_i d x y
    have hkc : ((x + 1 : Nat) : Int) - ((y + 1 : Nat) : Int) = (x : Int) - (y : Int) := by
      push_cast
      ring
    rw [hkc]
    refine ⟨ih.1, ?_⟩
    obtain ⟨b1, b2, b3, _, _⟩ := mEntry_basic old new d ((x : Int) - (y : Int)) ih.1
    rcases lt_or_eq_of_le ih.2 with hlt | heq
    · push_cast
      omega
    · exfalso
      refine mEntry_max old new d ((x : Int) - (y : Int)) ih.1 ⟨?_, ?_, ?_⟩
      · omega
      · omega
      · have hxe : (mEntry old new d ((x : Int) - (y : Int))).SavedX.toNat = x := by omega
        have hye : (mEntry old new d ((x : Int) - (y : Int))).SavedY.toNat = y := by omega
        rw [hxe, hye]
        exact hb
  | ins hr hy ih =>
    rename_i d x y
    obtain ⟨ihv, ihx⟩ := ih
    have hv : -((d : Int)) ≤ (x : Int) - (y : Int) ∧ (x : Int) - (y : Int) ≤ (d : Int)
        ∧ (((x : Int) - (y : Int)) + d) % 2 = 0 := ihv
    have hkc : ((x : Nat) : Int) - ((y + 1 : Nat) : Int) = ((x : Int) - (y : Int)) - 1 := by
      push_cast
      ring
    rw [hkc]
    have hvnew : validDK (d + 1) (((x : Int) - (y : Int)) - 1) := by
      refine ⟨?_, ?_, ?_⟩ <;> push_cast <;> omega
    refine ⟨hvnew, ?_⟩
    by_cases hg : mIsIns old new d (((x : Int) - (y : Int)) - 1)
    · rw [mEntry_ins_eq old new d _ hg]
      dsimp only
      have hseq : ((x : Int) - (y : Int)) - 1 + 1 = (x : Int) - (y : Int) := by ring
      rw [hseq]
      obtain ⟨b1, b2, _, _, _⟩ := mEntry_basic old new d ((x : Int) - (y : Int)) ihv
      have := (snakeF_ge old new new.length ((mEntry old new d ((x : Int) - (y : Int))).SavedX)
        ((mEntry old new d ((x : Int) - (y : Int))).SavedY + 1) (by omega) (by omega)).1
      omega
    · have hne1 : ((x : Int) - (y : Int)) - 1 ≠ -((d : Int) + 1) := by
        intro hcon
        exact hg (Or.inl (by push_cast; omega))
      have hne2 : ((x : Int) - (y : Int)) - 1 ≠ ((d : Int) + 1) := by omega
      have hbx : (mEntry old new d ((((x : Int) - (y : Int)) - 1) - 1)).SavedX
          ≥ (mEntry old new d ((((x : Int) - (y : Int)) - 1) + 1)).SavedX := by
        by_contra hcon
        exact hg (Or.inr ⟨by push_cast at hne2 ⊢; omega, by omega⟩)
      have hbv : validDK d ((((x : Int) - (y : Int)) - 1) - 1) := by
        refine ⟨?_, ?_, ?_⟩ <;> omega
      rw [mEntry_del_eq old new d _ hg]
      dsimp only
      obtain ⟨b1, b2, _, _, _⟩ := mEntry_basic old new d ((((x : Int) - (y : Int)) - 1) - 1) hbv
      have hsg := (snakeF_ge old new new.length
        ((mEntry old new d ((((x : Int) - (y : Int)) - 1) - 1)).SavedX + 1)
        ((mEntry old new d ((((x : Int) - (y : Int)) - 1) - 1)).SavedY) (by omega) (by omega)).1
      have hseq : (((x : Int) - (y : Int)) - 1) + 1 = (x : Int) - (y : Int) := by ring
      rw [hseq] at hbx
      omega
  | del hr hx ih =>
    rename_i d x y
    obtain ⟨ihv, ihx⟩ := ih
    have hv : -((d : Int)) ≤ (x : Int) - (y : Int) ∧ (x : Int) - (y : Int) ≤ (d : Int)
        ∧ (((x : Int) - (y : Int)) + d) % 2 = 0 := ihv
    have hkc : ((x + 1 : Nat) : Int) - ((y : Nat) : Int) = ((x : Int) - (y : Int)) + 1 := by
      push_cast
      ring
    rw [hkc]
    have hvnew : validDK (d + 1) (((x : Int) - (y : Int)) + 1) := by
      refine ⟨?_, ?_, ?_⟩ <;> push_cast <;> omega
    refine ⟨hvnew, ?_⟩
    by_cases hg : mIsIns old new d (((x : Int) - (y : Int)) + 1)
    · have hne1 : ((x : Int) - (y : Int)) + 1 ≠ -((d : Int) + 1) := by omega
      have hbx : (mEntry old new d ((((x : Int) - (y : Int)) + 1) - 1)).SavedX
          < (mEntry old new d ((((x : Int) - (y : Int)) + 1) + 1)).SavedX := by
        rcases hg with h1 | h1
        · exact absurd (by exact_mod_cast h1) hne1
        · exact h1.2
      rw [mEntry_ins_eq old new d _ hg]
      dsimp only
      have htv : validDK d ((((x : Int) - (y : Int)) + 1) + 1) := by
        have hne2 : ((x : Int) - (y : Int)) + 1 ≠ ((d : Int) + 1) := by
          rcases hg with h1 | h1
          · exact absurd (by exact_mod_cast h1) hne1
          · exact fun hc => h1.1 (by exact_mod_cast hc)
        refine ⟨?_, ?_, ?_⟩ <;> push_cast at hne2 ⊢ <;> omega
      obtain ⟨b1, b2, _, _, _⟩ := mEntry_basic old new d ((((x : Int) - (y : Int)) + 1) + 1) htv
      have hsg := (snakeF_ge old new new.length
        ((mEntry old new d ((((x : Int) - (y : Int)) + 1) + 1)).SavedX)
        ((mEntry old new d ((((x : Int) - (y : Int)) + 1) + 1)).SavedY + 1) (by omega)
        (by omega)).1
      have hseq : (((x : Int) - (y : Int)) + 1) - 1 = (x : Int) - (y : Int) := by ring
      rw [hseq] at hbx
      push_cast
      omega
    · rw [mEntry_del_eq old new d _ hg]
      dsimp only
      have hseq : (((x : Int) - (y : Int)) + 1) - 1 = (x : Int) - (y : Int) := by ring
      rw [hseq]
      obtain ⟨b1, b2, _, _, _⟩ := mEntry_basic old new d ((x : Int) - (y : Int)) ihv
      have hsg := (snakeF_ge old new new.length
        ((mEntry old new d ((x : Int) - (y : Int))).SavedX + 1)
        ((mEntry old new d ((x : Int) - (y : Int))).SavedY) (by omega) (by omega)).1
      push_cast
      omega

theorem ReachF_diag_steps (old new : List Nat) (d x y : Nat) (h : ReachF old new d x y) :
    ∀ s : Nat, (∀ t, t < s → x + t < old.length ∧ y + t < new.length ∧
      old.getD (x + t) 0 = new.getD (y + t) 0) →
    ReachF old new d (x + s) (y + s) := by
  intro s
  induction s with
  | zero => intro _; simpa using h
  | succ s ih =>
    intro hm
    obtain ⟨ha, hb, hc⟩ := hm s (by omega)
    exact ReachF.diag (ih (fun t ht => hm t (by omega))) ha hb hc

theorem ReachF_snakeF (old new : List Nat) (d x y : Nat) (h : ReachF old new d x y) :
    ReachF old new d (snakeF old new new.length (x : Int) (y : Int)).1.toNat
      (snakeF old new new.length (x : Int) (y : Int)).2.toNat := by
  obtain ⟨s, hs1, hs2, _⟩ := snakeF_spec old new new.length (x : Int) (y : Int)
    (by omega) (by omega)
  rw [hs1]
  dsimp only
  rw [show ((x : Int) + (s : Int)).toNat = x + s by omega,
    show ((y : Int) + (s : Int)).toNat = y + s by omega]
  refine ReachF_diag_steps old new d x y h s (fun t ht => ?_)
  obtain ⟨ha, hb, hc⟩ := hs2 t ht
  refine ⟨by omega, by omega, ?_⟩
  rw [show ((x : Int) + (t : Int)).toNat = x + t by omega,
    show ((y : Int) + (t : Int)).toNat = y + t by omega] at hc
  exact hc

theorem ReachF_ext_del (old new : List Nat) (d x y : Nat) (h : ReachF old new d x y) :
    ∀ n : Nat, x + n ≤ old.length → ReachF old new (d + n) (x + n) y := by
  intro n
  induction n with
  | zero => intro _; simpa using h
  | succ n ih =>
    intro hn
    have h2 : x + n < old.length := by omega
    exact ReachF.del (ih (by omega)) h2

theorem ReachF_ext_ins (old new : List Nat) (d x y : Nat) (h : ReachF old new d x y) :
    ∀ n : Nat, y + n ≤ new.length → ReachF old new (d + n) x (y + n) := by
  intro n
  induction n with
  | zero => intro _; simpa using h
  | succ n ih =>
    intro hn
    have h2 : y + n < new.length := by omega
    exact ReachF.ins (ih (by omega)) h2

/-- The ancestor chain of a cell: the cells the back pointers visit, listed
from wave `0` up to the cell itself. -/
def chainCells (old new : List Nat) : Nat → Int → List (Nat × Int)
  | 0, k => [(0, k)]
  | d + 1, k => chainCells old new d (mParentK old new d k) ++ [(d + 1, k)]

/-- A cell whose entry stays inside the `|Old| × |New|` grid. -/
def inB (old new : List Nat) (c : Nat × Int) : Prop :=
  (mEntry old new c.1 c.2).SavedX ≤ (old.length : Int)
    ∧ (mEntry old new c.1 c.2).SavedY ≤ (new.length : Int)

theorem chainCells_self (old new : List Nat) : ∀ (d : Nat) (k : Int),
    (d, k) ∈ chainCells old new d k := by
  intro d
  cases d with
  | zero => intro k; simp [chainCells]
  | succ d => intro k; simp [chainCells]

theorem mParentK_valid (old new : List Nat) (d : Nat) (k : Int) (h : validDK (d + 1) k) :
    validDK d (mParentK old new d k) := by
  have h' : -((d : Int) + 1) ≤ k ∧ k ≤ ((d : Int) + 1) ∧ (k + ((d : Int) + 1)) % 2 = 0 := by
    obtain ⟨a, b, c⟩ := h
    push_cast at a b c
    exact ⟨a, b, c⟩
  unfold mParentK
  split
  · rename_i hg
    refine validDK_succ_ins d k h ?_
    rcases hg with h1 | h1
    · omega
    · exact_mod_cast h1.1
  · rename_i hg
    refine validDK_succ_del d k h ?_
    intro hcon
    exact hg (Or.inl (by exact_mod_cast hcon))

/-- Soundness: the entry of a cell whose whole ancestor chain stays inside
the grid is a genuinely reachable point. -/
theorem chain_sound (old new : List Nat) : ∀ (d : Nat) (k : Int), validDK d k →
    (∀ c ∈ chainCells old new d k, inB old new c) →
    ReachF old new d (mEntry old new d k).SavedX.toNat (mEntry old new d k).SavedY.toNat := by
  intro d
  induction d with
  | zero =>
    intro k hv hG
    have h0 := ReachF_snakeF old new 0 0 0 ReachF.init
    rw [mEntry]
    dsimp only
    simpa using h0
  | succ d ih =>
    intro k hv hG
    have hpv := mParentK_valid old new d k hv
    have hGp : ∀ c ∈ chainCells old new d (mParentK old new d k), inB old new c := by
      intro c hc
      apply hG
      simp only [chainCells, List.mem_append]
      exact Or.inl hc
    have hrec := ih (mParentK old new d k) hpv hGp
    have hself : inB old new (d + 1, k) := hG _ (chainCells_self old new (d + 1) k)
    have hself' : (mEntry old new (d + 1) k).SavedX ≤ (old.length : Int)
        ∧ (mEntry old new (d + 1) k).SavedY ≤ (new.length : Int) := hself
    by_cases hg : mIsIns old new d k
    · have hpk : mParentK old new d k = k + 1 := by unfold mParentK; rw [if_pos hg]
      rw [hpk] at hrec hpv
      obtain ⟨b1, b2, _, _, _⟩ := mEntry_basic old new d (k + 1) hpv
      have hEy : (mEntry old new (d + 1) k).SavedY
          = (snakeF old new new.length ((mEntry old new d (k + 1)).SavedX)
              ((mEntry old new d (k + 1)).SavedY + 1)).2 := by
        rw [mEntry_ins_eq old new d k hg]
      have hsg := (snakeF_ge old new new.length ((mEntry old new d (k + 1)).SavedX)
        ((mEntry old new d (k + 1)).SavedY + 1) (by omega) (by omega)).2
      have hyB : (mEntry old new d (k + 1)).SavedY + 1 ≤ (new.length : Int) := by
        have h2 := hself'.2
        rw [hEy] at h2
        omega
      have hstep := ReachF.ins hrec
        (show (mEntry old new d (k + 1)).SavedY.toNat < new.length by omega)
      have hsnk := ReachF_snakeF old new (d + 1) _ _ hstep
      rw [show (((mEntry old new d (k + 1)).SavedX.toNat : Nat) : Int)
            = (mEntry old new d (k + 1)).SavedX by omega,
        show (((mEntry old new d (k + 1)).SavedY.toNat + 1 : Nat) : Int)
            = (mEntry old new d (k + 1)).SavedY + 1 by push_cast; omega] at hsnk
      rw [mEntry_ins_eq old new d k hg]
      dsimp only
      exact hsnk
    · have hpk : mParentK old new d k = k - 1 := by unfold mParentK; rw [if_neg hg]
      rw [hpk] at hrec hpv
      obtain ⟨b1, b2, _, _, _⟩ := mEntry_basic old new d (k - 1) hpv
      have hEx : (mEntry old new (d + 1) k).SavedX
          = (snakeF old new new.length ((mEntry old new d (k - 1)).SavedX + 1)
              ((mEntry old new d (k - 1)).SavedY)).1 := by
        rw [mEntry_del_eq old new d k hg]
      have hsg := (snakeF_ge old new new.length ((mEntry old new d (k - 1)).SavedX + 1)
        ((mEntry old new d (k - 1)).SavedY) (by omega) (by omega)).1
      have hxA : (mEntry old new d (k - 1)).SavedX + 1 ≤ (old.length : Int) := by
        have h2 := hself'.1
        rw [hEx] at h2
        omega
      have hstep := ReachF.del hrec
        (show (mEntry old new d (k - 1)).SavedX.toNat < old.length by omega)
      have hsnk := ReachF_snakeF old new (d + 1) _ _ hstep
      rw [show (((mEntry old new d (k - 1)).SavedX.toNat + 1 : Nat) : Int)
            = (mEntry old new d (k - 1)).SavedX + 1 by push_cast; omega,
        show (((mEntry old new d (k - 1)).SavedY.toNat : Nat) : Int)
            = (mEntry old new d (k - 1)).SavedY by omega] at hsnk
      rw [mEntry_del_eq old new d k hg]
      dsimp only
      exact hsnk

/-- Trimming: if some cell of the ancestor chain leaves the grid, a goal
cell exists within a strictly smaller wave budget. -/
theorem chain_phantom (old new : List Nat) : ∀ (d : Nat) (k : Int), validDK d k →
    ¬(∀ c ∈ chainCells old new d k, inB old new c) →
    ∃ w : Nat, validDK w ((old.length : Int) - (new.length : Int))
      ∧ goalDK old new w ((old.length : Int) - (new.length : Int))
      ∧ (((new.length : Int) < (mEntry old new d k).SavedY
            ∧ (w : Int) + 1 ≤ (d : Int) + ((old.length : Int) - (mEntry old new d k).SavedX))
        ∨ ((old.length : Int) < (mEntry old new d k).SavedX
            ∧ (w : Int) + 1 ≤ (d : Int) + ((new.length : Int) - (mEntry old new d k).SavedY))) := by
  intro d
  induction d with
  | zero =>
    intro k hv hbad
    exfalso
    apply hbad
    intro c hc
    simp only [chainCells, List.mem_singleton] at hc
    subst hc
    have hin := snakeF_inbounds old new new.length 0 0 (by omega) (by omega)
    unfold inB
    dsimp only
    rw [mEntry]
    dsimp only
    exact hin
  | succ d ih =>
    intro k hv hbad
    have hpv := mParentK_valid old new d k hv
    by_cases hGp : ∀ c ∈ chainCells old new d (mParentK old new d k), inB old new c
    · have htopbad : ¬ ((mEntry old new (d + 1) k).SavedX ≤ (old.length : Int)
          ∧ (mEntry old new (d + 1) k).SavedY ≤ (new.length : Int)) := by
        intro hin
        apply hbad
        intro c hc
        simp only [chainCells, List.mem_append, List.mem_singleton] at hc
        rcases hc with hc | hc
        · exact hGp c hc
        · subst hc
          exact hin
      have hpin' : (mEntry old new d (mParentK old new d k)).SavedX ≤ (old.length : Int)
          ∧ (mEntry old new d (mParentK old new d k)).SavedY ≤ (new.length : Int) :=
        hGp _ (chainCells_self old new d (mParentK old new d k))
      have hrec := chain_sound old new d (mParentK old new d k) hpv hGp
      by_cases hg : mIsIns old new d k
      · have hpk : mParentK old new d k = k + 1 := by unfold mParentK; rw [if_pos hg]
        rw [hpk] at hrec hpv hpin'
        obtain ⟨b1, b2, b3, _, _⟩ := mEntry_basic old new d (k + 1) hpv
        by_cases hYfull : (mEntry old new d (k + 1)).SavedY + 1 ≤ (new.length : Int)
        · exfalso
          apply htopbad
          have hin := snakeF_inbounds old new new.length ((mEntry old new d (k + 1)).SavedX)
            ((mEntry old new d (k + 1)).SavedY + 1) hpin'.1 hYfull
          rw [mEntry_ins_eq old new d k hg]
          dsimp only
          exact hin
        · have hstuck : snakeF old new new.length ((mEntry old new d (k + 1)).SavedX)
              ((mEntry old new d (k + 1)).SavedY + 1)
              = ((mEntry old new d (k + 1)).SavedX, (mEntry old new d (k + 1)).SavedY + 1) :=
            snakeF_stuck old new new.length _ _ (by intro hc; exact absurd hc.2.1 (by omega))
          have hpyN : (mEntry old new d (k + 1)).SavedY.toNat = new.length := by omega
          have hreach2 := ReachF_ext_del old new d _ _ hrec
            (old.length - (mEntry old new d (k + 1)).SavedX.toNat) (by omega)
          rw [show (mEntry old new d (k + 1)).SavedX.toNat
              + (old.length - (mEntry old new d (k + 1)).SavedX.toNat) = old.length by omega,
            hpyN] at hreach2
          obtain ⟨hwv, hwx⟩ := ReachF_le_mEntry old new _ _ _ hreach2
          refine ⟨d + (old.length - (mEntry old new d (k + 1)).SavedX.toNat), hwv, ?_, ?_⟩
          · obtain ⟨c1, c2, c3, _, _⟩ := mEntry_basic old new _ _ hwv
            exact ⟨by omega, by omega⟩
          · left
            rw [mEntry_ins_eq old new d k hg]
            dsimp only
            rw [hstuck]
            dsimp only
            refine ⟨by omega, ?_⟩
            push_cast
            omega
      · have hpk : mParentK old new d k = k - 1 := by unfold mParentK; rw [if_neg hg]
        rw [hpk] at hrec hpv hpin'
        obtain ⟨b1, b2, b3, _, _⟩ := mEntry_basic old new d (k - 1) hpv
        by_cases hXfull : (mEntry old new d (k - 1)).SavedX + 1 ≤ (old.length : Int)
        · exfalso
          apply htopbad
          have hin := snakeF_inbounds old new new.length ((mEntry old new d (k - 1)).SavedX + 1)
            ((mEntry old new d (k - 1)).SavedY) hXfull hpin'.2
          rw [mEntry_del_eq old new d k hg]
          dsimp only
          exact hin
        · have hstuck : snakeF old new new.length ((mEntry old new d (k - 1)).SavedX + 1)
              ((mEntry old new d (k - 1)).SavedY)
              = ((mEntry old new d (k - 1)).SavedX + 1, (mEntry old new d (k - 1)).SavedY) :=
            snakeF_stuck old new new.length _ _ (by intro hc; exact absurd hc.1 (by omega))
          have hpxN : (mEntry old new d (k - 1)).SavedX.toNat = old.length := by omega
          have hreach2 := ReachF_ext_ins old new d _ _ hrec
            (new.length - (mEntry old new d (k - 1)).SavedY.toNat) (by omega)
          rw [show (mEntry old new d (k - 1)).SavedY.toNat
              + (new.length - (mEntry old new d (k - 1)).SavedY.toNat) = new.length by omega,
            hpxN] at hreach2
          obtain ⟨hwv, hwx⟩ := ReachF_le_mEntry old new _ _ _ hreach2
          refine ⟨d + (new.length - (mEntry old new d (k - 1)).SavedY.toNat), hwv, ?_, ?_⟩
          · obtain ⟨c1, c2, c3, _, _⟩ := mEntry_basic old new _ _ hwv
            exact ⟨by omega, by omega⟩
          · right
            rw [mEntry_del_eq old new d k hg]
            dsimp only
            rw [hstuck]
            dsimp only
            refine ⟨by omega, ?_⟩
            push_cast
            omega
    · obtain ⟨w, hwv, hwg, hcase⟩ := ih (mParentK old new d k) hpv hGp
      refine ⟨w, hwv, hwg, ?_⟩
      by_cases hg : mIsIns old new d k
      · have hpk : mParentK old new d k = k + 1 := by unfold mParentK; rw [if_pos hg]
        rw [hpk] at hcase
        rcases hcase with ⟨hY, hle⟩ | ⟨hX, hle⟩
        · have hstuck : snakeF old new new.length ((mEntry old new d (k + 1)).SavedX)
              ((mEntry old new d (k + 1)).SavedY + 1)
              = ((mEntry old new d (k + 1)).SavedX, (mEntry old new d (k + 1)).SavedY + 1) :=
            snakeF_stuck old new new.length _ _ (by intro hc; exact absurd hc.2.1 (by omega))
          left
          rw [mEntry_ins_eq old new d k hg]
          dsimp only
          rw [hstuck]
          dsimp only
          refine ⟨by omega, ?_⟩
          push_cast at hle ⊢
          omega
        · have hstuck : snakeF old new new.length ((mEntry old new d (k + 1)).SavedX)
              ((mEntry old new d (k + 1)).SavedY + 1)
              = ((mEntry old new d (k + 1)).SavedX, (mEntry old new d (k + 1)).SavedY + 1) :=
            snakeF_stuck old new new.length _ _ (by intro hc; exact absurd hc.1 (by omega))
          right
          rw [mEntry_ins_eq old new d k hg]
          dsimp only
          rw [hstuck]
          dsimp only
          refine ⟨by omega, ?_⟩
          push_cast at hle ⊢
          omega
      · have hpk : mParentK old new d k = k - 1 := by unfold mParentK; rw [if_neg hg]
        rw [hpk] at hcase
        rcases hcase with ⟨hY, hle⟩ | ⟨hX, hle⟩
        · have hstuck : snakeF old new new.length ((mEntry old new d (k - 1)).SavedX + 1)
              ((mEntry old new d (k - 1)).SavedY)
              = ((mEntry old new d (k - 1)).SavedX + 1, (mEntry old new d (k - 1)).SavedY) :=
            snakeF_stuck old new new.length _ _ (by intro hc; exact absurd hc.2.1 (by omega))
          left
          rw [mEntry_del_eq old new d k hg]
          dsimp only
          rw [hstuck]
          dsimp only
          refine ⟨by omega, ?_⟩
          push_cast at hle ⊢
          omega
        · have hstuck : snakeF old new new.length ((mEntry old new d (k - 1)).SavedX + 1)
              ((mEntry old new d (k - 1)).SavedY)
              = ((mEntry old new d (k - 1)).SavedX + 1, (mEntry old new d (k - 1)).SavedY) :=
            snakeF_stuck old new new.length _ _ (by intro hc; exact absurd hc.1 (by omega))
          right
          rw [mEntry_del_eq old new d k hg]
          dsimp only
          rw [hstuck]
          dsimp only
          refine ⟨by omega, ?_⟩
          push_cast at hle ⊢
          omega

/-- The chain of the first goal cell never leaves the grid. -/
theorem chain_good (old new : List Nat) (D : Nat) (K : Int) (hv : validDK D K)
    (hg : goalDK old new D K)
    (hmin : ∀ d k, validDK d k → d < D → ¬ goalDK old new d k) :
    ∀ c ∈ chainCells old new D K, inB old new c := by
  by_contra hbad
  obtain ⟨w, hwv, hwg, hcase⟩ := chain_phantom old new D K hv hbad
  have hg' : (old.length : Int) ≤ (mEntry old new D K).SavedX
      ∧ (new.length : Int) ≤ (mEntry old new D K).SavedY := hg
  rcases hcase with ⟨hY, hle⟩ | ⟨hX, hle⟩
  · exact hmin w _ hwv (by omega) hwg
  · exact hmin w _ hwv (by omega) hwg

/-- The first goal cell lands exactly on `(|Old|, |New|)`. -/
theorem chain_exact (old new : List Nat) (D : Nat) (K : Int) (hv : validDK D K)
    (hg : goalDK old new D K)
    (hmin : ∀ d k, validDK d k → d < D → ¬ goalDK old new d k) :
    (mEntry old new D K).SavedX = (old.length : Int)
      ∧ (mEntry old new D K).SavedY = (new.length : Int) := by
  have hGood := chain_good old new D K hv hg hmin
  have hself : (mEntry old new D K).SavedX ≤ (old.length : Int)
      ∧ (mEntry old new D K).SavedY ≤ (new.length : Int) :=
    hGood _ (chainCells_self old new D K)
  have hg' : (old.length : Int) ≤ (mEntry old new D K).SavedX
      ∧ (new.length : Int) ≤ (mEntry old new D K).SavedY := hg
  omega

/-! ### Reversing the back pointers -/

theorem chainCells_length (old new : List Nat) : ∀ (d : Nat) (k : Int),
    (chainCells old new d k).length = d + 1 := by
  intro d
  induction d with
  | zero => intro k; simp [chainCells]
  | succ d ih => intro k; simp [chainCells, ih]

theorem chainCells_facts (old new : List Nat) : ∀ (d : Nat) (k : Int), validDK d k →
    ∀ c ∈ chainCells old new d k, validDK c.1 c.2 ∧ c.1 ≤ d := by
  intro d
  induction d with
  | zero =>
    intro k hv c hc
    simp only [chainCells, List.mem_singleton] at hc
    subst hc
    exact ⟨hv, le_refl 0⟩
  | succ d ih =>
    intro k hv c hc
    simp only [chainCells, List.mem_append, List.mem_singleton] at hc
    rcases hc with hc | hc
    · obtain ⟨h1, h2⟩ := ih (mParentK old new d k) (mParentK_valid old new d k hv) c hc
      exact ⟨h1, by omega⟩
    · subst hc
      exact ⟨hv, le_refl _⟩

theorem mEntry_back (old new : List Nat) (d : Nat) (k : Int) :
    (mEntry old new (d + 1) k).Back = DkIndex (d : Int) (mParentK old new d k) := by
  by_cases hg : mIsIns old new d k
  · rw [mEntry_ins_eq old new d k hg]
    unfold mParentK
    rw [if_pos hg]
  · rw [mEntry_del_eq old new d k hg]
    unfold mParentK
    rw [if_neg hg]

theorem DkIndex_pos (d : Nat) (k : Int) (h : validDK (d + 1) k) :
    0 < DkIndex ((d + 1 : Nat) : Int) k := by
  have h' : -((d : Int) + 1) ≤ k ∧ k ≤ ((d : Int) + 1) ∧ (k + ((d : Int) + 1)) % 2 = 0 := by
    obtain ⟨a, b, c⟩ := h
    push_cast at a b c
    exact ⟨a, b, c⟩
  have h2 := DkIndex_two_mul (d + 1) k (by obtain ⟨_, _, c⟩ := h; exact c)
  push_cast at h2 ⊢
  nlinarith [h'.1, h'.2.1, sq_nonneg ((d : Int) + 1)]

/-- The data of a table cell consumed by the emission walk. -/
def cellData (old new : List Nat) (d : Nat) (k : Int) : Bool × Int × Int :=
  ((mEntry old new d k).IsDelete, (mEntry old new d k).Index, (mEntry old new d k).TokenPos)

/-- The walk data of the chain: cells of waves `1 … d`, in walk order. -/
def chainData (old new : List Nat) (d : Nat) (k : Int) : List (Bool × Int × Int) :=
  ((chainCells old new d k).drop 1).map (fun c => cellData old new c.1 c.2)

theorem chainData_succ (old new : List Nat) (d : Nat) (k : Int) :
    chainData old new (d + 1) k
      = chainData old new d (mParentK old new d k) ++ [cellData old new (d + 1) k] := by
  unfold chainData
  have hlen : 1 ≤ (chainCells old new d (mParentK old new d k)).length := by
    rw [chainCells_length]
    omega
  show (((chainCells old new d (mParentK old new d k)) ++ [(d + 1, k)]).drop 1).map _ = _
  rw [List.drop_append_of_le_length hlen, List.map_append]
  rfl

/-- `V`-resident forward chain: starting at `cv`, the slots hold the given
walk data, linked by `Back`, ending at `-1`. -/
def ChainedD (V : Int → WSEntry) : Int → List (Bool × Int × Int) → Prop
  | cv, [] => cv = -1
  | cv, c :: rest => cv ≠ -1 ∧ (V cv).IsDelete = c.1 ∧ (V cv).Index = c.2.1
      ∧ (V cv).TokenPos = c.2.2 ∧ ChainedD V ((V cv).Back) rest

theorem reverseBackF_zero (fuel : Nat) (V : Int → WSEntry) (k : Int) :
    reverseBackF fuel V 0 k = (vset V 0 { V 0 with Back := k }, true) := by
  rw [reverseBackF.eq_def]
  dsimp only
  rw [if_pos rfl]

theorem reverseBackF_step (fuel : Nat) (V : Int → WSEntry) (i k : Int) (h : i ≠ 0) :
    reverseBackF (fuel + 1) V i k
      = reverseBackF fuel (vset V i { V i with Back := k }) ((V i).Back) i := by
  rw [reverseBackF.eq_def]
  dsimp only
  rw [if_neg h]

/-- The reversal loop (src/diflib.c:249-256): on an arena holding the
recurrence values of the chain of `(d,k)`, it terminates within `d ≤ fuel`
steps, touches only the chain slots, and leaves a forward-linked walk chain
starting at `V2[0].Back`, continuing into whatever `j` pointed at. -/
theorem reverseBackF_spec (old new : List Nat) : ∀ (d : Nat) (k : Int) (V : Int → WSEntry)
    (j : Int) (fuel : Nat) (rs : List (Bool × Int × Int)),
    validDK d k →
    (∀ c ∈ chainCells old new d k, V (DkIndex (c.1 : Int) c.2) = mEntry old new c.1 c.2) →
    (∀ W : Int → WSEntry,
      (∀ i : Int, (∀ c ∈ chainCells old new d k, i ≠ DkIndex (c.1 : Int) c.2) → W i = V i) →
      ChainedD W j rs) →
    d ≤ fuel →
    ∃ V2, reverseBackF fuel V (DkIndex (d : Int) k) j = (V2, true)
      ∧ (∀ i : Int, (∀ c ∈ chainCells old new d k, i ≠ DkIndex (c.1 : Int) c.2) → V2 i = V i)
      ∧ ChainedD V2 ((V2 0).Back) (chainData old new d k ++ rs) := by
  intro d
  induction d with
  | zero =>
    intro k V j fuel rs hv hV hcont hfuel
    have hk0 : k = 0 := validDK_zero k hv
    subst hk0
    have hidx : DkIndex ((0 : Nat) : Int) 0 = 0 := by norm_num [DkIndex]
    rw [hidx, reverseBackF_zero]
    have hframe : ∀ i : Int,
        (∀ c ∈ chainCells old new 0 0, i ≠ DkIndex (c.1 : Int) c.2) →
        (vset V 0 { V 0 with Back := j }) i = V i := by
      intro i hi
      have hne : i ≠ 0 := by
        have h0 := hi (0, 0) (chainCells_self old new 0 0)
        rw [hidx] at h0
        exact h0
      simp only [vset]
      rw [if_neg hne]
    refine ⟨_, rfl, hframe, ?_⟩
    have hb : ((vset V 0 { V 0 with Back := j }) 0).Back = j := by
      simp [vset]
    rw [hb]
    have hcd : chainData old new 0 0 = [] := by
      unfold chainData chainCells
      rfl
    rw [hcd, List.nil_append]
    exact hcont _ hframe
  | succ d ih =>
    intro k V j fuel rs hv hV hcont hfuel
    obtain ⟨fuel', rfl⟩ : ∃ f, fuel = f + 1 := ⟨fuel - 1, by omega⟩
    have hpos := DkIndex_pos d k hv
    have hne0 : DkIndex ((d + 1 : Nat) : Int) k ≠ 0 := by omega
    have hVself := hV (d + 1, k) (chainCells_self old new (d + 1) k)
    have hfresh : ∀ c ∈ chainCells old new d (mParentK old new d k),
        DkIndex ((d + 1 : Nat) : Int) k ≠ DkIndex (c.1 : Int) c.2 := by
      intro c hc he
      obtain ⟨hcv, hcle⟩ := chainCells_facts old new d (mParentK old new d k)
        (mParentK_valid old new d k hv) c hc
      obtain ⟨he1, he2⟩ := DkIndex_inj (d + 1) c.1 k c.2 hv hcv he
      omega
    rw [reverseBackF_step fuel' V _ j hne0]
    have hback : (V (DkIndex ((d + 1 : Nat) : Int) k)).Back
        = DkIndex (d : Int) (mParentK old new d k) := by
      rw [hVself, mEntry_back]
    rw [hback]
    have hVinner : ∀ c ∈ chainCells old new d (mParentK old new d k),
        (vset V (DkIndex ((d + 1 : Nat) : Int) k)
          { V (DkIndex ((d + 1 : Nat) : Int) k) with Back := j })
          (DkIndex (c.1 : Int) c.2) = mEntry old new c.1 c.2 := by
      intro c hc
      have hne := hfresh c hc
      simp only [vset]
      rw [if_neg (fun he => hne he.symm)]
      refine hV c ?_
      simp only [chainCells, List.mem_append]
      exact Or.inl hc
    have hcont2 : ∀ W : Int → WSEntry,
        (∀ i : Int, (∀ c ∈ chainCells old new d (mParentK old new d k),
          i ≠ DkIndex (c.1 : Int) c.2) →
          W i = (vset V (DkIndex ((d + 1 : Nat) : Int) k)
            { V (DkIndex ((d + 1 : Nat) : Int) k) with Back := j }) i) →
        ChainedD W (DkIndex ((d + 1 : Nat) : Int) k) (cellData old new (d + 1) k :: rs) := by
      intro W hW
      have hWidx : W (DkIndex ((d + 1 : Nat) : Int) k)
          = { V (DkIndex ((d + 1 : Nat) : Int) k) with Back := j } := by
        rw [hW _ (fun c hc => hfresh c hc)]
        simp [vset]
      show ChainedD W (DkIndex ((d + 1 : Nat) : Int) k) (cellData old new (d + 1) k :: rs)
      refine ⟨by omega, ?_, ?_, ?_, ?_⟩
      · rw [hWidx, hVself]
        rfl
      · rw [hWidx, hVself]
        rfl
      · rw [hWidx, hVself]
        rfl
      · have hbj : (W (DkIndex ((d + 1 : Nat) : Int) k)).Back = j := by
          rw [hWidx]
        rw [hbj]
        refine hcont W ?_
        intro i hi
        have hitop : i ≠ DkIndex ((d + 1 : Nat) : Int) k :=
          hi (d + 1, k) (chainCells_self old new (d + 1) k)
        have hiinner : ∀ c ∈ chainCells old new d (mParentK old new d k),
            i ≠ DkIndex (c.1 : Int) c.2 := by
          intro c hc
          refine hi c ?_
          simp only [chainCells, List.mem_append]
          exact Or.inl hc
        rw [hW i hiinner]
        simp only [vset]
        rw [if_neg hitop]
    obtain ⟨V2, heq, hframe, hchain⟩ := ih (mParentK old new d k) _ _ fuel'
      (cellData old new (d + 1) k :: rs) (mParentK_valid old new d k hv)
      hVinner hcont2 (by omega)
    refine ⟨V2, heq, ?_, ?_⟩
    · intro i hi
      have hitop : i ≠ DkIndex ((d + 1 : Nat) : Int) k :=
        hi (d + 1, k) (chainCells_self old new (d + 1) k)
      have hiinner : ∀ c ∈ chainCells old new d (mParentK old new d k),
          i ≠ DkIndex (c.1 : Int) c.2 := by
        intro c hc
        refine hi c ?_
        simp only [chainCells, List.mem_append]
        exact Or.inl hc
      rw [hframe i hiinner]
      simp only [vset]
      rw [if_neg hitop]
    · rw [chainData_succ, List.append_assoc]
      exact hchain

/-! ### The emission walk over the extracted chain data -/

/-- Pure mirror of `constructLoopF`: the arena and `CurrentVIndex` are
replaced by the walk data list of the remaining chain. -/
def walkF (cap : Nat) (new : List Nat) :
    Nat → Int → List (Bool × Int × Int) → Nat → Nat → Int → List Nat →
    ((Int × List Nat) ⊕ (Nat × Nat × Int × List Nat))
  | fuel, i, cs, lastOp, opCount, tokPos, buf =>
    match cs with
    | [] => Sum.inr (lastOp, opCount, tokPos, buf)
    | c :: rest =>
      match fuel with
      | 0 => Sum.inl (-3, buf)
      | fuel + 1 =>
        if c.1 = true then
          if i < c.2.1 then
            if i ≠ 0 then
              if lastOp = KeepOpcode then
                walkF cap new fuel (i + 1) (c :: rest) KeepOpcode (opCount + 1) tokPos buf
              else
                match flushStep cap new lastOp opCount tokPos buf with
                | Sum.inl e => Sum.inl e
                | Sum.inr buf2 =>
                  walkF cap new fuel (i + 1) (c :: rest) KeepOpcode 1 tokPos buf2
            else walkF cap new fuel (i + 1) (c :: rest) lastOp opCount tokPos buf
          else
            if lastOp = DeleteOpcode then
              walkF cap new fuel (i + 1) rest DeleteOpcode (opCount + 1) tokPos buf
            else
              match flushStep cap new lastOp opCount tokPos buf with
              | Sum.inl e => Sum.inl e
              | Sum.inr buf2 =>
                walkF cap new fuel (i + 1) rest DeleteOpcode 1 tokPos buf2
        else
          if i ≤ c.2.1 then
            if i ≠ 0 then
              if lastOp = KeepOpcode then
                walkF cap new fuel (i + 1) (c :: rest) KeepOpcode (opCount + 1) tokPos buf
              else
                match flushStep cap new lastOp opCount tokPos buf with
                | Sum.inl e => Sum.inl e
                | Sum.inr buf2 =>
                  walkF cap new fuel (i + 1) (c :: rest) KeepOpcode 1 tokPos buf2
            else walkF cap new fuel (i + 1) (c :: rest) lastOp opCount tokPos buf
          else
            if lastOp = InsertOpcode then
              walkF cap new fuel i rest InsertOpcode (opCount + 1) tokPos buf
            else
              match flushStep cap new lastOp opCount tokPos buf with
              | Sum.inl e => Sum.inl e
              | Sum.inr buf2 => walkF cap new fuel i rest InsertOpcode 1 c.2.2 buf2

/-- The emission walk only looks at the arena through the chain: on a
chained arena it equals the pure walk over the chain data. -/
theorem constructLoop_sim (cap : Nat) (new : List Nat) (V : Int → WSEntry) :
    ∀ (fuel : Nat) (cs : List (Bool × Int × Int)) (cv i : Int) (lastOp opCount : Nat)
      (tokPos : Int) (buf : List Nat),
    ChainedD V cv cs →
    constructLoopF cap V new fuel i cv lastOp opCount tokPos buf
      = walkF cap new fuel i cs lastOp opCount tokPos buf := by
  intro fuel
  induction fuel with
  | zero =>
    intro cs cv i lastOp opCount tokPos buf hch
    cases cs with
    | nil =>
      have hcv : cv = -1 := hch
      rw [constructLoopF.eq_def, walkF.eq_def]
      dsimp only
      rw [if_pos hcv]
    | cons c rest =>
      obtain ⟨hcv, _, _, _, _⟩ := hch
      rw [constructLoopF.eq_def, walkF.eq_def]
      dsimp only
      rw [if_neg hcv]
  | succ fuel ih =>
    intro cs cv i lastOp opCount tokPos buf hch
    cases cs with
    | nil =>
      have hcv : cv = -1 := hch
      rw [constructLoopF.eq_def, walkF.eq_def]
      dsimp only
      rw [if_pos hcv]
    | cons c rest =>
      obtain ⟨hcv, hdel, hidx, htok, hch2⟩ := hch
      rw [constructLoopF.eq_def, walkF.eq_def]
      dsimp only
      rw [if_neg hcv, hdel, hidx, htok]
      by_cases hb : c.1 = true
      · rw [if_pos hb, if_pos hb]
        by_cases hlt : i < c.2.1
        · rw [if_pos hlt, if_pos hlt]
          by_cases hi0 : i ≠ 0
          · rw [if_pos hi0, if_pos hi0]
            by_cases hk : lastOp = KeepOpcode
            · rw [if_pos hk, if_pos hk]
              exact ih (c :: rest) cv (i + 1) KeepOpcode (opCount + 1) tokPos buf
                ⟨hcv, hdel, hidx, htok, hch2⟩
            · rw [if_neg hk, if_neg hk]
              cases hfs : flushStep cap new lastOp opCount tokPos buf with
              | inl e => rfl
              | inr buf2 =>
                exact ih (c :: rest) cv (i + 1) KeepOpcode 1 tokPos buf2
                  ⟨hcv, hdel, hidx, htok, hch2⟩
          · rw [if_neg hi0, if_neg hi0]
            exact ih (c :: rest) cv (i + 1) lastOp opCount tokPos buf
              ⟨hcv, hdel, hidx, htok, hch2⟩
        · rw [if_neg hlt, if_neg hlt]
          by_cases hk : lastOp = DeleteOpcode
          · rw [if_pos hk, if_pos hk]
            exact ih rest ((V cv).Back) (i + 1) DeleteOpcode (opCount + 1) tokPos buf hch2
          · rw [if_neg hk, if_neg hk]
            cases hfs : flushStep cap new lastOp opCount tokPos buf with
            | inl e => rfl
            | inr buf2 =>
              exact ih rest ((V cv).Back) (i + 1) DeleteOpcode 1 tokPos buf2 hch2
      · rw [if_neg hb, if_neg hb]
        by_cases hle : i ≤ c.2.1
        · rw [if_pos hle, if_pos hle]
          by_cases hi0 : i ≠ 0
          · rw [if_pos hi0, if_pos hi0]
            by_cases hk : lastOp = KeepOpcode
            · rw [if_pos hk, if_pos hk]
              exact ih (c :: rest) cv (i + 1) KeepOpcode (opCount + 1) tokPos buf
                ⟨hcv, hdel, hidx, htok, hch2⟩
            · rw [if_neg hk, if_neg hk]
              cases hfs : flushStep cap new lastOp opCount tokPos buf with
              | inl e => rfl
              | inr buf2 =>
                exact ih (c :: rest) cv (i + 1) KeepOpcode 1 tokPos buf2
                  ⟨hcv, hdel, hidx, htok, hch2⟩
          · rw [if_neg hi0, if_neg hi0]
            exact ih (c :: rest) cv (i + 1) lastOp opCount tokPos buf
              ⟨hcv, hdel, hidx, htok, hch2⟩
        · rw [if_neg hle, if_neg hle]
          by_cases hk : lastOp = InsertOpcode
          · rw [if_pos hk, if_pos hk]
            exact ih rest ((V cv).Back) i InsertOpcode (opCount + 1) tokPos buf hch2
          · rw [if_neg hk, if_neg hk]
            cases hfs : flushStep cap new lastOp opCount tokPos buf with
            | inl e => rfl
            | inr buf2 =>
              exact ih rest ((V cv).Back) i InsertOpcode 1 (c.2.2) buf2 hch2

/-! ### Runs: the grouped operations the walk hands to the encoder -/

/-- Emit a list of runs through `AddEditScript`, stopping at the first
error, as the walk's flushes do. -/
def emitRuns (cap : Nat) (new : List Nat) : List (Nat × Nat × Int) → List Nat → Int × List Nat
  | [], buf => ((buf.length : Int), buf)
  | (op, n, tok) :: rs, buf =>
    if (AddEditScript cap buf op n (tokenSrc new tok)).1 < 0 then
      AddEditScript cap buf op n (tokenSrc new tok)
    else emitRuns cap new rs (AddEditScript cap buf op n (tokenSrc new tok)).2

/-- The return-value packaging after the walk: early error, or final flush
and the script length (src/diflib.c:353-358). -/
def walkOut (cap : Nat) (new : List Nat)
    (r : (Int × List Nat) ⊕ (Nat × Nat × Int × List Nat)) : Int × List Nat :=
  match r with
  | Sum.inl e => e
  | Sum.inr (lastOp, opCount, tokPos, buf) =>
    match flushStep cap new lastOp opCount tokPos buf with
    | Sum.inl e => e
    | Sum.inr buf2 => ((buf2.length : Int), buf2)

/-- Semantic well-formedness of a run list against cursors `(oc, nc)` into
`old`/`new`: keeps copy matching regions, inserts take the bytes of `new` at
the current position, and at the end the unconsumed tails agree (the tail
rule of `ApplyEditScript` finishes the job). -/
def RunsOKFrom (old new : List Nat) : List (Nat × Nat × Int) → Nat → Nat → Prop
  | [], oc, nc => oc ≤ old.length ∧ nc ≤ new.length ∧ old.drop oc = new.drop nc
  | (op, n, tok) :: rest, oc, nc =>
    (op = KeepOpcode ∧ 1 ≤ n ∧ oc + n ≤ old.length ∧ nc + n ≤ new.length
        ∧ (∀ t, t < n → old.getD (oc + t) 0 = new.getD (nc + t) 0)
        ∧ RunsOKFrom old new rest (oc + n) (nc + n))
    ∨ (op = DeleteOpcode ∧ 1 ≤ n ∧ oc + n ≤ old.length
        ∧ RunsOKFrom old new rest (oc + n) nc)
    ∨ (op = InsertOpcode ∧ 1 ≤ n ∧ nc + n ≤ new.length ∧ tok = (nc : Int)
        ∧ RunsOKFrom old new rest oc (nc + n))

/-- Number of non-diagonal moves a run list accounts for. -/
def movesOf : List (Nat × Nat × Int) → Nat
  | [] => 0
  | (op, n, _) :: rest => (if op = DeleteOpcode ∨ op = InsertOpcode then n else 0) + movesOf rest

/-- The deferred run held in `(LastOpcode, OpcodeCount, Token)`, related to
the cursors `(poc, pnc)` at its start and `(ocur, ncur)` now. -/
def PendOK (old new : List Nat) (lastOp opCount : Nat) (tokPos : Int)
    (poc pnc ocur ncur : Nat) : Prop :=
  (lastOp = NoopOpcode ∧ opCount = 0 ∧ poc = ocur ∧ pnc = ncur)
  ∨ (lastOp = KeepOpcode ∧ 1 ≤ opCount ∧ poc + opCount = ocur ∧ pnc + opCount = ncur
      ∧ ocur ≤ old.length ∧ ncur ≤ new.length
      ∧ (∀ t, t < opCount → old.getD (poc + t) 0 = new.getD (pnc + t) 0))
  ∨ (lastOp = DeleteOpcode ∧ 1 ≤ opCount ∧ poc + opCount = ocur ∧ pnc = ncur
      ∧ ocur ≤ old.length)
  ∨ (lastOp = InsertOpcode ∧ 1 ≤ opCount ∧ poc = ocur ∧ pnc + opCount = ncur
      ∧ tokPos = (pnc : Int) ∧ ncur ≤ new.length)

/-- The geometry the remaining chain cells impose, walking the grid from
`(X, Y)` to `(Xe, Ye)`: each cell is one non-diagonal move followed by its
snake, with all moves in bounds and snakes over matching bytes. -/
def CellsOKTo (old new : List Nat) : List (Bool × Int × Int) → Nat → Nat → Nat → Nat → Prop
  | [], X, Y, Xe, Ye => X = Xe ∧ Y = Ye
  | c :: rest, X, Y, Xe, Ye =>
    (c.1 = true → c.2.1 = (X : Int) + 1 ∧ X < old.length
      ∧ ∃ s : Nat, (∀ t, t < s → X + 1 + t < old.length ∧ Y + t < new.length
          ∧ old.getD (X + 1 + t) 0 = new.getD (Y + t) 0)
        ∧ CellsOKTo old new rest (X + 1 + s) (Y + s) Xe Ye)
    ∧ (c.1 = false → c.2.1 = (X : Int) ∧ c.2.2 = (Y : Int) ∧ Y < new.length
      ∧ ∃ s : Nat, (∀ t, t < s → X + t < old.length ∧ Y + 1 + t < new.length
          ∧ old.getD (X + t) 0 = new.getD (Y + 1 + t) 0)
        ∧ CellsOKTo old new rest (X + s) (Y + 1 + s) Xe Ye)

theorem CellsOKTo_le (old new : List Nat) : ∀ (cs : List (Bool × Int × Int)) (X Y Xe Ye : Nat),
    CellsOKTo old new cs X Y Xe Ye → X ≤ Xe ∧ Y ≤ Ye := by
  intro cs
  induction cs with
  | nil =>
    intro X Y Xe Ye h
    obtain ⟨h1, h2⟩ := h
    omega
  | cons c rest ih =>
    intro X Y Xe Ye h
    obtain ⟨hdel, hins⟩ := h
    cases hb : c.1 with
    | true =>
      obtain ⟨_, _, s, _, hrest⟩ := hdel hb
      have := ih _ _ _ _ hrest
      omega
    | false =>
      obtain ⟨_, _, _, s, _, hrest⟩ := hins hb
      have := ih _ _ _ _ hrest
      omega

theorem flushStep_zero (cap : Nat) (new : List Nat) (lastOp : Nat) (tokPos : Int)
    (buf : List Nat) : flushStep cap new lastOp 0 tokPos buf = Sum.inr buf := by
  unfold flushStep
  rw [if_neg (by omega)]

theorem flushStep_pos (cap : Nat) (new : List Nat) (lastOp opCount : Nat) (tokPos : Int)
    (buf : List Nat) (h : 0 < opCount) :
    flushStep cap new lastOp opCount tokPos buf
      = if (AddEditScript cap buf lastOp opCount (tokenSrc new tokPos)).1 < 0 then
          Sum.inl (AddEditScript cap buf lastOp opCount (tokenSrc new tokPos))
        else Sum.inr (AddEditScript cap buf lastOp opCount (tokenSrc new tokPos)).2 := by
  unfold flushStep
  rw [if_pos h]

theorem drop_eq_of_matches (old new : List Nat) (oc nc : Nat) (hoc : oc ≤ old.length)
    (hnc : nc ≤ new.length) (hlen : old.length + nc = new.length + oc)
    (hm : ∀ t, oc + t < old.length → old.getD (oc + t) 0 = new.getD (nc + t) 0) :
    old.drop oc = new.drop nc := by
  apply List.ext_getElem
  · rw [List.length_drop, List.length_drop]
    omega
  · intro i h1 h2
    rw [List.length_drop] at h1
    rw [List.getElem_drop, List.getElem_drop]
    have e1 : old.getD (oc + i) 0 = old[oc + i] := List.getD_eq_getElem old 0 (by omega)
    have e2 : new.getD (nc + i) 0 = new[nc + i] := List.getD_eq_getElem new 0 (by omega)
    rw [← e1, ← e2]
    exact hm i (by omega)

theorem flushStep_inl (cap : Nat) (new : List Nat) (lastOp opCount : Nat) (tokPos : Int)
    (buf : List Nat) (e : Int × List Nat)
    (h : flushStep cap new lastOp opCount tokPos buf = Sum.inl e) :
    0 < opCount ∧ (AddEditScript cap buf lastOp opCount (tokenSrc new tokPos)).1 < 0
      ∧ e = AddEditScript cap buf lastOp opCount (tokenSrc new tokPos) := by
  unfold flushStep at h
  by_cases h0 : 0 < opCount
  · rw [if_pos h0] at h
    by_cases he : (AddEditScript cap buf lastOp opCount (tokenSrc new tokPos)).1 < 0
    · rw [if_pos he] at h
      exact ⟨h0, he, ((Sum.inl.injEq _ _).mp h).symm⟩
    · rw [if_neg he] at h
      exact absurd h (by simp)
  · rw [if_neg h0] at h
    exact absurd h (by simp)

theorem flushStep_inr (cap : Nat) (new : List Nat) (lastOp opCount : Nat) (tokPos : Int)
    (buf buf2 : List Nat)
    (h : flushStep cap new lastOp opCount tokPos buf = Sum.inr buf2) :
    (0 < opCount ∧ ¬((AddEditScript cap buf lastOp opCount (tokenSrc new tokPos)).1 < 0)
      ∧ buf2 = (AddEditScript cap buf lastOp opCount (tokenSrc new tokPos)).2)
    ∨ (opCount = 0 ∧ buf2 = buf) := by
  unfold flushStep at h
  by_cases h0 : 0 < opCount
  · rw [if_pos h0] at h
    by_cases he : (AddEditScript cap buf lastOp opCount (tokenSrc new tokPos)).1 < 0
    · rw [if_pos he] at h
      exact absurd h (by simp)
    · rw [if_neg he] at h
      exact Or.inl ⟨h0, he, ((Sum.inr.injEq _ _).mp h).symm⟩
  · rw [if_neg h0] at h
    exact Or.inr ⟨by omega, ((Sum.inr.injEq _ _).mp h).symm⟩

/-- Master theorem on the emission walk: against a chain-consistent cell
list, it terminates within the fuel bound, and its result (after the final
flush) is exactly the sequential emission of a semantically valid run list
whose non-diagonal moves count the chain cells. -/
theorem walkF_runs (cap : Nat) (old new : List Nat) : ∀ (fuel : Nat)
    (cs : List (Bool × Int × Int)) (i : Int) (lastOp opCount : Nat) (tokPos : Int)
    (buf : List Nat) (X Y ocur ncur poc pnc : Nat),
    CellsOKTo old new cs X Y old.length new.length →
    PendOK old new lastOp opCount tokPos poc pnc ocur ncur →
    (i = (ocur : Int) + 1 ∨ (i = 0 ∧ ocur = 0 ∧ ncur = 0 ∧ lastOp = NoopOpcode ∧ opCount = 0)) →
    ocur ≤ X → ncur ≤ Y → X + ncur = Y + ocur →
    (∀ t : Nat, ocur + t < X → ocur + t < old.length ∧ ncur + t < new.length
      ∧ old.getD (ocur + t) 0 = new.getD (ncur + t) 0) →
    old.length + 1 - ocur + 2 * cs.length + (if i = 0 then 1 else 0) ≤ fuel →
    ∃ rs, walkOut cap new (walkF cap new fuel i cs lastOp opCount tokPos buf)
        = emitRuns cap new rs buf
      ∧ RunsOKFrom old new rs poc pnc
      ∧ movesOf rs = cs.length
          + (if lastOp = DeleteOpcode ∨ lastOp = InsertOpcode then opCount else 0) := by
  have hNilCase : ∀ (fuel : Nat) (i : Int) (lastOp opCount : Nat) (tokPos : Int)
      (buf : List Nat) (X Y ocur ncur poc pnc : Nat),
      CellsOKTo old new ([] : List (Bool × Int × Int)) X Y old.length new.length →
      PendOK old new lastOp opCount tokPos poc pnc ocur ncur →
      ocur ≤ X → ncur ≤ Y → X + ncur = Y + ocur →
      (∀ t : Nat, ocur + t < X → ocur + t < old.length ∧ ncur + t < new.length
        ∧ old.getD (ocur + t) 0 = new.getD (ncur + t) 0) →
      ∃ rs, walkOut cap new (walkF cap new fuel i [] lastOp opCount tokPos buf)
          = emitRuns cap new rs buf
        ∧ RunsOKFrom old new rs poc pnc
        ∧ movesOf rs = ([] : List (Bool × Int × Int)).length
            + (if lastOp = DeleteOpcode ∨ lastOp = InsertOpcode then opCount else 0) := by
    intro fuel i lastOp opCount tokPos buf X Y ocur ncur poc pnc hC hP hocX hncY hXY hM
    have hXA : X = old.length ∧ Y = new.length := hC
    have hwnil : walkF cap new fuel i [] lastOp opCount tokPos buf
        = Sum.inr (lastOp, opCount, tokPos, buf) := by
      rw [walkF.eq_def]
    rw [hwnil]
    have hdrop : old.drop ocur = new.drop ncur := by
      refine drop_eq_of_matches old new ocur ncur (by omega) (by omega) (by omega) ?_
      intro t ht
      exact (hM t (by omega)).2.2
    have hbase : RunsOKFrom old new [] ocur ncur := ⟨by omega, by omega, hdrop⟩
    rcases hP with ⟨h1, h2, h3, h4⟩ | ⟨h1, h2, h3, h4, h5, h6, h7⟩
      | ⟨h1, h2, h3, h4, h5⟩ | ⟨h1, h2, h3, h4, h5, h6⟩
    · refine ⟨[], ?_, ?_, ?_⟩
      · show walkOut cap new _ = ((buf.length : Int), buf)
        unfold walkOut
        dsimp only
        rw [h2, flushStep_zero]
      · subst h3 h4
        exact hbase
      · rw [h1]
        simp [movesOf, NoopOpcode, DeleteOpcode, InsertOpcode, KeepOpcode]
    · refine ⟨[(lastOp, opCount, tokPos)], ?_, ?_, ?_⟩
      · show walkOut cap new _ = _
        unfold walkOut
        dsimp only
        rw [flushStep_pos cap new lastOp opCount tokPos buf (by omega)]
        by_cases he : (AddEditScript cap buf lastOp opCount (tokenSrc new tokPos)).1 < 0
        · rw [if_pos he]
          rw [emitRuns]
          rw [if_pos he]
        · rw [if_neg he]
          rw [emitRuns]
          rw [if_neg he]
          rfl
      · exact Or.inl ⟨h1, h2, by omega, by omega, h7, by
          rw [h3, h4]
          exact hbase⟩
      · rw [h1]
        simp [movesOf, NoopOpcode, DeleteOpcode, InsertOpcode, KeepOpcode]
    · refine ⟨[(lastOp, opCount, tokPos)], ?_, ?_, ?_⟩
      · show walkOut cap new _ = _
        unfold walkOut
        dsimp only
        rw [flushStep_pos cap new lastOp opCount tokPos buf (by omega)]
        by_cases he : (AddEditScript cap buf lastOp opCount (tokenSrc new tokPos)).1 < 0
        · rw [if_pos he]
          rw [emitRuns]
          rw [if_pos he]
        · rw [if_neg he]
          rw [emitRuns]
          rw [if_neg he]
          rfl
      · exact Or.inr (Or.inl ⟨h1, h2, by omega, by
          rw [h3, h4]
          exact hbase⟩)
      · rw [h1]
        simp [movesOf, NoopOpcode, DeleteOpcode, InsertOpcode, KeepOpcode]
    · refine ⟨[(lastOp, opCount, tokPos)], ?_, ?_, ?_⟩
      · show walkOut cap new _ = _
        unfold walkOut
        dsimp only
        rw [flushStep_pos cap new lastOp opCount tokPos buf (by omega)]
        by_cases he : (AddEditScript cap buf lastOp opCount (tokenSrc new tokPos)).1 < 0
        · rw [if_pos he]
          rw [emitRuns]
          rw [if_pos he]
        · rw [if_neg he]
          rw [emitRuns]
          rw [if_neg he]
          rfl
      · exact Or.inr (Or.inr ⟨h1, h2, by omega, h5, by
          rw [h3, h4]
          exact hbase⟩)
      · rw [h1]
        simp [movesOf, NoopOpcode, DeleteOpcode, InsertOpcode, KeepOpcode]
  intro fuel
  induction fuel with
  | zero =>
    intro cs i lastOp opCount tokPos buf X Y ocur ncur poc pnc hC hP hI hocX hncY hXY hM hfuel
    cases cs with
    | nil => exact hNilCase 0 i lastOp opCount tokPos buf X Y ocur ncur poc pnc hC hP hocX hncY hXY hM
    | cons c rest =>
      exfalso
      have hlen : (c :: rest).length = rest.length + 1 := rfl
      omega
  | succ fuel ih =>
    intro cs i lastOp opCount tokPos buf X Y ocur ncur poc pnc hC hP hI hocX hncY hXY hM hfuel
    cases cs with
    | nil =>
      exact hNilCase (fuel + 1) i lastOp opCount tokPos buf X Y ocur ncur poc pnc
        hC hP hocX hncY hXY hM
    | cons c rest =>
      have hlen : (c :: rest).length = rest.length + 1 := rfl
      have hXYA := CellsOKTo_le old new (c :: rest) X Y old.length new.length hC
      obtain ⟨hCdel, hCins⟩ := hC
      rw [walkF.eq_def]
      dsimp only
      by_cases hb : c.1 = true
      · obtain ⟨hcidx, hXlt, s, hsm, hrest⟩ := hCdel hb
        rw [if_pos hb, hcidx]
        rcases hI with hI | ⟨hI0, hoc0, hnc0, hNoop, hOc0⟩
        · by_cases hox : ocur < X
          · -- keep step
            rw [if_pos (show i < (X : Int) + 1 by rw [hI]; push_cast; omega),
              if_pos (show i ≠ 0 by rw [hI]; omega)]
            have hMb := hM 0 (by omega)
            by_cases hk : lastOp = KeepOpcode
            · rw [if_pos hk]
              have hP' : PendOK old new KeepOpcode (opCount + 1) tokPos poc pnc
                  (ocur + 1) (ncur + 1) := by
                rcases hP with ⟨h1, h2, h3, h4⟩ | ⟨h1, h2, h3, h4, h5, h6, h7⟩
                  | ⟨h1, h2, h3, h4, h5⟩ | ⟨h1, h2, h3, h4, h5, h6⟩
                · rw [h1] at hk
                  exact absurd hk (by decide)
                · refine Or.inr (Or.inl ⟨rfl, by omega, by omega, by omega, by omega, by omega, ?_⟩)
                  intro t ht
                  rcases Nat.lt_or_ge t opCount with h | h
                  · exact h7 t h
                  · have hte : t = opCount := by omega
                    subst hte
                    have e3 : poc + t = ocur := h3
                    have e4 : pnc + t = ncur := h4
                    rw [e3, e4]
                    simpa using hMb.2.2
                · rw [h1] at hk
                  exact absurd hk (by decide)
                · rw [h1] at hk
                  exact absurd hk (by decide)
              obtain ⟨rs, heq, hrok, hmv⟩ := ih (c :: rest) (i + 1) KeepOpcode (opCount + 1)
                tokPos buf X Y (ocur + 1) (ncur + 1) poc pnc ⟨hCdel, hCins⟩ hP'
                (Or.inl (by rw [hI]; push_cast; ring)) (by omega) (by omega) (by omega)
                (fun t ht => by
                  have := hM (t + 1) (by omega)
                  constructor
                  · omega
                  · constructor
                    · omega
                    · have e1 : ocur + 1 + t = ocur + (t + 1) := by omega
                      have e2 : ncur + 1 + t = ncur + (t + 1) := by omega
                      rw [e1, e2]
                      exact this.2.2)
                (by
                  rw [if_neg (show ¬((i : Int) + 1 = 0) by rw [hI]; omega)]
                  rw [if_neg (show ¬(i = 0) by rw [hI]; omega)] at hfuel
                  omega)
              refine ⟨rs, heq, hrok, ?_⟩
              rw [hmv, hk]
              simp [KeepOpcode, DeleteOpcode, InsertOpcode]
            · rw [if_neg hk]
              -- flush then fresh keep run
              have hP' : PendOK old new KeepOpcode 1 tokPos ocur ncur (ocur + 1) (ncur + 1) := by
                refine Or.inr (Or.inl ⟨rfl, by omega, by omega, by omega, by omega, by omega, ?_⟩)
                intro t ht
                have hte : t = 0 := by omega
                subst hte
                simpa using hMb.2.2
              have hIH := fun (b : List Nat) => ih (c :: rest) (i + 1) KeepOpcode 1
                tokPos b X Y (ocur + 1) (ncur + 1) ocur ncur ⟨hCdel, hCins⟩ hP'
                (Or.inl (by rw [hI]; push_cast; ring)) (by omega) (by omega) (by omega)
                (fun t ht => by
                  have := hM (t + 1) (by omega)
                  constructor
                  · omega
                  · constructor
                    · omega
                    · have e1 : ocur + 1 + t = ocur + (t + 1) := by omega
                      have e2 : ncur + 1 + t = ncur + (t + 1) := by omega
                      rw [e1, e2]
                      exact this.2.2)
                (by
                  rw [if_neg (show ¬((i : Int) + 1 = 0) by rw [hI]; omega)]
                  rw [if_neg (show ¬(i = 0) by rw [hI]; omega)] at hfuel
                  omega)
              cases hfs : flushStep cap new lastOp opCount tokPos buf with
              | inl e =>
                obtain ⟨hcnt, herr, hee⟩ := flushStep_inl cap new lastOp opCount tokPos buf e hfs
                obtain ⟨rsA, _, hrokA, hmvA⟩ := hIH []
                refine ⟨(lastOp, opCount, tokPos) :: rsA, ?_, ?_, ?_⟩
                · show e = _
                  rw [emitRuns]
                  rw [if_pos herr]
                  exact hee
                · rcases hP with ⟨h1, h2, h3, h4⟩ | ⟨h1, h2, h3, h4, h5, h6, h7⟩
                    | ⟨h1, h2, h3, h4, h5⟩ | ⟨h1, h2, h3, h4, h5, h6⟩
                  · omega
                  · exact Or.inl ⟨h1, h2, by omega, by omega, h7, by rw [h3, h4]; exact hrokA⟩
                  · exact Or.inr (Or.inl ⟨h1, h2, by omega, by rw [h3, h4]; exact hrokA⟩)
                  · exact Or.inr (Or.inr ⟨h1, h2, by omega, h5, by rw [h3, h4]; exact hrokA⟩)
                · show (if lastOp = DeleteOpcode ∨ lastOp = InsertOpcode then opCount else 0)
                      + movesOf rsA = _
                  rw [hmvA]
                  rw [hlen]
                  rw [if_neg (show ¬(KeepOpcode = DeleteOpcode ∨ KeepOpcode = InsertOpcode)
                    by decide)]
                  omega
              | inr buf2 =>
                obtain ⟨rs, heq, hrok, hmv⟩ := hIH buf2
                rcases flushStep_inr cap new lastOp opCount tokPos buf buf2 hfs with
                  ⟨hcnt, herr, hb2⟩ | ⟨hcnt, hb2⟩
                · refine ⟨(lastOp, opCount, tokPos) :: rs, ?_, ?_, ?_⟩
                  · rw [emitRuns]
                    rw [if_neg herr, ← hb2, heq]
                  · rcases hP with ⟨h1, h2, h3, h4⟩ | ⟨h1, h2, h3, h4, h5, h6, h7⟩
                      | ⟨h1, h2, h3, h4, h5⟩ | ⟨h1, h2, h3, h4, h5, h6⟩
                    · omega
                    · exact Or.inl ⟨h1, h2, by omega, by omega, h7, by rw [h3, h4]; exact hrok⟩
                    · exact Or.inr (Or.inl ⟨h1, h2, by omega, by rw [h3, h4]; exact hrok⟩)
                    · exact Or.inr (Or.inr ⟨h1, h2, by omega, h5, by rw [h3, h4]; exact hrok⟩)
                  · show (if lastOp = DeleteOpcode ∨ lastOp = InsertOpcode then opCount else 0)
                        + movesOf rs = _
                    rw [hmv]
                    rw [hlen]
                    rw [if_neg (show ¬(KeepOpcode = DeleteOpcode ∨ KeepOpcode = InsertOpcode)
                      by decide)]
                    omega
                · subst hb2
                  refine ⟨rs, heq, ?_, ?_⟩
                  · rcases hP with ⟨h1, h2, h3, h4⟩ | ⟨h1, h2, h3, h4, h5, h6, h7⟩
                      | ⟨h1, h2, h3, h4, h5⟩ | ⟨h1, h2, h3, h4, h5, h6⟩
                    · rw [h3, h4]
                      exact hrok
                    all_goals omega
                  · rw [hmv]
                    rcases hP with ⟨h1, h2, h3, h4⟩ | ⟨h1, h2, h3, h4, h5, h6, h7⟩
                      | ⟨h1, h2, h3, h4, h5⟩ | ⟨h1, h2, h3, h4, h5, h6⟩
                    · rw [h1]
                      simp [KeepOpcode, NoopOpcode, DeleteOpcode, InsertOpcode]
                    all_goals omega
          · -- at the move point: ocur = X, take the delete move
            have hoe : ocur = X := by omega
            have hne : ncur = Y := by omega
            rw [if_neg (show ¬(i < (X : Int) + 1) by rw [hI]; push_cast; omega)]
            have hP'base : PendOK old new DeleteOpcode 1 tokPos ocur ncur (ocur + 1) ncur :=
              Or.inr (Or.inr (Or.inl ⟨rfl, by omega, by omega, by omega, by omega⟩))
            have hIH := fun (lastOp2 opCount2 : Nat) (tokPos2 : Int) (poc2 pnc2 : Nat)
                (b : List Nat)
                (hP2 : PendOK old new lastOp2 opCount2 tokPos2 poc2 pnc2 (ocur + 1) ncur) =>
              ih rest (i + 1) lastOp2 opCount2 tokPos2 b (X + 1 + s) (Y + s)
                (ocur + 1) ncur poc2 pnc2 hrest hP2
                (Or.inl (by rw [hI]; push_cast; ring)) (by omega) (by omega) (by omega)
                (fun t ht => by
                  have := hsm t (by omega)
                  constructor
                  · omega
                  · constructor
                    · omega
                    · have e1 : ocur + 1 + t = X + 1 + t := by omega
                      have e2 : ncur + t = Y + t := by omega
                      rw [e1, e2]
                      exact this.2.2)
                (by
                  rw [if_neg (show ¬((i : Int) + 1 = 0) by rw [hI]; omega)]
                  rw [if_neg (show ¬(i = 0) by rw [hI]; omega)] at hfuel
                  omega)
            by_cases hk : lastOp = DeleteOpcode
            · rw [if_pos hk]
              rcases hP with ⟨h1, h2, h3, h4⟩ | ⟨h1, h2, h3, h4, h5, h6, h7⟩
                | ⟨h1, h2, h3, h4, h5⟩ | ⟨h1, h2, h3, h4, h5, h6⟩
              · rw [h1] at hk
                exact absurd hk (by decide)
              · rw [h1] at hk
                exact absurd hk (by decide)
              · have hP' : PendOK old new DeleteOpcode (opCount + 1) tokPos poc pnc
                    (ocur + 1) ncur :=
                  Or.inr (Or.inr (Or.inl ⟨rfl, by omega, by omega, by omega, by omega⟩))
                obtain ⟨rs, heq, hrok, hmv⟩ := hIH DeleteOpcode (opCount + 1) tokPos poc pnc
                  buf hP'
                refine ⟨rs, heq, hrok, ?_⟩
                rw [hmv, hk]
                rw [hlen]
                have hd : (DeleteOpcode = DeleteOpcode ∨ DeleteOpcode = InsertOpcode) := Or.inl rfl
                rw [if_pos hd, if_pos hd]
                omega
              · rw [h1] at hk
                exact absurd hk (by decide)
            · rw [if_neg hk]
              cases hfs : flushStep cap new lastOp opCount tokPos buf with
              | inl e =>
                obtain ⟨hcnt, herr, hee⟩ := flushStep_inl cap new lastOp opCount tokPos buf e hfs
                obtain ⟨rsA, _, hrokA, hmvA⟩ := hIH DeleteOpcode 1 tokPos ocur ncur [] hP'base
                refine ⟨(lastOp, opCount, tokPos) :: rsA, ?_, ?_, ?_⟩
                · show e = _
                  rw [emitRuns]
                  rw [if_pos herr]
                  exact hee
                · rcases hP with ⟨h1, h2, h3, h4⟩ | ⟨h1, h2, h3, h4, h5, h6, h7⟩
                    | ⟨h1, h2, h3, h4, h5⟩ | ⟨h1, h2, h3, h4, h5, h6⟩
                  · omega
                  · exact Or.inl ⟨h1, h2, by omega, by omega, h7, by rw [h3, h4]; exact hrokA⟩
                  · exact Or.inr (Or.inl ⟨h1, h2, by omega, by rw [h3, h4]; exact hrokA⟩)
                  · exact Or.inr (Or.inr ⟨h1, h2, by omega, h5, by rw [h3, h4]; exact hrokA⟩)
                · show (if lastOp = DeleteOpcode ∨ lastOp = InsertOpcode then opCount else 0)
                      + movesOf rsA = _
                  rw [hmvA]
                  rw [hlen]
                  have hd : (DeleteOpcode = DeleteOpcode ∨ DeleteOpcode = InsertOpcode) :=
                    Or.inl rfl
                  rw [if_pos hd]
                  omega
              | inr buf2 =>
                obtain ⟨rs, heq, hrok, hmv⟩ := hIH DeleteOpcode 1 tokPos ocur ncur buf2 hP'base
                rcases flushStep_inr cap new lastOp opCount tokPos buf buf2 hfs with
                  ⟨hcnt, herr, hb2⟩ | ⟨hcnt, hb2⟩
                · refine ⟨(lastOp, opCount, tokPos) :: rs, ?_, ?_, ?_⟩
                  · rw [emitRuns]
                    rw [if_neg herr, ← hb2, heq]
                  · rcases hP with ⟨h1, h2, h3, h4⟩ | ⟨h1, h2, h3, h4, h5, h6, h7⟩
                      | ⟨h1, h2, h3, h4, h5⟩ | ⟨h1, h2, h3, h4, h5, h6⟩
                    · omega
                    · exact Or.inl ⟨h1, h2, by omega, by omega, h7, by rw [h3, h4]; exact hrok⟩
                    · exact Or.inr (Or.inl ⟨h1, h2, by omega, by rw [h3, h4]; exact hrok⟩)
                    · exact Or.inr (Or.inr ⟨h1, h2, by omega, h5, by rw [h3, h4]; exact hrok⟩)
                  · show (if lastOp = DeleteOpcode ∨ lastOp = InsertOpcode then opCount else 0)
                        + movesOf rs = _
                    rw [hmv]
                    rw [hlen]
                    have hd : (DeleteOpcode = DeleteOpcode ∨ DeleteOpcode = InsertOpcode) :=
                      Or.inl rfl
                    rw [if_pos hd]
                    omega
                · subst hb2
                  refine ⟨rs, heq, ?_, ?_⟩
                  · rcases hP with ⟨h1, h2, h3, h4⟩ | ⟨h1, h2, h3, h4, h5, h6, h7⟩
                      | ⟨h1, h2, h3, h4, h5⟩ | ⟨h1, h2, h3, h4, h5, h6⟩
                    · rw [h3, h4]
                      exact hrok
                    all_goals omega
                  · rw [hmv]
                    rcases hP with ⟨h1, h2, h3, h4⟩ | ⟨h1, h2, h3, h4, h5, h6, h7⟩
                      | ⟨h1, h2, h3, h4, h5⟩ | ⟨h1, h2, h3, h4, h5, h6⟩
                    · rw [h1]
                      rw [hlen]
                      have hd : (DeleteOpcode = DeleteOpcode ∨ DeleteOpcode = InsertOpcode) :=
                        Or.inl rfl
                      rw [if_pos hd]
                      have hn : ¬(NoopOpcode = DeleteOpcode ∨ NoopOpcode = InsertOpcode) := by
                        decide
                      rw [if_neg hn]
                    all_goals omega
        · -- i = 0, free catch-up step
          rw [if_pos (show i < (X : Int) + 1 by rw [hI0]; push_cast; omega),
            if_neg (show ¬(i ≠ 0) by rw [hI0]; omega)]
          refine ih (c :: rest) (i + 1) lastOp opCount tokPos buf X Y ocur ncur poc pnc
            ⟨hCdel, hCins⟩ hP (Or.inl (by rw [hI0, hoc0]; ring)) hocX hncY hXY hM ?_
          rw [if_neg (show ¬(i + 1 = 0) by rw [hI0]; omega)]
          rw [if_pos hI0] at hfuel
          omega
      · -- insert cell
        have hbf : c.1 = false := by
          cases hcb : c.1
          · rfl
          · exact absurd hcb hb
        obtain ⟨hcidx, hctok, hYlt, s, hsm, hrest⟩ := hCins hbf
        rw [if_neg hb, hcidx]
        rcases hI with hI | ⟨hI0, hoc0, hnc0, hNoop, hOc0⟩
        · by_cases hox : ocur < X
          · -- keep step
            rw [if_pos (show i ≤ (X : Int) by rw [hI]; push_cast; omega),
              if_pos (show i ≠ 0 by rw [hI]; omega)]
            have hMb := hM 0 (by omega)
            by_cases hk : lastOp = KeepOpcode
            · rw [if_pos hk]
              have hP' : PendOK old new KeepOpcode (opCount + 1) tokPos poc pnc
                  (ocur + 1) (ncur + 1) := by
                rcases hP with ⟨h1, h2, h3, h4⟩ | ⟨h1, h2, h3, h4, h5, h6, h7⟩
                  | ⟨h1, h2, h3, h4, h5⟩ | ⟨h1, h2, h3, h4, h5, h6⟩
                · rw [h1] at hk
                  exact absurd hk (by decide)
                · refine Or.inr (Or.inl ⟨rfl, by omega, by omega, by omega, by omega, by omega, ?_⟩)
                  intro t ht
                  rcases Nat.lt_or_ge t opCount with h | h
                  · exact h7 t h
                  · have hte : t = opCount := by omega
                    subst hte
                    have e3 : poc + t = ocur := h3
                    have e4 : pnc + t = ncur := h4
                    rw [e3, e4]
                    simpa using hMb.2.2
                · rw [h1] at hk
                  exact absurd hk (by decide)
                · rw [h1] at hk
                  exact absurd hk (by decide)
              obtain ⟨rs, heq, hrok, hmv⟩ := ih (c :: rest) (i + 1) KeepOpcode (opCount + 1)
                tokPos buf X Y (ocur + 1) (ncur + 1) poc pnc ⟨hCdel, hCins⟩ hP'
                (Or.inl (by rw [hI]; push_cast; ring)) (by omega) (by omega) (by omega)
                (fun t ht => by
                  have := hM (t + 1) (by omega)
                  constructor
                  · omega
                  · constructor
                    · omega
                    · have e1 : ocur + 1 + t = ocur + (t + 1) := by omega
                      have e2 : ncur + 1 + t = ncur + (t + 1) := by omega
                      rw [e1, e2]
                      exact this.2.2)
                (by
                  rw [if_neg (show ¬((i : Int) + 1 = 0) by rw [hI]; omega)]
                  rw [if_neg (show ¬(i = 0) by rw [hI]; omega)] at hfuel
                  omega)
              refine ⟨rs, heq, hrok, ?_⟩
              rw [hmv, hk]
              simp [KeepOpcode, DeleteOpcode, InsertOpcode]
            · rw [if_neg hk]
              have hP' : PendOK old new KeepOpcode 1 tokPos ocur ncur (ocur + 1) (ncur + 1) := by
                refine Or.inr (Or.inl ⟨rfl, by omega, by omega, by omega, by omega, by omega, ?_⟩)
                intro t ht
                have hte : t = 0 := by omega
                subst hte
                simpa using hMb.2.2
              have hIH := fun (b : List Nat) => ih (c :: rest) (i + 1) KeepOpcode 1
                tokPos b X Y (ocur + 1) (ncur + 1) ocur ncur ⟨hCdel, hCins⟩ hP'
                (Or.inl (by rw [hI]; push_cast; ring)) (by omega) (by omega) (by omega)
                (fun t ht => by
                  have := hM (t + 1) (by omega)
                  constructor
                  · omega
                  · constructor
                    · omega
                    · have e1 : ocur + 1 + t = ocur + (t + 1) := by omega
                      have e2 : ncur + 1 + t = ncur + (t + 1) := by omega
                      rw [e1, e2]
                      exact this.2.2)
                (by
                  rw [if_neg (show ¬((i : Int) + 1 = 0) by rw [hI]; omega)]
                  rw [if_neg (show ¬(i = 0) by rw [hI]; omega)] at hfuel
                  omega)
              cases hfs : flushStep cap new lastOp opCount tokPos buf with
              | inl e =>
                obtain ⟨hcnt, herr, hee⟩ := flushStep_inl cap new lastOp opCount tokPos buf e hfs
                obtain ⟨rsA, _, hrokA, hmvA⟩ := hIH []
                refine ⟨(lastOp, opCount, tokPos) :: rsA, ?_, ?_, ?_⟩
                · show e = _
                  rw [emitRuns]
                  rw [if_pos herr]
                  exact hee
                · rcases hP with ⟨h1, h2, h3, h4⟩ | ⟨h1, h2, h3, h4, h5, h6, h7⟩
                    | ⟨h1, h2, h3, h4, h5⟩ | ⟨h1, h2, h3, h4, h5, h6⟩
                  · omega
                  · exact Or.inl ⟨h1, h2, by omega, by omega, h7, by rw [h3, h4]; exact hrokA⟩
                  · exact Or.inr (Or.inl ⟨h1, h2, by omega, by rw [h3, h4]; exact hrokA⟩)
                  · exact Or.inr (Or.inr ⟨h1, h2, by omega, h5, by rw [h3, h4]; exact hrokA⟩)
                · show (if lastOp = DeleteOpcode ∨ lastOp = InsertOpcode then opCount else 0)
                      + movesOf rsA = _
                  rw [hmvA]
                  rw [hlen]
                  rw [if_neg (show ¬(KeepOpcode = DeleteOpcode ∨ KeepOpcode = InsertOpcode)
                    by decide)]
                  omega
              | inr buf2 =>
                obtain ⟨rs, heq, hrok, hmv⟩ := hIH buf2
                rcases flushStep_inr cap new lastOp opCount tokPos buf buf2 hfs with
                  ⟨hcnt, herr, hb2⟩ | ⟨hcnt, hb2⟩
                · refine ⟨(lastOp, opCount, tokPos) :: rs, ?_, ?_, ?_⟩
                  · rw [emitRuns]
                    rw [if_neg herr, ← hb2, heq]
                  · rcases hP with ⟨h1, h2, h3, h4⟩ | ⟨h1, h2, h3, h4, h5, h6, h7⟩
                      | ⟨h1, h2, h3, h4, h5⟩ | ⟨h1, h2, h3, h4, h5, h6⟩
                    · omega
                    · exact Or.inl ⟨h1, h2, by omega, by omega, h7, by rw [h3, h4]; exact hrok⟩
                    · exact Or.inr (Or.inl ⟨h1, h2, by omega, by rw [h3, h4]; exact hrok⟩)
                    · exact Or.inr (Or.inr ⟨h1, h2, by omega, h5, by rw [h3, h4]; exact hrok⟩)
                  · show (if lastOp = DeleteOpcode ∨ lastOp = InsertOpcode then opCount else 0)
                        + movesOf rs = _
                    rw [hmv]
                    rw [hlen]
                    rw [if_neg (show ¬(KeepOpcode = DeleteOpcode ∨ KeepOpcode = InsertOpcode)
                      by decide)]
                    omega
                · subst hb2
                  refine ⟨rs, heq, ?_, ?_⟩
                  · rcases hP with ⟨h1, h2, h3, h4⟩ | ⟨h1, h2, h3, h4, h5, h6, h7⟩
                      | ⟨h1, h2, h3, h4, h5⟩ | ⟨h1, h2, h3, h4, h5, h6⟩
                    · rw [h3, h4]
                      exact hrok
                    all_goals omega
                  · rw [hmv]
                    rcases hP with ⟨h1, h2, h3, h4⟩ | ⟨h1, h2, h3, h4, h5, h6, h7⟩
                      | ⟨h1, h2, h3, h4, h5⟩ | ⟨h1, h2, h3, h4, h5, h6⟩
                    · rw [h1]
                      simp [KeepOpcode, NoopOpcode, DeleteOpcode, InsertOpcode]
                    all_goals omega
          · -- at the move point: ocur = X, take the insert move
            have hoe : ocur = X := by omega
            have hne : ncur = Y := by omega
            rw [if_neg (show ¬(i ≤ (X : Int)) by rw [hI]; push_cast; omega)]
            have hP'base : PendOK old new InsertOpcode 1 ((ncur : Nat) : Int) ocur ncur
                ocur (ncur + 1) :=
              Or.inr (Or.inr (Or.inr ⟨rfl, by omega, by omega, by omega, by omega, by omega⟩))
            have hIH := fun (lastOp2 opCount2 : Nat) (tokPos2 : Int) (poc2 pnc2 : Nat)
                (b : List Nat)
                (hP2 : PendOK old new lastOp2 opCount2 tokPos2 poc2 pnc2 ocur (ncur + 1)) =>
              ih rest i lastOp2 opCount2 tokPos2 b (X + s) (Y + 1 + s)
                ocur (ncur + 1) poc2 pnc2 hrest hP2
                (Or.inl hI) (by omega) (by omega) (by omega)
                (fun t ht => by
                  have := hsm t (by omega)
                  constructor
                  · omega
                  · constructor
                    · omega
                    · have e1 : ocur + t = X + t := by omega
                      have e2 : ncur + 1 + t = Y + 1 + t := by omega
                      rw [e1, e2]
                      exact this.2.2)
                (by
                  rw [if_neg (show ¬((i : Int) = 0) by rw [hI]; omega)]
                  rw [if_neg (show ¬(i = 0) by rw [hI]; omega)] at hfuel
                  omega)
            by_cases hk : lastOp = InsertOpcode
            · rw [if_pos hk]
              rcases hP with ⟨h1, h2, h3, h4⟩ | ⟨h1, h2, h3, h4, h5, h6, h7⟩
                | ⟨h1, h2, h3, h4, h5⟩ | ⟨h1, h2, h3, h4, h5, h6⟩
              · rw [h1] at hk
                exact absurd hk (by decide)
              · rw [h1] at hk
                exact absurd hk (by decide)
              · rw [h1] at hk
                exact absurd hk (by decide)
              · have hP' : PendOK old new InsertOpcode (opCount + 1) tokPos poc pnc
                    ocur (ncur + 1) :=
                  Or.inr (Or.inr (Or.inr ⟨rfl, by omega, by omega, by omega, h5, by omega⟩))
                obtain ⟨rs, heq, hrok, hmv⟩ := hIH InsertOpcode (opCount + 1) tokPos poc pnc
                  buf hP'
                refine ⟨rs, heq, hrok, ?_⟩
                rw [hmv, hk]
                rw [hlen]
                have hd : (InsertOpcode = DeleteOpcode ∨ InsertOpcode = InsertOpcode) :=
                  Or.inr rfl
                rw [if_pos hd, if_pos hd]
                omega
            · rw [if_neg hk, hctok]
              have hctok2 : (Y : Int) = ((ncur : Nat) : Int) := by omega
              rw [hctok2]
              cases hfs : flushStep cap new lastOp opCount tokPos buf with
              | inl e =>
                obtain ⟨hcnt, herr, hee⟩ := flushStep_inl cap new lastOp opCount tokPos buf e hfs
                obtain ⟨rsA, _, hrokA, hmvA⟩ := hIH InsertOpcode 1 ((ncur : Nat) : Int)
                  ocur ncur [] hP'base
                refine ⟨(lastOp, opCount, tokPos) :: rsA, ?_, ?_, ?_⟩
                · show e = _
                  rw [emitRuns]
                  rw [if_pos herr]
                  exact hee
                · rcases hP with ⟨h1, h2, h3, h4⟩ | ⟨h1, h2, h3, h4, h5, h6, h7⟩
                    | ⟨h1, h2, h3, h4, h5⟩ | ⟨h1, h2, h3, h4, h5, h6⟩
                  · omega
                  · exact Or.inl ⟨h1, h2, by omega, by omega, h7, by rw [h3, h4]; exact hrokA⟩
                  · exact Or.inr (Or.inl ⟨h1, h2, by omega, by rw [h3, h4]; exact hrokA⟩)
                  · exact Or.inr (Or.inr ⟨h1, h2, by omega, h5, by rw [h3, h4]; exact hrokA⟩)
                · show (if lastOp = DeleteOpcode ∨ lastOp = InsertOpcode then opCount else 0)
                      + movesOf rsA = _
                  rw [hmvA]
                  rw [hlen]
                  have hd : (InsertOpcode = DeleteOpcode ∨ InsertOpcode = InsertOpcode) :=
                    Or.inr rfl
                  rw [if_pos hd]
                  omega
              | inr buf2 =>
                obtain ⟨rs, heq, hrok, hmv⟩ := hIH InsertOpcode 1 ((ncur : Nat) : Int)
                  ocur ncur buf2 hP'base
                rcases flushStep_inr cap new lastOp opCount tokPos buf buf2 hfs with
                  ⟨hcnt, herr, hb2⟩ | ⟨hcnt, hb2⟩
                · refine ⟨(lastOp, opCount, tokPos) :: rs, ?_, ?_, ?_⟩
                  · rw [emitRuns]
                    rw [if_neg herr, ← hb2, heq]
                  · rcases hP with ⟨h1, h2, h3, h4⟩ | ⟨h1, h2, h3, h4, h5, h6, h7⟩
                      | ⟨h1, h2, h3, h4, h5⟩ | ⟨h1, h2, h3, h4, h5, h6⟩
                    · omega
                    · exact Or.inl ⟨h1, h2, by omega, by omega, h7, by rw [h3, h4]; exact hrok⟩
                    · exact Or.inr (Or.inl ⟨h1, h2, by omega, by rw [h3, h4]; exact hrok⟩)
                    · exact Or.inr (Or.inr ⟨h1, h2, by omega, h5, by rw [h3, h4]; exact hrok⟩)
                  · show (if lastOp = DeleteOpcode ∨ lastOp = InsertOpcode then opCount else 0)
                        + movesOf rs = _
                    rw [hmv]
                    rw [hlen]
                    have hd : (InsertOpcode = DeleteOpcode ∨ InsertOpcode = InsertOpcode) :=
                      Or.inr rfl
                    rw [if_pos hd]
                    omega
                · subst hb2
                  refine ⟨rs, heq, ?_, ?_⟩
                  · rcases hP with ⟨h1, h2, h3, h4⟩ | ⟨h1, h2, h3, h4, h5, h6, h7⟩
                      | ⟨h1, h2, h3, h4, h5⟩ | ⟨h1, h2, h3, h4, h5, h6⟩
                    · rw [h3, h4]
                      exact hrok
                    all_goals omega
                  · rw [hmv]
                    rcases hP with ⟨h1, h2, h3, h4⟩ | ⟨h1, h2, h3, h4, h5, h6, h7⟩
                      | ⟨h1, h2, h3, h4, h5⟩ | ⟨h1, h2, h3, h4, h5, h6⟩
                    · rw [h1]
                      rw [hlen]
                      have hd : (InsertOpcode = DeleteOpcode ∨ InsertOpcode = InsertOpcode) :=
                        Or.inr rfl
                      rw [if_pos hd]
                      have hn : ¬(NoopOpcode = DeleteOpcode ∨ NoopOpcode = InsertOpcode) := by
                        decide
                      rw [if_neg hn]
                    all_goals omega
        · -- i = 0, free catch-up step (insert cell: 0 ≤ Index always)
          rw [if_pos (show i ≤ (X : Int) by rw [hI0]; push_cast; omega),
            if_neg (show ¬(i ≠ 0) by rw [hI0]; omega)]
          refine ih (c :: rest) (i + 1) lastOp opCount tokPos buf X Y ocur ncur poc pnc
            ⟨hCdel, hCins⟩ hP (Or.inl (by rw [hI0, hoc0]; ring)) hocX hncY hXY hM ?_
          rw [if_neg (show ¬(i + 1 = 0) by rw [hI0]; omega)]
          rw [if_pos hI0] at hfuel
          omega

/-! ### The chain data satisfies the walk geometry -/

theorem chainData_zero (old new : List Nat) (k : Int) : chainData old new 0 k = [] := by
  unfold chainData chainCells
  rfl

theorem chainData_length (old new : List Nat) (d : Nat) (k : Int) :
    (chainData old new d k).length = d := by
  unfold chainData
  rw [List.length_map, List.length_drop, chainCells_length]
  omega

theorem CellsOKTo_append (old new : List Nat) : ∀ (cs : List (Bool × Int × Int))
    (c : Bool × Int × Int) (X Y Xe Ye Xf Yf : Nat),
    CellsOKTo old new cs X Y Xe Ye → CellsOKTo old new [c] Xe Ye Xf Yf →
    CellsOKTo old new (cs ++ [c]) X Y Xf Yf := by
  intro cs
  induction cs with
  | nil =>
    intro c X Y Xe Ye Xf Yf h1 h2
    obtain ⟨hX, hY⟩ := h1
    subst hX hY
    simpa using h2
  | cons c0 rest ih =>
    intro c X Y Xe Ye Xf Yf h1 h2
    obtain ⟨hdel, hins⟩ := h1
    constructor
    · intro hb
      obtain ⟨ha, hb2, s, hm, hrest⟩ := hdel hb
      exact ⟨ha, hb2, s, hm, ih c _ _ _ _ _ _ hrest h2⟩
    · intro hb
      obtain ⟨ha, hb2, hc2, s, hm, hrest⟩ := hins hb
      exact ⟨ha, hb2, hc2, s, hm, ih c _ _ _ _ _ _ hrest h2⟩

/-- One in-bound chain cell is one valid walk move between its parent entry
and its own entry. -/
theorem cellData_ok (old new : List Nat) (d : Nat) (k : Int) (hv : validDK (d + 1) k)
    (hpin : inB old new (d, mParentK old new d k))
    (hsin : inB old new (d + 1, k)) :
    CellsOKTo old new [cellData old new (d + 1) k]
      (mEntry old new d (mParentK old new d k)).SavedX.toNat
      (mEntry old new d (mParentK old new d k)).SavedY.toNat
      (mEntry old new (d + 1) k).SavedX.toNat
      (mEntry old new (d + 1) k).SavedY.toNat := by
  have hpv := mParentK_valid old new d k hv
  obtain ⟨b1, b2, _, _, _⟩ := mEntry_basic old new d (mParentK old new d k) hpv
  have hsin' : (mEntry old new (d + 1) k).SavedX ≤ (old.length : Int)
      ∧ (mEntry old new (d + 1) k).SavedY ≤ (new.length : Int) := hsin
  have hpin' : (mEntry old new d (mParentK old new d k)).SavedX ≤ (old.length : Int)
      ∧ (mEntry old new d (mParentK old new d k)).SavedY ≤ (new.length : Int) := hpin
  by_cases hg : mIsIns old new d k
  · have hpk : mParentK old new d k = k + 1 := by unfold mParentK; rw [if_pos hg]
    rw [hpk] at b1 b2 hpin' ⊢
    obtain ⟨s, hs1, hs2, _⟩ := snakeF_spec old new new.length
      ((mEntry old new d (k + 1)).SavedX) ((mEntry old new d (k + 1)).SavedY + 1)
      (by omega) (by omega)
    have hEx : (mEntry old new (d + 1) k).SavedX = (mEntry old new d (k + 1)).SavedX + s := by
      rw [mEntry_ins_eq old new d k hg]
      dsimp only
      rw [hs1]
    have hEy : (mEntry old new (d + 1) k).SavedY
        = (mEntry old new d (k + 1)).SavedY + 1 + s := by
      rw [mEntry_ins_eq old new d k hg]
      dsimp only
      rw [hs1]
    have hYlt : (mEntry old new d (k + 1)).SavedY + 1 ≤ (new.length : Int) := by
      have := hsin'.2
      omega
    have hcd : cellData old new (d + 1) k
        = (false, (mEntry old new d (k + 1)).SavedX, (mEntry old new d (k + 1)).SavedY) := by
      unfold cellData
      rw [mEntry_ins_eq old new d k hg]
    rw [hcd]
    constructor
    · intro hb
      exact absurd hb (by simp)
    · intro _
      dsimp only
      refine ⟨by omega, by omega, by omega, s, ?_, by constructor <;> omega⟩
      intro t ht
      obtain ⟨ha, hb2, hc2⟩ := hs2 t ht
      refine ⟨by omega, by omega, ?_⟩
      rw [show ((mEntry old new d (k + 1)).SavedX + (t : Int)).toNat
            = (mEntry old new d (k + 1)).SavedX.toNat + t by omega,
        show ((mEntry old new d (k + 1)).SavedY + 1 + (t : Int)).toNat
            = (mEntry old new d (k + 1)).SavedY.toNat + 1 + t by omega] at hc2
      exact hc2
  · have hpk : mParentK old new d k = k - 1 := by unfold mParentK; rw [if_neg hg]
    rw [hpk] at b1 b2 hpin' ⊢
    obtain ⟨s, hs1, hs2, _⟩ := snakeF_spec old new new.length
      ((mEntry old new d (k - 1)).SavedX + 1) ((mEntry old new d (k - 1)).SavedY)
      (by omega) (by omega)
    have hEx : (mEntry old new (d + 1) k).SavedX
        = (mEntry old new d (k - 1)).SavedX + 1 + s := by
      rw [mEntry_del_eq old new d k hg]
      dsimp only
      rw [hs1]
    have hEy : (mEntry old new (d + 1) k).SavedY = (mEntry old new d (k - 1)).SavedY + s := by
      rw [mEntry_del_eq old new d k hg]
      dsimp only
      rw [hs1]
    have hXlt : (mEntry old new d (k - 1)).SavedX + 1 ≤ (old.length : Int) := by
      have := hsin'.1
      omega
    have hcd : cellData old new (d + 1) k
        = (true, (mEntry old new d (k - 1)).SavedX + 1, 0) := by
      unfold cellData
      rw [mEntry_del_eq old new d k hg]
    rw [hcd]
    constructor
    · intro _
      dsimp only
      refine ⟨by omega, by omega, s, ?_, by constructor <;> omega⟩
      intro t ht
      obtain ⟨ha, hb2, hc2⟩ := hs2 t ht
      refine ⟨by omega, by omega, ?_⟩
      rw [show ((mEntry old new d (k - 1)).SavedX + 1 + (t : Int)).toNat
            = (mEntry old new d (k - 1)).SavedX.toNat + 1 + t by omega,
        show ((mEntry old new d (k - 1)).SavedY + (t : Int)).toNat
            = (mEntry old new d (k - 1)).SavedY.toNat + t by omega] at hc2
      exact hc2
    · intro hb
      exact absurd hb (by simp)

/-- The whole in-bound chain, as walk data, is a valid walk from the wave-0
entry to the top entry. -/
theorem chainData_ok (old new : List Nat) : ∀ (d : Nat) (k : Int), validDK d k →
    (∀ c ∈ chainCells old new d k, inB old new c) →
    CellsOKTo old new (chainData old new d k)
      (mEntry old new 0 0).SavedX.toNat (mEntry old new 0 0).SavedY.toNat
      (mEntry old new d k).SavedX.toNat (mEntry old new d k).SavedY.toNat := by
  intro d
  induction d with
  | zero =>
    intro k hv hG
    rw [chainData_zero]
    exact ⟨rfl, rfl⟩
  | succ d ih =>
    intro k hv hG
    have hpv := mParentK_valid old new d k hv
    have hGp : ∀ c ∈ chainCells old new d (mParentK old new d k), inB old new c := by
      intro c hc
      apply hG
      simp only [chainCells, List.mem_append]
      exact Or.inl hc
    rw [chainData_succ]
    exact CellsOKTo_append old new _ _ _ _ _ _ _ _
      (ih (mParentK old new d k) hpv hGp)
      (cellData_ok old new d k hv (hGp _ (chainCells_self old new d (mParentK old new d k)))
        (hG _ (chainCells_self old new (d + 1) k)))

theorem mEntry_zero_diag (old new : List Nat) :
    (mEntry old new 0 0).SavedX = (mEntry old new 0 0).SavedY := by
  have hv : validDK 0 0 := ⟨by omega, by omega, by omega⟩
  obtain ⟨_, _, b3, _, _⟩ := mEntry_basic old new 0 0 hv
  omega

theorem mEntry_zero_matches (old new : List Nat) :
    ∀ t : Nat, t < (mEntry old new 0 0).SavedX.toNat →
      t < old.length ∧ t < new.length ∧ old.getD t 0 = new.getD t 0 := by
  obtain ⟨s, hs1, hs2, _⟩ := snakeF_spec old new new.length 0 0 (by omega) (by omega)
  have hE : (mEntry old new 0 0).SavedX = (0 : Int) + s := by
    rw [mEntry]
    dsimp only
    rw [hs1]
  intro t ht
  have hts : t < s := by omega
  obtain ⟨ha, hb, hc⟩ := hs2 t hts
  refine ⟨by omega, by omega, ?_⟩
  rw [show ((0 : Int) + (t : Int)).toNat = t by omega] at hc
  exact hc

/-- The first goal wave is at most `|Old| + |New|`. -/
theorem Ds_le_sum (old new : List Nat) (Ds : Nat)
    (hmin : ∀ d k, validDK d k → d < Ds → ¬ goalDK old new d k) :
    Ds ≤ old.length + new.length := by
  by_contra h
  obtain ⟨hv, hg⟩ := goal_exists old new
  exact hmin _ _ hv (by omega) hg

theorem DkIndex_ge (d : Nat) (k : Int) (h : validDK d k) : (d : Int) ≤ DkIndex (d : Int) k := by
  have h' : -(d : Int) ≤ k ∧ k ≤ (d : Int) ∧ (k + d) % 2 = 0 := h
  have h2 := DkIndex_two_mul d k h'.2.2
  have hd0 : (0 : Int) ≤ (d : Int) := Int.natCast_nonneg d
  nlinarith [h'.1, h'.2.1]

theorem constructTail_eq (cap : Nat) (new : List Nat)
    (r : (Int × List Nat) ⊕ (Nat × Nat × Int × List Nat)) :
    (match r with
      | Sum.inl e => e
      | Sum.inr (lastOp, opCount, tokPos, buf) =>
        match flushStep cap new lastOp opCount tokPos buf with
        | Sum.inl e => e
        | Sum.inr buf2 => ((buf2.length : Int), buf2)) = walkOut cap new r := by
  cases r with
  | inl e => rfl
  | inr s =>
    obtain ⟨l, oc, tp, b⟩ := s
    rfl

theorem chain_in_pfx (old new : List Nat) (D : Nat) (k : Int) (hv : validDK D k)
    (js : Nat) (hkj : k = -(D : Int) + 2 * js) :
    ∀ c ∈ chainCells old new D k, rowPrefix D (js + 1) c.1 c.2 := by
  intro c hc
  cases D with
  | zero =>
    simp only [chainCells, List.mem_singleton] at hc
    subst hc
    exact Or.inr ⟨rfl, by omega⟩
  | succ D =>
    simp only [chainCells, List.mem_append, List.mem_singleton] at hc
    rcases hc with hc | hc
    · obtain ⟨_, hle⟩ := chainCells_facts old new D _ (mParentK_valid old new D k hv) c hc
      exact Or.inl (by omega)
    · subst hc
      exact Or.inr ⟨rfl, by omega⟩

/-- What `ComputeEditScript` computes, end to end: its result is the
sequential emission (through `AddEditScript`) of a semantically valid run
list for `old → new`, whose move count is the first goal wave `Ds`. -/
theorem ComputeEditScript_runs (old new : List Nat) (cap : Nat) :
    ∃ (rs : List (Nat × Nat × Int)) (Ds : Nat),
      ComputeEditScript old new cap = emitRuns cap new rs []
      ∧ RunsOKFrom old new rs 0 0
      ∧ movesOf rs = Ds
      ∧ (∃ kg, validDK Ds kg ∧ goalDK old new Ds kg)
      ∧ (∀ d k, validDK d k → d < Ds → ¬ goalDK old new d k) := by
  obtain ⟨Ds, js, V', hloop, hjs, hgoal, hmin, hfirst, hInv⟩ := searchLoop_spec old new
  have hvk : validDK Ds (-(Ds : Int) + 2 * js) := ⟨by omega, by omega, by omega⟩
  have hGood := chain_good old new Ds _ hvk hgoal hmin
  have hexact := chain_exact old new Ds _ hvk hgoal hmin
  have hV : ∀ c ∈ chainCells old new Ds (-(Ds : Int) + 2 * js),
      V' (DkIndex (c.1 : Int) c.2) = mEntry old new c.1 c.2 := by
    intro c hc
    obtain ⟨hcv, _⟩ := chainCells_facts old new Ds _ hvk c hc
    exact hInv.1 c.1 c.2 hcv (chain_in_pfx old new Ds _ hvk js rfl c hc)
  have hfuelr : Ds ≤ (DkIndex (Ds : Int) (-(Ds : Int) + 2 * js)).toNat + 1 := by
    have := DkIndex_ge Ds _ hvk
    omega
  obtain ⟨V2, hrev, hframe, hchain⟩ := reverseBackF_spec old new Ds (-(Ds : Int) + 2 * js)
    V' (-1) ((DkIndex (Ds : Int) (-(Ds : Int) + 2 * js)).toNat + 1) [] hvk hV
    (fun W _ => rfl) hfuelr
  rw [List.append_nil] at hchain
  have hcompute : ComputeEditScript old new cap
      = ConstructEditScript cap V' (DkIndex (Ds : Int) (-(Ds : Int) + 2 * js)) old new := by
    unfold ComputeEditScript
    rw [hloop]
  have hconstruct : ConstructEditScript cap V'
        (DkIndex (Ds : Int) (-(Ds : Int) + 2 * js)) old new
      = walkOut cap new (constructLoopF cap V2 new (constructFuel old new) 0 ((V2 0).Back)
          NoopOpcode 0 0 []) := by
    unfold ConstructEditScript
    rw [hrev]
    exact constructTail_eq cap new _
  have hsim := constructLoop_sim cap new V2 (constructFuel old new)
    (chainData old new Ds (-(Ds : Int) + 2 * js)) ((V2 0).Back) 0 NoopOpcode 0 0 [] hchain
  have hfuelw : old.length + 1 - 0
      + 2 * (chainData old new Ds (-(Ds : Int) + 2 * js)).length
      + (if (0 : Int) = 0 then 1 else 0) ≤ constructFuel old new := by
    rw [chainData_length, if_pos rfl]
    unfold constructFuel
    have := Ds_le_sum old new Ds hmin
    omega
  have hdiag := mEntry_zero_diag old new
  obtain ⟨rs, heq, hrok, hmv⟩ := walkF_runs cap old new (constructFuel old new)
    (chainData old new Ds (-(Ds : Int) + 2 * js)) 0 NoopOpcode 0 0 []
    (mEntry old new 0 0).SavedX.toNat (mEntry old new 0 0).SavedY.toNat 0 0 0 0
    (by
      have hC := chainData_ok old new Ds _ hvk hGood
      rw [show (mEntry old new Ds (-(Ds : Int) + 2 * js)).SavedX.toNat = old.length by
            have := hexact.1
            omega,
        show (mEntry old new Ds (-(Ds : Int) + 2 * js)).SavedY.toNat = new.length by
            have := hexact.2
            omega] at hC
      exact hC)
    (Or.inl ⟨rfl, rfl, rfl, rfl⟩)
    (Or.inr ⟨rfl, rfl, rfl, rfl, rfl⟩)
    (by omega) (by omega) (by omega)
    (fun t ht => by
      have h0 : 0 + t = t := by omega
      rw [h0]
      exact mEntry_zero_matches old new t (by omega))
    hfuelw
  refine ⟨rs, Ds, ?_, hrok, ?_, ⟨_, hvk, hgoal⟩, hmin⟩
  · rw [hcompute, hconstruct, hsim]
    exact heq
  · rw [hmv, chainData_length]
    simp

/-! ### Emitting a run list: space, success, overflow -/

/-- Exact script space of a run list: the sum of the per-run encodings. -/
def scriptSpace : List (Nat × Nat × Int) → Nat
  | [] => 0
  | (op, n, _) :: rest => opSpace op n + scriptSpace rest

/-- The bytes the successful emission of a run list appends. -/
def encCat (new : List Nat) : List (Nat × Nat × Int) → List Nat
  | [] => []
  | (op, n, tok) :: rest => encRun op (tokenSrc new tok) 0 n ++ encCat new rest

/-- Syntactic well-formedness of a run list. -/
def runsWF : List (Nat × Nat × Int) → Prop
  | [] => True
  | (op, n, _) :: rest =>
    (op = InsertOpcode ∨ op = DeleteOpcode ∨ op = KeepOpcode) ∧ 1 ≤ n ∧ runsWF rest

theorem runsWF_of_RunsOKFrom (old new : List Nat) : ∀ (rs : List (Nat × Nat × Int)) (oc nc : Nat),
    RunsOKFrom old new rs oc nc → runsWF rs := by
  intro rs
  induction rs with
  | nil => intro oc nc _; trivial
  | cons r rest ih =>
    obtain ⟨op, n, tok⟩ := r
    intro oc nc h
    rcases h with ⟨h1, h2, _, _, _, h6⟩ | ⟨h1, h2, _, h4⟩ | ⟨h1, h2, _, _, h5⟩
    · exact ⟨Or.inr (Or.inr h1), h2, ih _ _ h6⟩
    · exact ⟨Or.inr (Or.inl h1), h2, ih _ _ h4⟩
    · exact ⟨Or.inl h1, h2, ih _ _ h5⟩

theorem emitRuns_ok (cap : Nat) (new : List Nat) : ∀ (rs : List (Nat × Nat × Int))
    (buf : List Nat), runsWF rs → buf.length + scriptSpace rs ≤ cap →
    emitRuns cap new rs buf
      = (((buf.length + scriptSpace rs : Nat) : Int), buf ++ encCat new rs) := by
  intro rs
  induction rs with
  | nil =>
    intro buf _ _
    show ((buf.length : Int), buf) = _
    rw [show encCat new [] = [] from rfl]
    simp [scriptSpace]
  | cons r rest ih =>
    obtain ⟨op, n, tok⟩ := r
    intro buf hwf hcap
    obtain ⟨hop, hn, hwf2⟩ := hwf
    have hsp : scriptSpace ((op, n, tok) :: rest) = opSpace op n + scriptSpace rest := rfl
    rw [hsp] at hcap
    have hadd := AddEditScript_ok cap buf op n (tokenSrc new tok) hop (by omega)
    rw [emitRuns]
    rw [if_neg (by rw [hadd]; dsimp only; omega)]
    rw [hadd]
    dsimp only
    rw [ih (buf ++ encRun op (tokenSrc new tok) 0 n) hwf2
      (by rw [List.length_append, encRun_length]; omega)]
    rw [List.length_append, encRun_length, hsp,
      show encCat new ((op, n, tok) :: rest)
        = encRun op (tokenSrc new tok) 0 n ++ encCat new rest from rfl,
      List.append_assoc, Nat.add_assoc]

theorem emitRuns_overflow (cap : Nat) (new : List Nat) : ∀ (rs : List (Nat × Nat × Int))
    (buf : List Nat), runsWF rs → buf.length ≤ cap → cap < buf.length + scriptSpace rs →
    (emitRuns cap new rs buf).1 = -1 := by
  intro rs
  induction rs with
  | nil =>
    intro buf _ hbuf hcap
    exfalso
    have : scriptSpace [] = 0 := rfl
    omega
  | cons r rest ih =>
    obtain ⟨op, n, tok⟩ := r
    intro buf hwf hbuf hcap
    obtain ⟨hop, hn, hwf2⟩ := hwf
    have hsp : scriptSpace ((op, n, tok) :: rest) = opSpace op n + scriptSpace rest := rfl
    rw [hsp] at hcap
    by_cases hfit : buf.length + opSpace op n ≤ cap
    · have hadd := AddEditScript_ok cap buf op n (tokenSrc new tok) hop hfit
      rw [emitRuns]
      rw [if_neg (by rw [hadd]; dsimp only; omega)]
      rw [hadd]
      dsimp only
      exact ih (buf ++ encRun op (tokenSrc new tok) 0 n) hwf2
        (by rw [List.length_append, encRun_length]; omega)
        (by rw [List.length_append, encRun_length]; omega)
    · have hadd := AddEditScript_overflow cap buf op n (tokenSrc new tok) hop hbuf (by omega)
      rw [emitRuns]
      rw [if_pos (by omega)]
      exact hadd

/-- Emission never writes past the capacity. -/
theorem emitRuns_len (cap : Nat) (new : List Nat) : ∀ (rs : List (Nat × Nat × Int))
    (buf : List Nat), buf.length ≤ cap → (emitRuns cap new rs buf).2.length ≤ cap := by
  intro rs
  induction rs with
  | nil => intro buf hbuf; exact hbuf
  | cons r rest ih =>
    obtain ⟨op, n, tok⟩ := r
    intro buf hbuf
    rw [emitRuns]
    by_cases he : (AddEditScript cap buf op n (tokenSrc new tok)).1 < 0
    · rw [if_pos he]
      exact AddEditScript_len cap buf op n (tokenSrc new tok) hbuf
    · rw [if_neg he]
      exact ih _ (AddEditScript_len cap buf op n (tokenSrc new tok) hbuf)

/-- The result of emission is an error `-1` or a non-negative length; `-3`
never escapes, because the walk only hands valid opcode kinds to the
encoder. -/
theorem emitRuns_cases (cap : Nat) (new : List Nat) : ∀ (rs : List (Nat × Nat × Int))
    (buf : List Nat), runsWF rs → buf.length ≤ cap →
    (emitRuns cap new rs buf).1 = -1 ∨ 0 ≤ (emitRuns cap new rs buf).1 := by
  intro rs
  induction rs with
  | nil =>
    intro buf _ _
    right
    show (0 : Int) ≤ (buf.length : Int)
    omega
  | cons r rest ih =>
    obtain ⟨op, n, tok⟩ := r
    intro buf hwf hbuf
    obtain ⟨hop, hn, hwf2⟩ := hwf
    rw [emitRuns]
    by_cases he : (AddEditScript cap buf op n (tokenSrc new tok)).1 < 0
    · rw [if_pos he]
      left
      by_cases hfit : buf.length + opSpace op n ≤ cap
      · exfalso
        rw [AddEditScript_ok cap buf op n (tokenSrc new tok) hop hfit] at he
        dsimp only at he
        omega
      · exact AddEditScript_overflow cap buf op n (tokenSrc new tok) hop hbuf (by omega)
    · rw [if_neg he]
      exact ih _ hwf2 (AddEditScript_len cap buf op n (tokenSrc new tok) hbuf)

/-! ### From runs to the decoded chunk stream -/

theorem readBytes_drop_shift (l : List Nat) (m i c : Nat) :
    readBytes (l.drop m) i c = readBytes l (m + i) c := by
  unfold readBytes
  refine List.map_congr_left ?_
  intro j _
  rw [getD_drop, Nat.add_assoc]

/-- Chunk-level semantic validity of a decoded operation stream against
cursors into `old`/`new` (like `RunsOKFrom`, but without the `1..64`
grouping and with explicit payloads). -/
def OpsOK (old new : List Nat) : List (Nat × Nat × List Nat) → Nat → Nat → Prop
  | [], oc, nc => oc ≤ old.length ∧ nc ≤ new.length ∧ old.drop oc = new.drop nc
  | (op, n, pay) :: rest, oc, nc =>
    (op = KeepOpcode ∧ oc + n ≤ old.length ∧ nc + n ≤ new.length
        ∧ (∀ t, t < n → old.getD (oc + t) 0 = new.getD (nc + t) 0)
        ∧ OpsOK old new rest (oc + n) (nc + n))
    ∨ (op = DeleteOpcode ∧ oc + n ≤ old.length ∧ OpsOK old new rest (oc + n) nc)
    ∨ (op = InsertOpcode ∧ nc + n ≤ new.length ∧ pay = readBytes new nc n
        ∧ OpsOK old new rest oc (nc + n))

theorem OpsOK_runOps_keep (old new src : List Nat) : ∀ (fuel : Nat)
    (off n oc nc : Nat) (rest : List (Nat × Nat × List Nat)),
    n ≤ 64 * fuel + 64 →
    oc + n ≤ old.length → nc + n ≤ new.length →
    (∀ t, t < n → old.getD (oc + t) 0 = new.getD (nc + t) 0) →
    OpsOK old new rest (oc + n) (nc + n) →
    OpsOK old new (runOpsF KeepOpcode src fuel off n ++ rest) oc nc := by
  intro fuel
  induction fuel with
  | zero =>
    intro off n oc nc rest hfuel hoc hnc hm hrest
    rw [runOpsF]
    by_cases hn : n = 0
    · rw [if_pos hn]
      subst hn
      simpa using hrest
    · rw [if_neg hn]
      exact Or.inl ⟨rfl, hoc, hnc, hm, hrest⟩
  | succ fuel ih =>
    intro off n oc nc rest hfuel hoc hnc hm hrest
    rw [runOpsF]
    by_cases hbig : 64 < n
    · rw [if_pos hbig]
      refine Or.inl ⟨rfl, by omega, by omega, fun t ht => hm t (by omega), ?_⟩
      refine ih (off + 64) (n - 64) (oc + 64) (nc + 64) rest (by omega) (by omega) (by omega)
        ?_ ?_
      · intro t ht
        have h := hm (64 + t) (by omega)
        rw [show oc + 64 + t = oc + (64 + t) by omega, show nc + 64 + t = nc + (64 + t) by omega]
        exact h
      · rw [show oc + 64 + (n - 64) = oc + n by omega, show nc + 64 + (n - 64) = nc + n by omega]
        exact hrest
    · rw [if_neg hbig]
      by_cases hn : n = 0
      · rw [if_pos hn]
        subst hn
        simpa using hrest
      · rw [if_neg hn]
        exact Or.inl ⟨rfl, hoc, hnc, hm, hrest⟩

theorem OpsOK_runOps_del (old new src : List Nat) : ∀ (fuel : Nat)
    (off n oc nc : Nat) (rest : List (Nat × Nat × List Nat)),
    n ≤ 64 * fuel + 64 →
    oc + n ≤ old.length →
    OpsOK old new rest (oc + n) nc →
    OpsOK old new (runOpsF DeleteOpcode src fuel off n ++ rest) oc nc := by
  intro fuel
  induction fuel with
  | zero =>
    intro off n oc nc rest hfuel hoc hrest
    rw [runOpsF]
    by_cases hn : n = 0
    · rw [if_pos hn]
      subst hn
      simpa using hrest
    · rw [if_neg hn]
      exact Or.inr (Or.inl ⟨rfl, hoc, hrest⟩)
  | succ fuel ih =>
    intro off n oc nc rest hfuel hoc hrest
    rw [runOpsF]
    by_cases hbig : 64 < n
    · rw [if_pos hbig]
      refine Or.inr (Or.inl ⟨rfl, by omega, ?_⟩)
      refine ih (off + 64) (n - 64) (oc + 64) nc rest (by omega) (by omega) ?_
      rw [show oc + 64 + (n - 64) = oc + n by omega]
      exact hrest
    · rw [if_neg hbig]
      by_cases hn : n = 0
      · rw [if_pos hn]
        subst hn
        simpa using hrest
      · rw [if_neg hn]
        exact Or.inr (Or.inl ⟨rfl, hoc, hrest⟩)

theorem OpsOK_runOps_ins (old new : List Nat) : ∀ (fuel : Nat)
    (off n oc nc nc0 : Nat) (rest : List (Nat × Nat × List Nat)),
    n ≤ 64 * fuel + 64 → nc = nc0 + off → nc + n ≤ new.length →
    OpsOK old new rest oc (nc + n) →
    OpsOK old new (runOpsF InsertOpcode (new.drop nc0) fuel off n ++ rest) oc nc := by
  intro fuel
  induction fuel with
  | zero =>
    intro off n oc nc nc0 rest hfuel hnc hle hrest
    rw [runOpsF]
    by_cases hn : n = 0
    · rw [if_pos hn]
      subst hn
      simpa using hrest
    · rw [if_neg hn, if_pos rfl]
      refine Or.inr (Or.inr ⟨rfl, hle, ?_, hrest⟩)
      rw [readBytes_drop_shift, ← hnc]
  | succ fuel ih =>
    intro off n oc nc nc0 rest hfuel hnc hle hrest
    rw [runOpsF]
    by_cases hbig : 64 < n
    · rw [if_pos hbig, if_pos rfl]
      refine Or.inr (Or.inr ⟨rfl, by omega, ?_, ?_⟩)
      · rw [readBytes_drop_shift, ← hnc]
      · refine ih (off + 64) (n - 64) oc (nc + 64) nc0 rest (by omega) (by omega) (by omega) ?_
        rw [show nc + 64 + (n - 64) = nc + n by omega]
        exact hrest
    · rw [if_neg hbig]
      by_cases hn : n = 0
      · rw [if_pos hn]
        subst hn
        simpa using hrest
      · rw [if_neg hn, if_pos rfl]
        refine Or.inr (Or.inr ⟨rfl, hle, ?_, hrest⟩)
        rw [readBytes_drop_shift, ← hnc]

/-- A semantically valid run list decodes (through encoding) to a
semantically valid chunk stream. -/
theorem OpsOK_of_runs (old new : List Nat) : ∀ (rs : List (Nat × Nat × Int)) (oc nc : Nat),
    RunsOKFrom old new rs oc nc → OpsOK old new (decodeOps (encCat new rs)) oc nc := by
  intro rs
  induction rs with
  | nil =>
    intro oc nc h
    show OpsOK old new (decodeOps (encCat new [])) oc nc
    rw [show encCat new [] = [] from rfl, decodeOps_nil]
    exact h
  | cons r rest ih =>
    obtain ⟨op, n, tok⟩ := r
    intro oc nc h
    show OpsOK old new (decodeOps (encCat new ((op, n, tok) :: rest))) oc nc
    rw [show encCat new ((op, n, tok) :: rest)
        = encRun op (tokenSrc new tok) 0 n ++ encCat new rest from rfl]
    rcases h with ⟨h1, h2, h3, h4, h5, h6⟩ | ⟨h1, h2, h3, h4⟩ | ⟨h1, h2, h3, h4, h5⟩
    · subst h1
      rw [decodeOps_encRun KeepOpcode (tokenSrc new tok) (Or.inr (Or.inr rfl)) 0 n]
      exact OpsOK_runOps_keep old new (tokenSrc new tok) n 0 n oc nc _ (by omega) h3 h4 h5
        (ih _ _ h6)
    · subst h1
      rw [decodeOps_encRun DeleteOpcode (tokenSrc new tok) (Or.inr (Or.inl rfl)) 0 n]
      exact OpsOK_runOps_del old new (tokenSrc new tok) n 0 n oc nc _ (by omega) h3 (ih _ _ h4)
    · subst h1
      rw [decodeOps_encRun InsertOpcode (tokenSrc new tok) (Or.inl rfl) 0 n]
      have htok : tokenSrc new tok = new.drop nc := by
        rw [h4]
        unfold tokenSrc
        rw [show ((nc : Int)).toNat = nc by omega]
      rw [htok]
      exact OpsOK_runOps_ins old new n 0 n oc nc nc _ (by omega) (by omega) h3 (ih _ _ h5)

/-! ### Replaying a valid chunk stream -/

theorem readBytes_eq_take_drop (l : List Nat) (i n : Nat) (h : i + n ≤ l.length) :
    readBytes l i n = (l.drop i).take n := by
  apply List.ext_getElem
  · rw [readBytes_length, List.length_take, List.length_drop]
    omega
  · intro t h1 h2
    rw [readBytes_length] at h1
    rw [List.getElem_take, List.getElem_drop]
    unfold readBytes
    rw [List.getElem_map, List.getElem_range]
    exact List.getD_eq_getElem l 0 (by omega)

theorem take_region (l : List Nat) (nc n : Nat) (h : nc + n ≤ l.length) :
    l.take (nc + n) = l.take nc ++ readBytes l nc n := by
  rw [readBytes_eq_take_drop l nc n h, List.take_add]

theorem readBytes_congr (old new : List Nat) (oc nc n : Nat)
    (hm : ∀ t, t < n → old.getD (oc + t) 0 = new.getD (nc + t) 0) :
    readBytes old oc n = readBytes new nc n := by
  unfold readBytes
  refine List.map_congr_left ?_
  intro j hj
  exact hm j (List.mem_range.mp hj)

/-- Replaying a valid chunk stream: every bounds check is at most `|New|`,
and the loop ends at cursors with matching unconsumed tails, the output
being the corresponding prefix of `New`. -/
theorem loopSim_OpsOK (old new : List Nat) : ∀ (ops : List (Nat × Nat × List Nat)) (oc nc : Nat),
    OpsOK old new ops oc nc →
    (∀ v ∈ (loopSim old ops oc (new.take nc)).1, v ≤ new.length)
    ∧ ∃ ocF ncF, (loopSim old ops oc (new.take nc)).2 = (ocF, new.take ncF)
        ∧ ocF ≤ old.length ∧ ncF ≤ new.length ∧ old.drop ocF = new.drop ncF := by
  intro ops
  induction ops with
  | nil =>
    intro oc nc h
    obtain ⟨h1, h2, h3⟩ := h
    constructor
    · intro v hv
      exact absurd hv (by simp [loopSim])
    · exact ⟨oc, nc, rfl, h1, h2, h3⟩
  | cons x rest ih =>
    obtain ⟨op, n, pay⟩ := x
    intro oc nc h
    rcases h with ⟨h1, h2, h3, h4, h5⟩ | ⟨h1, h2, h3⟩ | ⟨h1, h2, h3, h4⟩
    · subst h1
      have hlen : (new.take nc).length = nc := by
        rw [List.length_take]
        omega
      have hout : new.take nc ++ readBytes old oc n = new.take (nc + n) := by
        rw [take_region new nc n h3, readBytes_congr old new oc nc n h4]
      have hrec := ih (oc + n) (nc + n) h5
      simp only [loopSim]
      rw [hout]
      constructor
      · intro v hv
        rcases List.mem_cons.mp hv with hv | hv
        · rw [hlen] at hv
          omega
        · exact hrec.1 v hv
      · exact hrec.2
    · subst h1
      simp only [loopSim]
      exact ih (oc + n) nc h3
    · subst h1
      have hlen : (new.take nc).length = nc := by
        rw [List.length_take]
        omega
      have hout : new.take nc ++ pay = new.take (nc + n) := by
        rw [h3, take_region new nc n h2]
      have hrec := ih oc (nc + n) h4
      simp only [loopSim]
      rw [hout]
      constructor
      · intro v hv
        rcases List.mem_cons.mp hv with hv | hv
        · rw [hlen] at hv
          omega
        · exact hrec.1 v hv
      · exact hrec.2

/-- Applying the encoding of a semantically valid run list reconstructs
`New` exactly, given one byte of headroom. -/
theorem apply_runs (old new : List Nat) (rs : List (Nat × Nat × Int))
    (h : RunsOKFrom old new rs 0 0) (cap2 : Nat) (hcap : new.length < cap2) :
    ApplyEditScript old (encCat new rs) cap2 = ((new.length : Int), new) := by
  have hops := OpsOK_of_runs old new rs 0 0 h
  have hsim := loopSim_OpsOK old new (decodeOps (encCat new rs)) 0 0 hops
  rw [show new.take 0 = [] from rfl] at hsim
  obtain ⟨hchecks, ocF, ncF, hfin, hocF, hncF, hdrop⟩ := hsim
  have hlens : old.length - ocF = new.length - ncF := by
    have := congrArg List.length hdrop
    rw [List.length_drop, List.length_drop] at this
    omega
  have htail : ocF < old.length →
      readBytes old ocF (old.length - ocF) = new.drop ncF := by
    intro hlt
    rw [readBytes_eq_take_drop old ocF (old.length - ocF) (by omega), hdrop, hlens]
    rw [show new.length - ncF = (new.drop ncF).length by rw [List.length_drop]]
    exact List.take_length _
  have hAout : applyOut old (encCat new rs) = new := by
    unfold applyOut
    rw [hfin]
    by_cases hlt : ocF < old.length
    · rw [if_pos hlt, htail hlt]
      exact List.take_append_drop ncF new
    · rw [if_neg hlt]
      have hoce : ocF = old.length := by omega
      have hdnil : new.drop ncF = [] := by
        rw [← hdrop, hoce, List.drop_length]
      have hnce : new.length ≤ ncF := by
        have := congrArg List.length hdnil
        rw [List.length_drop] at this
        simp at this
        omega
      rw [List.append_nil]
      have : ncF = new.length := by omega
      rw [this]
      exact List.take_length new
  have hAchecks : ∀ v ∈ applyChecks old (encCat new rs), v ≤ new.length := by
    intro v hv
    unfold applyChecks at hv
    rw [hfin] at hv
    rcases List.mem_append.mp hv with hv | hv
    · exact hchecks v hv
    · by_cases hlt : ocF < old.length
      · rw [if_pos hlt, List.mem_singleton] at hv
        subst hv
        rw [List.length_take]
        omega
      · rw [if_neg hlt] at hv
        exact absurd hv (by simp)
  rw [ApplyEditScript_eq]
  rw [if_neg (by
    rw [List.any_eq_true]
    rintro ⟨v, hv, hle⟩
    have := hAchecks v hv
    rw [decide_eq_true_iff] at hle
    omega)]
  rw [hAout]

/-! ### Size accounting for run lists -/

/-- Total count carried by `Keep` and `Delete` runs (the `Old` bytes consumed). -/
def kdSum : List (Nat × Nat × Int) → Nat
  | [] => 0
  | (op, n, _) :: rest => (if op = KeepOpcode ∨ op = DeleteOpcode then n else 0) + kdSum rest

/-- Total count carried by `Insert` runs (the `New` bytes inserted). -/
def insSum : List (Nat × Nat × Int) → Nat
  | [] => 0
  | (op, n, _) :: rest => (if op = InsertOpcode then n else 0) + insSum rest

theorem RunsOKFrom_sums (old new : List Nat) : ∀ (rs : List (Nat × Nat × Int)) (oc nc : Nat),
    RunsOKFrom old new rs oc nc →
    oc + kdSum rs ≤ old.length ∧ nc + insSum rs ≤ new.length := by
  intro rs
  induction rs with
  | nil =>
    intro oc nc h
    obtain ⟨h1, h2, _⟩ := h
    simp only [kdSum, insSum]
    omega
  | cons r rest ih =>
    obtain ⟨op, n, tok⟩ := r
    intro oc nc h
    rcases h with ⟨h1, h2, h3, h4, h5, h6⟩ | ⟨h1, h2, h3, h4⟩ | ⟨h1, h2, h3, h4, h5⟩
    · subst h1
      have := ih (oc + n) (nc + n) h6
      simp only [kdSum, insSum]
      rw [if_pos (Or.inl trivial), if_neg (show ¬(KeepOpcode = InsertOpcode) by decide)]
      omega
    · subst h1
      have := ih (oc + n) nc h4
      simp only [kdSum, insSum]
      rw [if_pos (Or.inr trivial), if_neg (show ¬(DeleteOpcode = InsertOpcode) by decide)]
      omega
    · subst h1
      have := ih oc (nc + n) h5
      simp only [kdSum, insSum]
      rw [if_neg (show ¬(InsertOpcode = KeepOpcode ∨ InsertOpcode = DeleteOpcode) by decide),
        if_pos trivial]
      omega

theorem scriptSpace_le_sums : ∀ (rs : List (Nat × Nat × Int)), runsWF rs →
    scriptSpace rs ≤ kdSum rs + 2 * insSum rs := by
  intro rs
  induction rs with
  | nil => intro _; simp [scriptSpace, kdSum, insSum]
  | cons r rest ih =>
    obtain ⟨op, n, tok⟩ := r
    intro h
    obtain ⟨hop, hn, hrest⟩ := h
    have hr := ih hrest
    simp only [scriptSpace, kdSum, insSum]
    rcases hop with hop | hop | hop
    · subst hop
      rw [opSpace, if_pos rfl,
        if_neg (show ¬(InsertOpcode = KeepOpcode ∨ InsertOpcode = DeleteOpcode) by decide),
        if_pos rfl]
      omega
    · subst hop
      rw [opSpace, if_neg (show ¬(DeleteOpcode = InsertOpcode) by decide),
        if_pos (Or.inr rfl), if_neg (show ¬(DeleteOpcode = InsertOpcode) by decide)]
      omega
    · subst hop
      rw [opSpace, if_neg (show ¬(KeepOpcode = InsertOpcode) by decide),
        if_pos (Or.inl rfl), if_neg (show ¬(KeepOpcode = InsertOpcode) by decide)]
      omega

/-- With an empty `Old`, every valid run is an `Insert`, so the script needs
at least `R + ceil(R/64)` bytes for the `R` bytes of `New` still to insert. -/
theorem allIns_space (new : List Nat) : ∀ (rs : List (Nat × Nat × Int)) (nc : Nat),
    RunsOKFrom [] new rs 0 nc →
    (new.length - nc) + ((new.length - nc) + 63) / 64 ≤ scriptSpace rs := by
  intro rs
  induction rs with
  | nil =>
    intro nc h
    obtain ⟨_, h2, h3⟩ := h
    have : new.drop nc = [] := h3.symm
    have hlen := congrArg List.length this
    rw [List.length_drop] at hlen
    simp only [List.length_nil] at hlen
    simp only [scriptSpace]
    omega
  | cons r rest ih =>
    obtain ⟨op, n, tok⟩ := r
    intro nc h
    rcases h with ⟨_, h2, h3, _⟩ | ⟨_, h2, h3, _⟩ | ⟨h1, h2, h3, h4, h5⟩
    · exfalso
      simp only [List.length_nil] at h3
      omega
    · exfalso
      simp only [List.length_nil] at h3
      omega
    · subst h1
      have hr := ih (nc + n) h5
      simp only [scriptSpace]
      rw [opSpace, if_pos rfl]
      omega

/-! ## Round trip, buffer sufficiency and internal errors -/

/-- C1 (amended): for all byte sequences `A` and `B`, given a script buffer of
capacity at least `|A| + 2|B| + 2` and an output buffer of capacity at least
`|B| + 1`, `ComputeEditScript` succeeds and `ApplyEditScript` of its script
returns `|B|` with the bytes written equal to `B` exactly. -/
theorem C1_roundtrip (old new : List Nat) (cap cap2 : Nat)
    (hcap : old.length + 2 * new.length + 2 ≤ cap) (hcap2 : new.length < cap2) :
    0 ≤ (ComputeEditScript old new cap).1 ∧
    ApplyEditScript old (ComputeEditScript old new cap).2 cap2
      = ((new.length : Int), new) := by
  obtain ⟨rs, Ds, heq, hok, _⟩ := ComputeEditScript_runs old new cap
  have hwf := runsWF_of_RunsOKFrom old new rs 0 0 hok
  have hsums := RunsOKFrom_sums old new rs 0 0 hok
  have hsp := scriptSpace_le_sums rs hwf
  have hcapok : ([] : List Nat).length + scriptSpace rs ≤ cap := by
    simp only [List.length_nil]
    omega
  rw [heq, emitRuns_ok cap new rs [] hwf hcapok]
  refine ⟨Int.natCast_nonneg _, ?_⟩
  show ApplyEditScript old ([] ++ encCat new rs) cap2 = _
  rw [List.nil_append]
  exact apply_runs old new rs hok cap2 hcap2

theorem C1_roundtrip_witness :
    0 ≤ (ComputeEditScript [97] [98, 99] 10).1 ∧
    ApplyEditScript [97] (ComputeEditScript [97] [98, 99] 10).2 3
      = ((([98, 99] : List Nat).length : Int), [98, 99]) :=
  C1_roundtrip [97] [98, 99] 10 3 (by decide) (by decide)

/-- C1 counterexample to the stated script capacity: with `A` empty and `B`
129 identical bytes, the claimed capacity `|A| + |B| + 2 = 131` makes
`ComputeEditScript` fail with `-1` (the script needs `129 + 3 = 132` bytes),
so no round trip is possible at that size. -/
theorem C1_cap_counterexample :
    (ComputeEditScript [] (List.replicate 129 0) 131).1 = -1
    ∧ ([] : List Nat).length + (List.replicate 129 (0 : Nat)).length + 2 = 131 := by
  refine ⟨?_, by simp⟩
  obtain ⟨rs, Ds, heq, hok, _⟩ := ComputeEditScript_runs [] (List.replicate 129 0) 131
  have hwf := runsWF_of_RunsOKFrom _ _ rs 0 0 hok
  have hsp := allIns_space (List.replicate 129 0) rs 0 hok
  rw [List.length_replicate] at hsp
  have hover : (131 : Nat) < ([] : List Nat).length + scriptSpace rs := by
    simp only [List.length_nil]
    omega
  rw [heq]
  exact emitRuns_overflow 131 _ rs [] hwf (by simp) hover

/-- C7 (amended): `ComputeEditScript`'s emitted run list fits in
`|A| + 2|B|` bytes, so a script buffer of capacity `|A| + 2|B| + 2` always
suffices; on success the returned length is exactly the script's space
`scriptSpace rs`, any capacity below that true length returns `-1`, and in
every case the bytes kept never exceed the buffer's capacity (no
out-of-bounds write). -/
theorem C7_buffer_safety (old new : List Nat) (cap : Nat) :
    ∃ rs, RunsOKFrom old new rs 0 0
      ∧ ComputeEditScript old new cap = emitRuns cap new rs []
      ∧ scriptSpace rs ≤ old.length + 2 * new.length
      ∧ (scriptSpace rs ≤ cap →
          (ComputeEditScript old new cap).1 = ((scriptSpace rs : Nat) : Int))
      ∧ (cap < scriptSpace rs → (ComputeEditScript old new cap).1 = -1)
      ∧ (ComputeEditScript old new cap).2.length ≤ cap := by
  obtain ⟨rs, Ds, heq, hok, _⟩ := ComputeEditScript_runs old new cap
  have hwf := runsWF_of_RunsOKFrom old new rs 0 0 hok
  have hsums := RunsOKFrom_sums old new rs 0 0 hok
  have hsp := scriptSpace_le_sums rs hwf
  refine ⟨rs, hok, heq, by omega, ?_, ?_, ?_⟩
  · intro hle
    rw [heq, emitRuns_ok cap new rs [] hwf (by simp only [List.length_nil]; omega)]
    simp
  · intro hlt
    rw [heq]
    exact emitRuns_overflow cap new rs [] hwf (by simp) (by simp only [List.length_nil]; omega)
  · rw [heq]
    exact emitRuns_len cap new rs [] (by simp)

theorem C7_buffer_safety_witness :
    ∃ rs, RunsOKFrom [97] [98] rs 0 0
      ∧ ComputeEditScript [97] [98] 5 = emitRuns 5 [98] rs []
      ∧ scriptSpace rs ≤ ([97] : List Nat).length + 2 * ([98] : List Nat).length
      ∧ (scriptSpace rs ≤ 5 →
          (ComputeEditScript [97] [98] 5).1 = ((scriptSpace rs : Nat) : Int))
      ∧ (5 < scriptSpace rs → (ComputeEditScript [97] [98] 5).1 = -1)
      ∧ (ComputeEditScript [97] [98] 5).2.length ≤ 5 :=
  C7_buffer_safety [97] [98] 5

/-- C7 counterexample to the stated sufficiency bound: at `A` empty and `B`
129 identical bytes, a script buffer of the claimed sufficient capacity
`|A| + |B| + 2 = 131` is rejected with `-1` (the write stays in bounds, but
the script truly needs 132 bytes). -/
theorem C7_cap_counterexample :
    (ComputeEditScript [] (List.replicate 129 0) 131).1 = -1
    ∧ (ComputeEditScript [] (List.replicate 129 0) 131).2.length ≤ 131 := by
  obtain ⟨rs, Ds, heq, hok, _⟩ := ComputeEditScript_runs [] (List.replicate 129 0) 131
  have hwf := runsWF_of_RunsOKFrom _ _ rs 0 0 hok
  have hsp := allIns_space (List.replicate 129 0) rs 0 hok
  rw [List.length_replicate] at hsp
  constructor
  · rw [heq]
    exact emitRuns_overflow 131 _ rs [] hwf (by simp)
      (by simp only [List.length_nil]; omega)
  · rw [heq]
    exact emitRuns_len 131 _ rs [] (by simp)

/-- C8: `ComputeEditScript` never returns `-3`: the search always reaches the
goal within the iterated range (so the reversal starts from a real endpoint)
and the builder only ever hands `Insert`, `Delete` or `Keep` to the encoder,
so the only results are a non-negative length or the overflow code `-1`. -/
theorem C8_no_internal_error (old new : List Nat) (cap : Nat) :
    (ComputeEditScript old new cap).1 ≠ -3
    ∧ ((ComputeEditScript old new cap).1 = -1 ∨ 0 ≤ (ComputeEditScript old new cap).1) := by
  obtain ⟨rs, Ds, heq, hok, _⟩ := ComputeEditScript_runs old new cap
  have hc : (ComputeEditScript old new cap).1 = -1 ∨ 0 ≤ (ComputeEditScript old new cap).1 := by
    rw [heq]
    exact emitRuns_cases cap new rs [] (runsWF_of_RunsOKFrom old new rs 0 0 hok) (by simp)
  refine ⟨?_, hc⟩
  rcases hc with hc | hc <;> omega

/-! ### Counting and payloads of decoded scripts -/

/-- Total `Keep` plus `Delete` count over a decoded opcode stream (the `Old`
bytes its replay consumes). -/
def kdCountOps : List (Nat × Nat × List Nat) → Nat
  | [] => 0
  | (op, n, _) :: rest =>
    (if op = KeepOpcode ∨ op = DeleteOpcode then n else 0) + kdCountOps rest

/-- Total `Insert` plus `Delete` count over a decoded opcode stream (its
non-diagonal moves). -/
def idCountOps : List (Nat × Nat × List Nat) → Nat
  | [] => 0
  | (op, n, _) :: rest =>
    (if op = DeleteOpcode ∨ op = InsertOpcode then n else 0) + idCountOps rest

/-- The payload bytes of the `Insert` opcodes of a decoded stream,
concatenated in emission order. -/
def insPayload : List (Nat × Nat × List Nat) → List Nat
  | [] => []
  | (op, _, pay) :: rest => (if op = InsertOpcode then pay else []) ++ insPayload rest

theorem kdCountOps_append (a b : List (Nat × Nat × List Nat)) :
    kdCountOps (a ++ b) = kdCountOps a + kdCountOps b := by
  induction a with
  | nil => simp [kdCountOps]
  | cons x rest ih =>
    obtain ⟨op, n, pay⟩ := x
    show kdCountOps ((op, n, pay) :: (rest ++ b)) = _
    simp only [kdCountOps]
    rw [ih]
    omega

theorem idCountOps_append (a b : List (Nat × Nat × List Nat)) :
    idCountOps (a ++ b) = idCountOps a + idCountOps b := by
  induction a with
  | nil => simp [idCountOps]
  | cons x rest ih =>
    obtain ⟨op, n, pay⟩ := x
    show idCountOps ((op, n, pay) :: (rest ++ b)) = _
    simp only [idCountOps]
    rw [ih]
    omega

theorem kdCountOps_const (op : Nat) : ∀ (l : List (Nat × Nat × List Nat)),
    (∀ x ∈ l, x.1 = op) →
    kdCountOps l = if op = KeepOpcode ∨ op = DeleteOpcode
      then (l.map (fun x => x.2.1)).sum else 0 := by
  intro l
  induction l with
  | nil => intro _; simp [kdCountOps]
  | cons x rest ih =>
    intro h
    obtain ⟨o, n, pay⟩ := x
    have hx : o = op := h (o, n, pay) (List.mem_cons_self _ _)
    have hr := ih (fun y hy => h y (List.mem_cons_of_mem _ hy))
    subst hx
    simp only [kdCountOps, hr, List.map_cons, List.sum_cons]
    by_cases hc : o = KeepOpcode ∨ o = DeleteOpcode
    · rw [if_pos hc, if_pos hc, if_pos hc]
    · rw [if_neg hc, if_neg hc, if_neg hc]

theorem idCountOps_const (op : Nat) : ∀ (l : List (Nat × Nat × List Nat)),
    (∀ x ∈ l, x.1 = op) →
    idCountOps l = if op = DeleteOpcode ∨ op = InsertOpcode
      then (l.map (fun x => x.2.1)).sum else 0 := by
  intro l
  induction l with
  | nil => intro _; simp [idCountOps]
  | cons x rest ih =>
    intro h
    obtain ⟨o, n, pay⟩ := x
    have hx : o = op := h (o, n, pay) (List.mem_cons_self _ _)
    have hr := ih (fun y hy => h y (List.mem_cons_of_mem _ hy))
    subst hx
    simp only [idCountOps, hr, List.map_cons, List.sum_cons]
    by_cases hc : o = DeleteOpcode ∨ o = InsertOpcode
    · rw [if_pos hc, if_pos hc, if_pos hc]
    · rw [if_neg hc, if_neg hc, if_neg hc]

/-- Decoding the emitted script splits counts run by run: the `Keep`+`Delete`
total matches `kdSum` and the `Insert`+`Delete` total matches `movesOf`. -/
theorem decode_counts (new : List Nat) : ∀ (rs : List (Nat × Nat × Int)), runsWF rs →
    kdCountOps (decodeOps (encCat new rs)) = kdSum rs
    ∧ idCountOps (decodeOps (encCat new rs)) = movesOf rs := by
  intro rs
  induction rs with
  | nil => intro _; exact ⟨rfl, rfl⟩
  | cons r rest ih =>
    obtain ⟨op, n, tok⟩ := r
    intro hwf
    obtain ⟨hop, hn, hrest⟩ := hwf
    obtain ⟨ih1, ih2⟩ := ih hrest
    have hdec : decodeOps (encCat new ((op, n, tok) :: rest))
        = runOps op (tokenSrc new tok) 0 n ++ decodeOps (encCat new rest) := by
      show decodeOps (encRun op (tokenSrc new tok) 0 n ++ encCat new rest) = _
      exact decodeOps_encRun op _ hop 0 n _
    have hfacts := runOpsF_facts op (tokenSrc new tok) n 0 n (by omega)
    have hall : ∀ x ∈ runOps op (tokenSrc new tok) 0 n, x.1 = op :=
      fun x hx => (hfacts.2.2 x hx).1
    have hsum : ((runOps op (tokenSrc new tok) 0 n).map (fun x => x.2.1)).sum = n :=
      hfacts.2.1
    rw [hdec, kdCountOps_append, idCountOps_append, ih1, ih2,
      kdCountOps_const op _ hall, idCountOps_const op _ hall, hsum]
    simp [kdSum, movesOf]

/-- The concatenated `Insert` payloads of a valid opcode stream form a
subsequence (in order) of the unread part of `New`. -/
theorem insPayload_sublist (old new : List Nat) : ∀ (ops : List (Nat × Nat × List Nat))
    (oc nc : Nat), OpsOK old new ops oc nc →
    (insPayload ops).Sublist (new.drop nc) := by
  intro ops
  induction ops with
  | nil => intro oc nc _; exact List.nil_sublist _
  | cons x rest ih =>
    obtain ⟨op, n, pay⟩ := x
    intro oc nc h
    rcases h with ⟨h1, h2, h3, h4, h5⟩ | ⟨h1, h2, h3⟩ | ⟨h1, h2, h3, h4⟩
    · subst h1
      have hr := ih (oc + n) (nc + n) h5
      have hdd : new.drop (nc + n) = (new.drop nc).drop n := by
        rw [List.drop_drop, Nat.add_comm]
      rw [hdd] at hr
      simp only [insPayload, List.nil_append]
      exact hr.trans (List.drop_sublist _ _)
    · subst h1
      have hr := ih (oc + n) nc h3
      simp only [insPayload, List.nil_append]
      exact hr
    · subst h1
      have hr := ih oc (nc + n) h4
      have hsplit : new.drop nc = readBytes new nc n ++ new.drop (nc + n) := by
        rw [readBytes_eq_take_drop new nc n h2,
          show new.drop (nc + n) = (new.drop nc).drop n from by
            rw [List.drop_drop, Nat.add_comm]]
        exact (List.take_append_drop n (new.drop nc)).symm
      rw [hsplit]
      simp only [insPayload, h3]
      exact hr.append_left _

/-- C9: in every script a successful `ComputeEditScript A B` returns, the
decoded opcode stream is valid for `(A, B)` — in particular each `Insert`
chunk's payload is the contiguous slice of `B` that starts at the current
`New` cursor, so consecutive inserts of a run reference contiguous bytes of
`B` — and the `Insert` payloads concatenated in emission order form a
subsequence of `B` in order. -/
theorem C9_payload_invariant (old new : List Nat) (cap : Nat)
    (h : 0 ≤ (ComputeEditScript old new cap).1) :
    OpsOK old new (decodeOps (ComputeEditScript old new cap).2) 0 0
    ∧ (insPayload (decodeOps (ComputeEditScript old new cap).2)).Sublist new := by
  obtain ⟨rs, Ds, heq, hok, _⟩ := ComputeEditScript_runs old new cap
  have hwf := runsWF_of_RunsOKFrom old new rs 0 0 hok
  by_cases hle : scriptSpace rs ≤ cap
  · have h2 : (ComputeEditScript old new cap).2 = encCat new rs := by
      rw [heq, emitRuns_ok cap new rs [] hwf (by simp only [List.length_nil]; omega)]
      exact List.nil_append _
    rw [h2]
    have hops := OpsOK_of_runs old new rs 0 0 hok
    refine ⟨hops, ?_⟩
    have := insPayload_sublist old new (decodeOps (encCat new rs)) 0 0 hops
    rwa [List.drop_zero] at this
  · exfalso
    have := emitRuns_overflow cap new rs [] hwf (by simp)
      (by simp only [List.length_nil]; omega)
    rw [heq] at h
    omega

theorem C9_payload_invariant_witness :
    0 ≤ (ComputeEditScript [97, 99] [97, 98, 99] 7).1
    ∧ (OpsOK [97, 99] [97, 98, 99]
        (decodeOps (ComputeEditScript [97, 99] [97, 98, 99] 7).2) 0 0
      ∧ (insPayload (decodeOps (ComputeEditScript [97, 99] [97, 98, 99] 7).2)).Sublist
          [97, 98, 99]) :=
  ⟨by decide, C9_payload_invariant [97, 99] [97, 98, 99] 7 (by decide)⟩

/-- C10: in the script a successful `ComputeEditScript A B` returns, the sum
of all `Keep` counts plus all `Delete` counts is at most `|A|`; replaying the
script leaves the `Old` cursor at most `|A|`, so every `Keep` copy and the
tail copy read within the first `|A|` bytes of `Old`. -/
theorem C10_old_consumption (old new : List Nat) (cap : Nat)
    (h : 0 ≤ (ComputeEditScript old new cap).1) :
    kdCountOps (decodeOps (ComputeEditScript old new cap).2) ≤ old.length
    ∧ (loopSim old (decodeOps (ComputeEditScript old new cap).2) 0 []).2.1 ≤ old.length := by
  obtain ⟨rs, Ds, heq, hok, _⟩ := ComputeEditScript_runs old new cap
  have hwf := runsWF_of_RunsOKFrom old new rs 0 0 hok
  have hsums := RunsOKFrom_sums old new rs 0 0 hok
  by_cases hle : scriptSpace rs ≤ cap
  · have h2 : (ComputeEditScript old new cap).2 = encCat new rs := by
      rw [heq, emitRuns_ok cap new rs [] hwf (by simp only [List.length_nil]; omega)]
      exact List.nil_append _
    rw [h2]
    constructor
    · rw [(decode_counts new rs hwf).1]
      omega
    · have hops := OpsOK_of_runs old new rs 0 0 hok
      have hsim := loopSim_OpsOK old new (decodeOps (encCat new rs)) 0 0 hops
      rw [show new.take 0 = ([] : List Nat) from rfl] at hsim
      obtain ⟨_, ocF, ncF, hfin, hocF, _⟩ := hsim
      rw [hfin]
      exact hocF
  · exfalso
    have := emitRuns_overflow cap new rs [] hwf (by simp)
      (by simp only [List.length_nil]; omega)
    rw [heq] at h
    omega

theorem C10_old_consumption_witness :
    0 ≤ (ComputeEditScript [97, 99] [98] 7).1
    ∧ (kdCountOps (decodeOps (ComputeEditScript [97, 99] [98] 7).2)
        ≤ ([97, 99] : List Nat).length
      ∧ (loopSim [97, 99] (decodeOps (ComputeEditScript [97, 99] [98] 7).2) 0 []).2.1
        ≤ ([97, 99] : List Nat).length) :=
  ⟨by decide, C10_old_consumption [97, 99] [98] 7 (by decide)⟩

/-! ## The Myers shortest edit distance -/

/-- The Levenshtein distance without substitutions (insertions and deletions
only) — the length of a shortest edit script in Myers' sense. Fueled so that
it is a structural recursion; each recursive call shrinks the total length,
so total length is enough fuel. -/
def editDistF : Nat → List Nat → List Nat → Nat
  | _, [], ys => ys.length
  | _, x :: xs, [] => (x :: xs).length
  | 0, _ :: _, _ :: _ => 0
  | f + 1, x :: xs, y :: ys =>
    if x = y then editDistF f xs ys
    else 1 + min (editDistF f (x :: xs) ys) (editDistF f xs (y :: ys))

def editDist (a b : List Nat) : Nat := editDistF (a.length + b.length) a b

theorem editDistF_nil_left (f : Nat) (ys : List Nat) : editDistF f [] ys = ys.length := by
  cases f <;> rfl

theorem editDistF_nil_right (f : Nat) (xs : List Nat) : editDistF f xs [] = xs.length := by
  cases f <;> cases xs <;> rfl

theorem editDistF_cons (f : Nat) (x y : Nat) (xs ys : List Nat) :
    editDistF (f + 1) (x :: xs) (y :: ys) =
      if x = y then editDistF f xs ys
      else 1 + min (editDistF f (x :: xs) ys) (editDistF f xs (y :: ys)) := rfl

theorem editDistF_fuel : ∀ (f1 : Nat) (xs ys : List Nat) (f2 : Nat),
    xs.length + ys.length ≤ f1 → xs.length + ys.length ≤ f2 →
    editDistF f1 xs ys = editDistF f2 xs ys := by
  intro f1
  induction f1 with
  | zero =>
    intro xs ys f2 h1 _
    have hx : xs = [] := List.length_eq_zero.mp (by omega)
    subst hx
    rw [editDistF_nil_left, editDistF_nil_left]
  | succ f ih =>
    intro xs ys f2 h1 h2
    cases xs with
    | nil => rw [editDistF_nil_left, editDistF_nil_left]
    | cons x xs =>
      cases ys with
      | nil => rw [editDistF_nil_right, editDistF_nil_right]
      | cons y ys =>
        cases f2 with
        | zero =>
          exfalso
          simp only [List.length_cons] at h2
          omega
        | succ f2 =>
          simp only [List.length_cons] at h1 h2
          rw [editDistF_cons, editDistF_cons,
            ih xs ys f2 (by omega) (by omega),
            ih (x :: xs) ys f2 (by simp only [List.length_cons]; omega)
              (by simp only [List.length_cons]; omega),
            ih xs (y :: ys) f2 (by simp only [List.length_cons]; omega)
              (by simp only [List.length_cons]; omega)]

theorem editDist_nil_left (ys : List Nat) : editDist [] ys = ys.length :=
  editDistF_nil_left _ ys

theorem editDist_nil_right (xs : List Nat) : editDist xs [] = xs.length :=
  editDistF_nil_right _ xs

theorem editDist_cons (x y : Nat) (xs ys : List Nat) :
    editDist (x :: xs) (y :: ys) =
      if x = y then editDist xs ys
      else 1 + min (editDist (x :: xs) ys) (editDist xs (y :: ys)) := by
  have hL : (x :: xs).length + (y :: ys).length = (xs.length + ys.length + 1) + 1 := by
    simp only [List.length_cons]
    omega
  show editDistF ((x :: xs).length + (y :: ys).length) (x :: xs) (y :: ys) = _
  rw [hL, editDistF_cons,
    editDistF_fuel (xs.length + ys.length + 1) xs ys (xs.length + ys.length)
      (by omega) (by omega),
    editDistF_fuel (xs.length + ys.length + 1) (x :: xs) ys
      ((x :: xs).length + ys.length)
      (by simp only [List.length_cons]; omega) (by simp only [List.length_cons]; omega),
    editDistF_fuel (xs.length + ys.length + 1) xs (y :: ys)
      (xs.length + (y :: ys).length)
      (by simp only [List.length_cons]; omega) (by simp only [List.length_cons]; omega)]
  rfl

theorem editDist_self : ∀ (l : List Nat), editDist l l = 0 := by
  intro l
  induction l with
  | nil => rfl
  | cons x xs ih => rw [editDist_cons, if_pos rfl, ih]

/-- The four one-step bounds: prepending a byte to either list moves the
distance by at most one in each direction. -/
theorem editDist_bounds : ∀ (N : Nat) (xs ys : List Nat), xs.length + ys.length ≤ N →
    (∀ y, editDist xs (y :: ys) ≤ 1 + editDist xs ys)
    ∧ (∀ x, editDist (x :: xs) ys ≤ 1 + editDist xs ys)
    ∧ (∀ x, editDist xs ys ≤ 1 + editDist (x :: xs) ys)
    ∧ (∀ y, editDist xs ys ≤ 1 + editDist xs (y :: ys)) := by
  intro N
  induction N with
  | zero =>
    intro xs ys h
    have hx : xs = [] := List.length_eq_zero.mp (by omega)
    have hy : ys = [] := List.length_eq_zero.mp (by omega)
    subst hx
    subst hy
    refine ⟨?_, ?_, ?_, ?_⟩ <;> intro a <;>
      simp [editDist_nil_left, editDist_nil_right]
  | succ N ih =>
    intro xs ys hN
    refine ⟨?_, ?_, ?_, ?_⟩
    · intro y
      cases xs with
      | nil =>
        rw [editDist_nil_left, editDist_nil_left]
        simp only [List.length_cons]
        omega
      | cons x xs =>
        simp only [List.length_cons] at hN
        rw [editDist_cons]
        by_cases hxy : x = y
        · rw [if_pos hxy]
          exact (ih xs ys (by omega)).2.2.1 x
        · rw [if_neg hxy]
          have := Nat.min_le_left (editDist (x :: xs) ys) (editDist xs (y :: ys))
          omega
    · intro x
      cases ys with
      | nil =>
        rw [editDist_nil_right, editDist_nil_right]
        simp only [List.length_cons]
        omega
      | cons y ys =>
        simp only [List.length_cons] at hN
        rw [editDist_cons]
        by_cases hxy : x = y
        · rw [if_pos hxy]
          exact (ih xs ys (by omega)).2.2.2 y
        · rw [if_neg hxy]
          have := Nat.min_le_right (editDist (x :: xs) ys) (editDist xs (y :: ys))
          omega
    · intro x
      cases ys with
      | nil =>
        rw [editDist_nil_right, editDist_nil_right]
        simp only [List.length_cons]
        omega
      | cons y ys =>
        simp only [List.length_cons] at hN
        rw [editDist_cons]
        by_cases hxy : x = y
        · rw [if_pos hxy]
          exact (ih xs ys (by omega)).1 y
        · rw [if_neg hxy]
          rcases le_total (editDist (x :: xs) ys) (editDist xs (y :: ys)) with hm | hm
          · rw [min_eq_left hm]
            have h1 := (ih xs ys (by omega)).1 y
            have h2 := (ih xs ys (by omega)).2.2.1 x
            omega
          · rw [min_eq_right hm]
            omega
    · intro y
      cases xs with
      | nil =>
        rw [editDist_nil_left, editDist_nil_left]
        simp only [List.length_cons]
        omega
      | cons x xs =>
        simp only [List.length_cons] at hN
        rw [editDist_cons]
        by_cases hxy : x = y
        · rw [if_pos hxy]
          exact (ih xs ys (by omega)).2.1 x
        · rw [if_neg hxy]
          rcases le_total (editDist (x :: xs) ys) (editDist xs (y :: ys)) with hm | hm
          · rw [min_eq_left hm]
            omega
          · rw [min_eq_right hm]
            have h1 := (ih xs ys (by omega)).2.1 x
            have h2 := (ih xs ys (by omega)).2.2.2 y
            omega

theorem editDist_ins (xs ys : List Nat) (y : Nat) :
    editDist xs (y :: ys) ≤ 1 + editDist xs ys :=
  (editDist_bounds (xs.length + ys.length) xs ys (le_refl _)).1 y

theorem editDist_del (xs ys : List Nat) (x : Nat) :
    editDist (x :: xs) ys ≤ 1 + editDist xs ys :=
  (editDist_bounds (xs.length + ys.length) xs ys (le_refl _)).2.1 x

theorem drop_cons_getD (l : List Nat) (i : Nat) (h : i < l.length) :
    l.drop i = l.getD i 0 :: l.drop (i + 1) := by
  rw [List.drop_eq_getElem_cons h, List.getD_eq_getElem l 0 h]

/-- Dropping `n` matching bytes from both sides leaves the distance
unchanged. -/
theorem editDist_drop_eq (old new : List Nat) : ∀ (n oc nc : Nat),
    oc + n ≤ old.length → nc + n ≤ new.length →
    (∀ t, t < n → old.getD (oc + t) 0 = new.getD (nc + t) 0) →
    editDist (old.drop oc) (new.drop nc)
      = editDist (old.drop (oc + n)) (new.drop (nc + n)) := by
  intro n
  induction n with
  | zero => intro oc nc _ _ _; rfl
  | succ n ih =>
    intro oc nc h1 h2 h3
    rw [drop_cons_getD old oc (by omega), drop_cons_getD new nc (by omega), editDist_cons,
      if_pos (by have := h3 0 (by omega); simpa using this)]
    have := ih (oc + 1) (nc + 1) (by omega) (by omega)
      (fun t ht => by
        have := h3 (t + 1) (by omega)
        rw [show oc + (t + 1) = oc + 1 + t by omega,
          show nc + (t + 1) = nc + 1 + t by omega] at this
        exact this)
    rw [this, show oc + 1 + n = oc + (n + 1) by omega, show nc + 1 + n = nc + (n + 1) by omega]

/-- Deleting `n` leading bytes of the left side costs at most `n`. -/
theorem editDist_drop_del (old zs : List Nat) : ∀ (n oc : Nat), oc + n ≤ old.length →
    editDist (old.drop oc) zs ≤ n + editDist (old.drop (oc + n)) zs := by
  intro n
  induction n with
  | zero => intro oc _; simp
  | succ n ih =>
    intro oc h
    have h1 : editDist (old.drop oc) zs ≤ 1 + editDist (old.drop (oc + 1)) zs := by
      rw [drop_cons_getD old oc (by omega)]
      exact editDist_del _ _ _
    have h2 := ih (oc + 1) (by omega)
    rw [show oc + 1 + n = oc + (n + 1) by omega] at h2
    omega

/-- Inserting `n` leading bytes on the right side costs at most `n`. -/
theorem editDist_drop_ins (zs new : List Nat) : ∀ (n nc : Nat), nc + n ≤ new.length →
    editDist zs (new.drop nc) ≤ n + editDist zs (new.drop (nc + n)) := by
  intro n
  induction n with
  | zero => intro nc _; simp
  | succ n ih =>
    intro nc h
    have h1 : editDist zs (new.drop nc) ≤ 1 + editDist zs (new.drop (nc + 1)) := by
      rw [drop_cons_getD new nc (by omega)]
      exact editDist_ins _ _ _
    have h2 := ih (nc + 1) (by omega)
    rw [show nc + 1 + n = nc + (n + 1) by omega] at h2
    omega

/-- A valid run list is an edit path: the distance of the unconsumed
suffixes is at most its number of non-diagonal moves. -/
theorem RunsOK_editDist (old new : List Nat) : ∀ (rs : List (Nat × Nat × Int)) (oc nc : Nat),
    RunsOKFrom old new rs oc nc →
    editDist (old.drop oc) (new.drop nc) ≤ movesOf rs := by
  intro rs
  induction rs with
  | nil =>
    intro oc nc h
    obtain ⟨_, _, h3⟩ := h
    rw [h3, editDist_self]
    exact Nat.zero_le _
  | cons r rest ih =>
    obtain ⟨op, n, tok⟩ := r
    intro oc nc h
    rcases h with ⟨h1, h2, h3, h4, h5, h6⟩ | ⟨h1, h2, h3, h4⟩ | ⟨h1, h2, h3, h4, h5⟩
    · subst h1
      have hr := ih (oc + n) (nc + n) h6
      rw [editDist_drop_eq old new n oc nc h3 h4 h5]
      simp only [movesOf]
      rw [if_neg (show ¬(KeepOpcode = DeleteOpcode ∨ KeepOpcode = InsertOpcode) by decide)]
      omega
    · subst h1
      have hr := ih (oc + n) nc h4
      have hd := editDist_drop_del old (new.drop nc) n oc h3
      simp only [movesOf]
      rw [if_pos (Or.inl trivial)]
      omega
    · subst h1
      have hr := ih oc (nc + n) h5
      have hd := editDist_drop_ins (old.drop oc) new n nc h3
      simp only [movesOf]
      rw [if_pos (Or.inr trivial)]
      omega

/-- Any start of an in-bound `d`-move path extends to the goal corner with
`editDist` of the unread suffixes additional moves. -/
theorem editDist_ReachF (old new : List Nat) : ∀ (N x y d : Nat),
    (old.length - x) + (new.length - y) ≤ N →
    x ≤ old.length → y ≤ new.length →
    ReachF old new d x y →
    ReachF old new (d + editDist (old.drop x) (new.drop y))
      old.length new.length := by
  intro N
  induction N with
  | zero =>
    intro x y d h hx hy hr
    have hx0 : x = old.length := by omega
    have hy0 : y = new.length := by omega
    subst hx0
    subst hy0
    rw [List.drop_length, List.drop_length]
    show ReachF old new (d + editDist [] []) old.length new.length
    rw [editDist_nil_left]
    simpa using hr
  | succ N ih =>
    intro x y d h hx hy hr
    by_cases hxe : x = old.length
    · subst hxe
      rw [List.drop_length, editDist_nil_left, List.length_drop]
      have hstep := ReachF_ext_ins old new d old.length y hr (new.length - y) (by omega)
      rw [show y + (new.length - y) = new.length by omega] at hstep
      exact hstep
    · by_cases hye : y = new.length
      · subst hye
        rw [List.drop_length, editDist_nil_right, List.length_drop]
        have hstep := ReachF_ext_del old new d x new.length hr (old.length - x) (by omega)
        rw [show x + (old.length - x) = old.length by omega] at hstep
        exact hstep
      · have hdx : old.drop x = old.getD x 0 :: old.drop (x + 1) :=
          drop_cons_getD old x (by omega)
        have hdy : new.drop y = new.getD y 0 :: new.drop (y + 1) :=
          drop_cons_getD new y (by omega)
        rw [hdx, hdy, editDist_cons, ← hdx, ← hdy]
        by_cases heq : old.getD x 0 = new.getD y 0
        · rw [if_pos heq]
          exact ih (x + 1) (y + 1) d (by omega) (by omega) (by omega)
            (ReachF.diag hr (by omega) (by omega) heq)
        · rw [if_neg heq]
          rcases le_total (editDist (old.drop x) (new.drop (y + 1)))
              (editDist (old.drop (x + 1)) (new.drop y)) with hm | hm
          · rw [min_eq_left hm]
            have := ih x (y + 1) (d + 1) (by omega) (by omega) (by omega)
              (ReachF.ins hr (by omega))
            rw [show d + (1 + editDist (old.drop x) (new.drop (y + 1)))
              = d + 1 + editDist (old.drop x) (new.drop (y + 1)) by omega]
            exact this
          · rw [min_eq_right hm]
            have := ih (x + 1) y (d + 1) (by omega) (by omega) (by omega)
              (ReachF.del hr (by omega))
            rw [show d + (1 + editDist (old.drop (x + 1)) (new.drop y))
              = d + 1 + editDist (old.drop (x + 1)) (new.drop y) by omega]
            exact this

/-- The wave number `ComputeEditScript`'s run list realises is exactly the
shortest edit distance: the runs give an edit path (upper bound), and any
start extends to the goal within `editDist` waves while no earlier wave
reaches it (lower bound). -/
theorem movesOf_eq_editDist (old new : List Nat) (rs : List (Nat × Nat × Int)) (Ds : Nat)
    (hok : RunsOKFrom old new rs 0 0) (hmoves : movesOf rs = Ds)
    (hmin : ∀ d k, validDK d k → d < Ds → ¬ goalDK old new d k) :
    movesOf rs = editDist old new := by
  have hlow : editDist old new ≤ movesOf rs := by
    have := RunsOK_editDist old new rs 0 0 hok
    rwa [List.drop_zero, List.drop_zero] at this
  have hre := editDist_ReachF old new (old.length + new.length) 0 0 0
    (by omega) (Nat.zero_le _) (Nat.zero_le _) ReachF.init
  simp only [List.drop_zero, Nat.zero_add] at hre
  obtain ⟨hv, hle⟩ := ReachF_le_mEntry old new (editDist old new) old.length new.length hre
  have hb := mEntry_basic old new (editDist old new)
    ((old.length : Int) - (new.length : Int)) hv
  have hg : goalDK old new (editDist old new) ((old.length : Int) - (new.length : Int)) := by
    refine ⟨hle, ?_⟩
    omega
  have hup : Ds ≤ editDist old new := by
    by_contra hlt
    exact hmin (editDist old new) ((old.length : Int) - (new.length : Int)) hv
      (by omega) hg
  omega

/-- C2: for all `A` and `B`, given a sufficient script buffer (success is
enough), the sum of the `Insert` counts plus the `Delete` counts in the
script `ComputeEditScript A B` returns equals the Myers shortest edit
distance — the minimum number of single-byte insertions plus deletions
transforming `A` into `B`. -/
theorem C2_optimality (old new : List Nat) (cap : Nat)
    (h : 0 ≤ (ComputeEditScript old new cap).1) :
    idCountOps (decodeOps (ComputeEditScript old new cap).2) = editDist old new := by
  obtain ⟨rs, Ds, heq, hok, hmoves, hgoal, hmin⟩ := ComputeEditScript_runs old new cap
  have hwf := runsWF_of_RunsOKFrom old new rs 0 0 hok
  by_cases hle : scriptSpace rs ≤ cap
  · have h2 : (ComputeEditScript old new cap).2 = encCat new rs := by
      rw [heq, emitRuns_ok cap new rs [] hwf (by simp only [List.length_nil]; omega)]
      exact List.nil_append _
    rw [h2, (decode_counts new rs hwf).2]
    exact movesOf_eq_editDist old new rs Ds hok hmoves hmin
  · exfalso
    have := emitRuns_overflow cap new rs [] hwf (by simp)
      (by simp only [List.length_nil]; omega)
    rw [heq] at h
    omega

theorem C2_optimality_witness :
    0 ≤ (ComputeEditScript [97, 99] [97, 98, 99] 7).1
    ∧ idCountOps (decodeOps (ComputeEditScript [97, 99] [97, 98, 99] 7).2)
        = editDist [97, 99] [97, 98, 99] :=
  ⟨by decide, C2_optimality [97, 99] [97, 98, 99] 7 (by decide)⟩

end Diflib
